import Mathlib

/-!
# Dining philosophers simulator: embedding and checked properties

The C program runs one thread per philosopher plus one monitor thread over a
shared `t_table`.  The embedding has three layers.

* The data model (`Philo`, `Table`, `World`).  `World` is the shared memory the
  threads act on: the table, the state of the fork mutexes, the lines printed so
  far and the millisecond clock.
* The atomic operations.  Every critical section of the source (a block between
  `pthread_mutex_lock` and `pthread_mutex_unlock` on one lock) and every clock
  read is one atomic operation on `World`.
* The thread code.  Each C function that runs in a thread is a tree of atomic
  operations (`Prog`); the tree branches on the value an operation returns.  A
  tree can be run alone (`Prog.run`) or interleaved with other trees, one atomic
  operation at a time (`Sys.step`).

Integers of the source (`int`, `time_t`) are unbounded integers here: the sums
and differences the program forms in `time_t` and the counters it keeps in `int`
are assumed to stay in range.  The one place where the source stores a `time_t`
value in an `int`, the variable `elapsed_time` of `hasPhiloDied`, is embedded
with the conversion (`toInt32`).  Unbounded `while` loops take a bound on their
number of rounds; a loop that uses up its bound ends in `Prog.spin`, which never
returns.
-/

namespace Philosophers

/-! ## Data model (philo.h) -/

/-- The status codes of `enum e_status`. -/
inductive STATUS where
  | GOT_RIGHT_FORK
  | GOT_LEFT_FORK
  | EATING
  | SLEEPING
  | THINKING
  | DIED
  deriving DecidableEq

/-- One printed line: either a status line of `writeStatus`
(elapsed milliseconds, philosopher id, status) or the monitor's
`ALL MEALS COMPLETE.` line. -/
inductive Line where
  | status (ms : Int) (id : Int) (st : STATUS)
  | allMeals
  deriving DecidableEq

/-- The data fields of `t_philo`.  `fork0` and `fork1` are `fork[0]` and
`fork[1]`; the thread handle and `meal_time_lock` are not data. -/
structure Philo where
  id : Int
  fork0 : Int
  fork1 : Int
  times_ate : Int
  last_meal : Int
  deriving DecidableEq

/-- The data fields of `t_table`. -/
structure Table where
  num_philos : Int
  start_time : Int
  time_to_die : Int
  time_to_eat : Int
  time_to_sleep : Int
  sim_stop : Bool
  min_dining : Int
  philos : List Philo
  deriving DecidableEq

/-- The philosopher record at position `i` of `table->philos`.  Positions
outside the array are never read by a table that `initTable` built; the
embedding gives them an all-zero record. -/
def Table.philo (t : Table) (i : Nat) : Philo :=
  t.philos.getD i ⟨0, 0, 0, 0, 0⟩

/-- Replace the record at position `i` by its image under `g`. -/
def modifyAt (g : Philo → Philo) : Nat → List Philo → List Philo
  | _, [] => []
  | 0, p :: ps => g p :: ps
  | i + 1, p :: ps => p :: modifyAt g i ps

/-- The shared memory.  `locked f` tells whether `fork_locks[f]` is locked,
`held i` lists the forks that philosopher `i` (by position) has locked and not
yet unlocked, `out` is standard output, and `time n` is the value of the
`n`-th call of `getTimeIn_ms` (`ticks` calls were made so far). -/
structure World where
  table : Table
  locked : Int → Bool
  held : Nat → List Int
  out : List Line
  time : Nat → Int
  ticks : Nat

/-! ## Atomic operations -/

/-- The clock read of time.c: returns the next reading. -/
def getTimeIn_ms (w : World) : Int × World :=
  (w.time w.ticks, { w with ticks := w.ticks + 1 })

/-- The status printer of output.c: one line with the time since `start_time`,
the philosopher's id and the status. -/
def writeStatus (i : Nat) (st : STATUS) (w : World) : World :=
  let r := getTimeIn_ms w
  { r.2 with out := r.2.out ++ [Line.status (r.1 - r.2.table.start_time) (r.2.table.philo i).id st] }

/-- The death report of monitor.c: under `sim_stop_lock`, if `sim_stop` is
false set it and print the `DIED` line of philosopher `i`. -/
def reportDeath (i : Nat) (w : World) : World :=
  if w.table.sim_stop = false then
    writeStatus i STATUS.DIED { w with table := { w.table with sim_stop := true } }
  else
    w

/-- The body of `stampLastMeal` (philosopher.c): under `meal_time_lock`,
`last_meal = getTimeIn_ms()`. -/
def stampLastMeal (i : Nat) (w : World) : World :=
  let r := getTimeIn_ms w
  { r.2 with table := { r.2.table with
      philos := modifyAt (fun p => { p with last_meal := r.1 }) i r.2.table.philos } }

/-- The body of `updateTimesAte` (philosopher.c): under `meal_time_lock`,
`times_ate ++`. -/
def updateTimesAte (i : Nat) (w : World) : World :=
  { w with table := { w.table with
      philos := modifyAt (fun p => { p with times_ate := p.times_ate + 1 }) i w.table.philos } }

/-- Operations that return nothing. -/
inductive Act where
  | reportDeath (i : Nat)
  | writeStatus (i : Nat) (st : STATUS)
  | stampLastMeal (i : Nat)
  | updateTimesAte (i : Nat)
  | lock (i : Nat) (f : Int)
  | unlock (i : Nat) (f : Int)
  | setStop
  | printAllMeals
  | usleep
  deriving DecidableEq

/-- Operations that return an integer: a clock read, the elapsed time
`getTimeIn_ms() - last_meal` read under `meal_time_lock`, and `times_ate`
read under `meal_time_lock`. -/
inductive Read where
  | getTime
  | elapsed (i : Nat)
  | timesAte (i : Nat)
  deriving DecidableEq

/-- The effect of an operation of `Act`; `none` when the calling thread has to
wait (`pthread_mutex_lock` on a locked fork). -/
def Act.exec : Act → World → Option World
  | .reportDeath i, w => some (Philosophers.reportDeath i w)
  | .writeStatus i st, w => some (Philosophers.writeStatus i st w)
  | .stampLastMeal i, w => some (Philosophers.stampLastMeal i w)
  | .updateTimesAte i, w => some (Philosophers.updateTimesAte i w)
  | .lock i f, w =>
      if w.locked f = true then none
      else some { w with locked := Function.update w.locked f true,
                         held := Function.update w.held i (f :: w.held i) }
  | .unlock i f, w =>
      some { w with locked := Function.update w.locked f false,
                    held := Function.update w.held i ((w.held i).erase f) }
  | .setStop, w => some { w with table := { w.table with sim_stop := true } }
  | .printAllMeals, w => some { w with out := w.out ++ [Line.allMeals] }
  | .usleep, w => some w

/-- The value and effect of an operation of `Read`. -/
def Read.exec : Read → World → Int × World
  | .getTime, w => getTimeIn_ms w
  | .elapsed i, w =>
      let r := getTimeIn_ms w
      (r.1 - (r.2.table.philo i).last_meal, r.2)
  | .timesAte i, w => ((w.table.philo i).times_ate, w)

/-! ## Thread code as trees of atomic operations -/

/-- Code of a thread that returns a value of type `α`.  `stopped k` reads
`sim_stop` under `sim_stop_lock` and continues with `k`. -/
inductive Prog (α : Type) where
  | ret (a : α)
  | stopped (k : Bool → Prog α)
  | read (r : Read) (k : Int → Prog α)
  | act (a : Act) (k : Prog α)
  | spin

/-- Sequencing. -/
def Prog.bind {α β : Type} : Prog α → (α → Prog β) → Prog β
  | .ret a, g => g a
  | .stopped k, g => .stopped fun b => (k b).bind g
  | .read r k, g => .read r fun v => (k v).bind g
  | .act a k, g => .act a (k.bind g)
  | .spin, _ => .spin

/-- Run a thread alone until it returns.  `none` when it waits for a fork that
nobody will release or when a loop bound is used up. -/
def Prog.run {α : Type} : Prog α → World → Option (α × World)
  | .ret a, w => some (a, w)
  | .stopped k, w => (k w.table.sim_stop).run w
  | .read r k, w => (k (r.exec w).1).run (r.exec w).2
  | .act a k, w =>
      match a.exec w with
      | some w1 => k.run w1
      | none => none
  | .spin, _ => none

/-- One atomic operation of a thread; `none` when the thread has returned,
waits for a fork, or spins. -/
def Prog.step {α : Type} : Prog α → World → Option (Prog α × World)
  | .ret _, _ => none
  | .stopped k, w => some (k w.table.sim_stop, w)
  | .read r k, w => some (k (r.exec w).1, (r.exec w).2)
  | .act a k, w =>
      match a.exec w with
      | some w1 => some (k, w1)
      | none => none
  | .spin, _ => none

/-- The running threads and the shared memory. -/
structure Sys where
  threads : List (Prog Unit)
  world : World

/-- Let thread `i` do its next atomic operation (nothing happens when it
cannot). -/
def Sys.step (s : Sys) (i : Nat) : Sys :=
  match s.threads[i]? with
  | none => s
  | some p =>
      match p.step s.world with
      | none => s
      | some r => { threads := s.threads.set i r.1, world := r.2 }

/-- Run a schedule: the list of thread numbers in the order they move. -/
def Sys.run (s : Sys) (sched : List Nat) : Sys :=
  sched.foldl Sys.step s

/-! ## monitor.c -/

/-- The value an `int` variable holds after a `time_t` value is stored in it:
the value reduced modulo 2^32 into the range -2^31 .. 2^31 - 1 (the conversion
is implementation-defined in C; gcc and clang reduce modulo 2^32). -/
def toInt32 (x : Int) : Int :=
  (x + 2147483648) % 4294967296 - 2147483648

/-- The starvation check of one philosopher.  The `time_t` difference
`getTimeIn_ms() - last_meal` is stored in the `int` variable `elapsed_time`, and
that `int` is compared with `time_to_die`. -/
def hasPhiloDied (t : Table) (i : Nat) : Prog Bool :=
  .read (.elapsed i) fun elapsed =>
    if toInt32 elapsed ≥ t.time_to_die then
      .act (.reportDeath i) (.ret true)
    else
      .ret false

/-- The `while (++ i < table->num_philos)` loop of `hasAnyoneDied`, with `n`
rounds left and counter `i`. -/
def hasAnyoneDied.loop (t : Table) : Nat → Nat → Prog Unit
  | 0, _ => .ret ()
  | n + 1, i => (hasPhiloDied t i).bind fun _ => hasAnyoneDied.loop t n (i + 1)

/-- The sweep over all philosophers: read the stop flag, return if set,
otherwise check every philosopher and return the stop flag read afterwards. -/
def hasAnyoneDied (t : Table) : Prog Bool :=
  .stopped fun status =>
    if status then .ret status
    else (hasAnyoneDied.loop t t.num_philos.toNat 0).bind fun _ =>
      .stopped fun status2 => .ret status2

/-- The guarded read of the stop flag. -/
def hasSimStopped : Prog Bool :=
  .stopped fun status => .ret status

/-- The loop of `areMealsCompleted`, with `n` rounds left and counter `i`:
false at the first philosopher with `times_ate < min_dining`. -/
def areMealsCompleted.loop (t : Table) : Nat → Nat → Prog Bool
  | 0, _ => .ret true
  | n + 1, i =>
      .read (.timesAte i) fun times_ate =>
        if times_ate < t.min_dining then .ret false
        else areMealsCompleted.loop t n (i + 1)

/-- The quota check of the monitor. -/
def areMealsCompleted (t : Table) : Prog Bool :=
  areMealsCompleted.loop t t.num_philos.toNat 0

/-! ## time.c -/

/-- The start barrier: poll the clock until it reaches `time`. -/
def simStartDelay (time : Int) : Nat → Prog Unit
  | 0 => .spin
  | n + 1 => .read .getTime fun now => if now < time then simStartDelay time n else .ret ()

/-- The loop of `lullPhilo`: leave when a death is seen or when `session`
milliseconds have passed since `beginning`. -/
def lullPhilo.loop (t : Table) (beginning session : Int) : Nat → Prog Unit
  | 0 => .spin
  | n + 1 =>
      (hasAnyoneDied t).bind fun died =>
        if died = false then
          .read .getTime fun now =>
            if now - beginning < session then .act .usleep (lullPhilo.loop t beginning session n)
            else .ret ()
        else .ret ()

/-- The cancellable delay. -/
def lullPhilo (t : Table) (session : Int) (fuel : Nat) : Prog Unit :=
  .read .getTime fun beginning => lullPhilo.loop t beginning session fuel

/-! ## philosopher.c -/

/-- The thinking duration computed by `thinkingRoutine`: half of
`time_to_die - time_to_eat - time_to_sleep` (C division, rounding towards zero),
halved once more on repeat cycles when it exceeds `time_to_die - elapsed`, where
`elapsed` is `getTimeIn_ms() - last_meal`; then `<= 0` becomes `1` and `> 600`
becomes `200`. -/
def thinking_time (t : Table) (first : Bool) (elapsed : Int) : Int :=
  let t0 := Int.tdiv (t.time_to_die - t.time_to_eat - t.time_to_sleep) 2
  let t1 := if first = false then
      (if t0 > t.time_to_die - elapsed then Int.tdiv t0 2 else t0)
    else t0
  if t1 ≤ 0 then 1
  else if t1 > 600 then 200
  else t1

/-- The eating protocol: six stop checkpoints, two fork locks, the meal stamp,
the eating delay, two unlocks and the meal count. -/
def eatRoutine (t : Table) (i : Nat) (fuel : Nat) : Prog Unit :=
  (hasAnyoneDied t).bind fun d1 => if d1 then .ret () else
  .act (.lock i (t.philo i).fork0) <|
  (hasAnyoneDied t).bind fun d2 => if d2 then .ret () else
  .act (.writeStatus i .GOT_RIGHT_FORK) <|
  (hasAnyoneDied t).bind fun d3 => if d3 then .ret () else
  .act (.lock i (t.philo i).fork1) <|
  (hasAnyoneDied t).bind fun d4 => if d4 then .ret () else
  .act (.writeStatus i .GOT_LEFT_FORK) <|
  .act (.stampLastMeal i) <|
  (hasAnyoneDied t).bind fun d5 => if d5 then .ret () else
  Prog.bind (if t.time_to_eat ≠ 0 then
      Prog.act (.writeStatus i .EATING) (lullPhilo t t.time_to_eat fuel)
    else Prog.ret ()) fun _ =>
  .act (.unlock i (t.philo i).fork0) <|
  .act (.unlock i (t.philo i).fork1) <|
  (hasAnyoneDied t).bind fun d6 => if d6 then .ret () else
  .act (.updateTimesAte i) (.ret ())

/-- The sleeping phase. -/
def sleepRoutine (t : Table) (i : Nat) (fuel : Nat) : Prog Unit :=
  (hasAnyoneDied t).bind fun died =>
    if died = false ∧ t.time_to_sleep ≠ 0 then
      .act (.writeStatus i .SLEEPING) (lullPhilo t t.time_to_sleep fuel)
    else .ret ()

/-- The thinking phase.  The clock and `last_meal` are read (under
`meal_time_lock`) only when `first` is false. -/
def thinkingRoutine (t : Table) (i : Nat) (first : Bool) (fuel : Nat) : Prog Unit :=
  (hasAnyoneDied t).bind fun d1 => if d1 then .ret () else
  Prog.bind (if first = false then Prog.read (.elapsed i) Prog.ret else Prog.ret 0) fun elapsed =>
  (hasAnyoneDied t).bind fun d2 =>
    if d2 = false then
      .act (.writeStatus i .THINKING) (lullPhilo t (thinking_time t first elapsed) fuel)
    else .ret ()

/-- The routine of a philosopher who is alone at the table. -/
def lonePhiloRoutine (t : Table) (i : Nat) (fuel : Nat) : Prog Unit :=
  .act (.lock i (t.philo i).fork0) <|
  .act (.writeStatus i .GOT_RIGHT_FORK) <|
  (lullPhilo t t.time_to_die fuel).bind fun _ =>
  .act (.unlock i (t.philo i).fork0) (.ret ())

/-- The `while (!hasSimStopped(...))` loop of `philosopherRoutine`, with `n`
rounds left. -/
def philosopherRoutine.loop (t : Table) (i : Nat) (fuel : Nat) : Nat → Prog Unit
  | 0 => .spin
  | n + 1 =>
      hasSimStopped.bind fun s =>
        if s then .ret ()
        else (eatRoutine t i fuel).bind fun _ =>
          (sleepRoutine t i fuel).bind fun _ =>
          (thinkingRoutine t i false fuel).bind fun _ =>
          philosopherRoutine.loop t i fuel n

/-- The thread of philosopher `i` (by position). -/
def philosopherRoutine (t : Table) (i : Nat) (fuel : Nat) : Prog Unit :=
  (simStartDelay t.start_time fuel).bind fun _ =>
  (hasPhiloDied t i).bind fun died => if died then .ret () else
  if t.num_philos = 1 then lonePhiloRoutine t i fuel
  else
    Prog.bind (if Int.tmod (t.philo i).id 2 ≠ 0 then thinkingRoutine t i true fuel
      else Prog.ret ()) fun _ =>
    philosopherRoutine.loop t i fuel fuel

/-! ## monitor.c, the monitor thread -/

/-- One round of the `while (true)` loop of `monitor`; the value tells whether
the monitor leaves the loop after it.  The quota check is skipped when
`min_dining` is -1 (`&&` evaluates its right operand only then). -/
def monitor.round (t : Table) : Prog Bool :=
  (hasAnyoneDied t).bind fun died => if died then .ret true else
  hasSimStopped.bind fun s => if s then .ret true else
  Prog.bind (if t.min_dining ≠ -1 then areMealsCompleted t
    else Prog.ret false) fun completed =>
    if completed then
      .act .setStop (.act .printAllMeals (.ret true))
    else .ret false

/-- The `while (true)` loop of `monitor`, with `n` rounds left. -/
def monitor.loop (t : Table) : Nat → Prog Unit
  | 0 => .spin
  | n + 1 => (monitor.round t).bind fun done => if done then .ret () else monitor.loop t n

/-- The monitor thread. -/
def monitor (t : Table) (fuel : Nat) : Prog Unit :=
  (simStartDelay t.start_time fuel).bind fun _ =>
  if t.time_to_die = 0 then .ret ()
  else monitor.loop t fuel

/-! ## init.c and main.c -/

/-- The philosopher records built by `initPhilos`, with `n` rounds of the
loop left and counter `i`.  `last_meal` is not written by `initPhilos`; it is
set by `startSimulator` before any thread runs. -/
def initPhilos.loop (num_philos : Int) : Nat → Nat → List Philo
  | 0, _ => []
  | n + 1, i =>
      { id := (i : Int) + 1, fork0 := (i : Int), fork1 := Int.tmod ((i : Int) + 1) num_philos,
        times_ate := 0, last_meal := 0 } :: initPhilos.loop num_philos n (i + 1)

/-- The array `table->philos` after `initPhilos`. -/
def initPhilos (num_philos : Int) : List Philo :=
  initPhilos.loop num_philos num_philos.toNat 0

/-- The value `atoi(av[k])`; `av` lists the numeric values of the arguments,
position 0 being the program name. -/
def atoi (av : List Int) (k : Nat) : Int :=
  av.getD k 0

/-- The table built by `initTable` when every allocation succeeds.
`start_time` is not written here. -/
def initTable (ac : Int) (av : List Int) : Table :=
  { num_philos := atoi av 1
    start_time := 0
    time_to_die := atoi av 2
    time_to_eat := atoi av 3
    time_to_sleep := atoi av 4
    min_dining := if ac = 6 then atoi av 5 else -1
    philos := initPhilos (atoi av 1)
    sim_stop := false }

/-- The table after the assignments of `startSimulator`: `start_time` is the
clock reading `now` plus 20 ms per philosopher and every `last_meal` is
`start_time`.  The source writes `last_meal` of philosopher `i` just before it
creates thread `i`; here all are written before the first thread moves (each
thread begins by waiting for `start_time`). -/
def startTable (t : Table) (now : Int) : Table :=
  { t with start_time := now + 20 * t.num_philos
           philos := t.philos.map fun p => { p with last_meal := now + 20 * t.num_philos } }

/-- The thread of each philosopher, with `n` rounds of the creation loop left
and counter `i`. -/
def startSimulator.loop (t : Table) (fuel : Nat) : Nat → Nat → List (Prog Unit)
  | 0, _ => []
  | n + 1, i => philosopherRoutine t i fuel :: startSimulator.loop t fuel n (i + 1)

/-- The system that `startSimulator` sets up: one thread per philosopher, then
the monitor thread when there is more than one philosopher; all forks unlocked,
nothing printed, one clock reading used. -/
def startSimulator (t : Table) (time : Nat → Int) (fuel : Nat) : Sys :=
  let t1 := startTable t (time 0)
  { threads := startSimulator.loop t1 fuel t1.num_philos.toNat 0 ++
      (if t1.num_philos > 1 then [monitor t1 fuel] else [])
    world := { table := t1, locked := fun _ => false, held := fun _ => [], out := [],
               time := time, ticks := 1 } }

/-! ## Predicates on thread code -/

/-- Every operation of `Act` that occurs in the tree satisfies `pa`. -/
def Prog.Acts {α : Type} (pa : Act → Prop) : Prog α → Prop
  | .ret _ => True
  | .stopped k => ∀ b, (k b).Acts pa
  | .read _ k => ∀ v, (k v).Acts pa
  | .act a k => pa a ∧ k.Acts pa
  | .spin => True

/-- The tree never spins. -/
def Prog.NoSpin {α : Type} : Prog α → Prop
  | .ret _ => True
  | .stopped k => ∀ b, (k b).NoSpin
  | .read _ k => ∀ v, (k v).NoSpin
  | .act _ k => k.NoSpin
  | .spin => False

/-- The operation is neither a fork lock nor a fork unlock. -/
def Act.forkFree : Act → Prop
  | .lock _ _ => False
  | .unlock _ _ => False
  | _ => True

/-- The operations that occur in the sweep, the delays and the sleeping and
thinking phases: death reports, status lines and `usleep`. -/
def Act.quiet : Act → Prop
  | .reportDeath _ => True
  | .writeStatus _ _ => True
  | .usleep => True
  | _ => False

/-- The operations that occur in a philosopher thread: everything but the two
operations of the monitor's quota branch. -/
def Act.ofPhilo : Act → Prop
  | .setStop => False
  | .printAllMeals => False
  | _ => True

/-- The number of `ALL MEALS COMPLETE.` lines in an output. -/
def allMealsCount (out : List Line) : Nat :=
  out.count Line.allMeals

/-- The number of `DIED` lines in an output. -/
def diedCount (out : List Line) : Nat :=
  out.countP fun l => match l with
    | .status _ _ .DIED => true
    | _ => false

/-- The forks of philosopher `i`: `fork[0]` and `fork[1]` of its record. -/
def ownFork (t : Table) (i : Nat) (f : Int) : Prop :=
  f = (t.philo i).fork0 ∨ f = (t.philo i).fork1

/-- Fork discipline of the code of thread `i` that holds the forks `h`: every
lock and unlock in the tree is made in the name of `i`, every lock is on a fork
that satisfies `own`, every unlock is on a fork held at that point, and `Q` holds
of the value and the held forks at every return. -/
def Prog.Safe {α : Type} (i : Nat) (own : Int → Prop) (Q : α → List Int → Prop) :
    Prog α → List Int → Prop
  | .ret a, h => Q a h
  | .stopped k, h => ∀ b, (k b).Safe i own Q h
  | .read _ k, h => ∀ v, (k v).Safe i own Q h
  | .act a k, h =>
      match a with
      | .lock j f => j = i ∧ own f ∧ k.Safe i own Q (f :: h)
      | .unlock j f => j = i ∧ f ∈ h ∧ k.Safe i own Q (h.erase f)
      | _ => k.Safe i own Q h
  | .spin, _ => True

/-- The fork invariant of a running system over the table `t`: every thread
follows the fork discipline for the forks it holds; a held fork is locked and a
locked fork is held; no fork is held twice, by one philosopher or by two; and a
philosopher holds only forks of its own. -/
structure ForkInv (t : Table) (s : Sys) : Prop where
  safe : ∀ (i : Nat) (p : Prog Unit), s.threads[i]? = some p →
    p.Safe i (ownFork t i) (fun _ _ => True) (s.world.held i)
  locked_of_held : ∀ i f, f ∈ s.world.held i → s.world.locked f = true
  held_of_locked : ∀ f, s.world.locked f = true → ∃ i, f ∈ s.world.held i
  unique : ∀ i j f, f ∈ s.world.held i → f ∈ s.world.held j → i = j
  nodup : ∀ i, (s.world.held i).Nodup
  own : ∀ i f, f ∈ s.world.held i → ownFork t i f

/-- The values of `sim_stop` along a schedule: one before each step, and the
final one. -/
def Sys.stops (s : Sys) : List Nat → List Bool
  | [] => [s.world.table.sim_stop]
  | i :: is => s.world.table.sim_stop :: (s.step i).stops is

/-- The number of places where a list of flags goes from false to true. -/
def rises : List Bool → Nat
  | a :: b :: l => (if a = false ∧ b = true then 1 else 0) + rises (b :: l)
  | _ => 0

/-- The number of places where a list of flags goes from true to false. -/
def falls : List Bool → Nat
  | a :: b :: l => (if a = true ∧ b = false then 1 else 0) + falls (b :: l)
  | _ => 0

/-! ## parsing.c and the start of main.c -/

/-- The argument check of parsing.c on the values `atoi` gives the arguments:
the count must be at least 1, the three times must not be negative, and a fifth
argument (`ac == 6`) must not be negative. -/
def isValid (ac : Int) (av : List Int) : Bool :=
  if atoi av 1 < 1 then false
  else if atoi av 2 < 0 then false
  else if atoi av 3 < 0 then false
  else if atoi av 4 < 0 then false
  else if ac = 6 ∧ atoi av 5 < 0 then false
  else true

/-- The function `main` up to the start of the threads, when every allocation,
mutex and thread creation succeeds: `.error 1` is the return of `EXIT_FAILURE`
before any table is built, `.ok s` is the system that `startSimulator` sets up
(after which `main` joins the threads and returns `EXIT_SUCCESS`). -/
def main (ac : Int) (av : List Int) (time : Nat → Int) (fuel : Nat) : Except Int Sys :=
  if ac < 5 ∨ ac > 6 then .error 1
  else if isValid ac av = false then .error 1
  else .ok (startSimulator (initTable ac av) time fuel)

/-! ## Operations by thread -/

/-- The only operation of the sweep: a death report. -/
def Act.isReport : Act → Prop
  | .reportDeath _ => True
  | _ => False

/-- The operations of the cancellable delay: death reports and `usleep`. -/
def Act.poll : Act → Prop
  | .reportDeath _ => True
  | .usleep => True
  | _ => False

/-- The operations that the thread of philosopher `i` performs: death reports
for anybody, `usleep`, and, in its own name only, status lines other than `DIED`,
the meal stamp, the meal count and fork locks and unlocks. -/
def Act.byPhilo (i : Nat) : Act → Prop
  | .reportDeath _ => True
  | .usleep => True
  | .writeStatus j st => j = i ∧ st ≠ STATUS.DIED
  | .stampLastMeal j => j = i
  | .updateTimesAte j => j = i
  | .lock j _ => j = i
  | .unlock j _ => j = i
  | .setStop => False
  | .printAllMeals => False

/-- The operations that the monitor thread performs: death reports, setting
the stop flag and printing `ALL MEALS COMPLETE.`. -/
def Act.byMonitor : Act → Prop
  | .reportDeath _ => True
  | .setStop => True
  | .printAllMeals => True
  | _ => False

/-- The operations of all threads: `DIED` is printed by `reportDeath` only. -/
def Act.byThread : Act → Prop
  | .writeStatus _ st => st ≠ STATUS.DIED
  | _ => True

/-! ## Predicates for the meal count -/

/-- The operation is not a meal count. -/
def Act.keepsMeals : Act → Prop
  | .updateTimesAte _ => False
  | _ => True

/-- From every world that satisfies `J`, every run of `m` that returns does so
with a value and a world that satisfy `Q`. -/
def Prog.Triple {α : Type} (J : World → Prop) (m : Prog α) (Q : α → World → Prop) : Prop :=
  ∀ w r, J w → m.run w = some r → Q r.1 r.2

/-- Every meal stamp in the tree is made while the forks `f0` and `f1` are both
among the forks locked and not yet unlocked, `h` being those at the root. -/
def Prog.StampsHolding {α : Type} (f0 f1 : Int) : Prog α → List Int → Prop
  | .ret _, _ => True
  | .stopped k, h => ∀ b, (k b).StampsHolding f0 f1 h
  | .read _ k, h => ∀ v, (k v).StampsHolding f0 f1 h
  | .act a k, h =>
      match a with
      | .lock _ f => k.StampsHolding f0 f1 (f :: h)
      | .unlock _ f => k.StampsHolding f0 f1 (h.erase f)
      | .stampLastMeal _ => (f0 ∈ h ∧ f1 ∈ h) ∧ k.StampsHolding f0 f1 h
      | _ => k.StampsHolding f0 f1 h
  | .spin, _ => True

/-- The world `x` has the meal counts of `w0`, and the last-meal times of `w0`
for every philosopher but `i`. -/
def mealsKept (w0 : World) (i : Nat) (x : World) : Prop :=
  x.table.philos.length = w0.table.philos.length ∧
  (∀ j, (x.table.philo j).times_ate = (w0.table.philo j).times_ate) ∧
  (∀ j, j ≠ i → (x.table.philo j).last_meal = (w0.table.philo j).last_meal)

/-- The world `x` differs from `w0` in the meal counts as one call of
`eatRoutine` by philosopher `i` allows: the count of `i` is one more when the
stop flag is unset and the same when it is set; the counts and last-meal times
of the other philosophers are the same. -/
def mealsAfter (w0 : World) (i : Nat) (x : World) : Prop :=
  (x.table.sim_stop = false →
    (x.table.philo i).times_ate = (w0.table.philo i).times_ate + 1) ∧
  (x.table.sim_stop = true →
    (x.table.philo i).times_ate = (w0.table.philo i).times_ate) ∧
  (∀ j, j ≠ i → (x.table.philo j).times_ate = (w0.table.philo j).times_ate ∧
    (x.table.philo j).last_meal = (w0.table.philo j).last_meal)

/-! ## Predicates for the last-meal time -/

/-- Clock discipline of a thread for the start time `start`.  The flag tells
whether the thread has already taken a clock reading of at least `start`; a
clock read that returns such a reading raises it.  Every read of an elapsed time
and every meal stamp in the tree is made with the flag raised, and `Q` holds of
the value and the flag at every return. -/
def Prog.Timed {α : Type} (start : Int) (Q : α → Bool → Prop) : Prog α → Bool → Prop
  | .ret a, b => Q a b
  | .stopped k, b => ∀ x, (k x).Timed start Q b
  | .read r k, b =>
      match r with
      | .getTime => ∀ v, (k v).Timed start Q (b || decide (start ≤ v))
      | .elapsed _ => b = true ∧ ∀ v, (k v).Timed start Q b
      | .timesAte _ => ∀ v, (k v).Timed start Q b
  | .act a k, b =>
      match a with
      | .stampLastMeal _ => b = true ∧ k.Timed start Q b
      | _ => k.Timed start Q b
  | .spin, _ => True

/-- The clock invariant of a running system with clock `time` and start time
`start`: the clock is `time`; every thread follows the clock discipline, and a
thread whose flag is raised has a reading of at least `start` among the readings
taken so far; every `last_meal` is `start` or one of the readings taken so
far. -/
structure ClockInv (time : Nat → Int) (start : Int) (s : Sys) : Prop where
  clock : s.world.time = time
  timed : ∀ (i : Nat) (p : Prog Unit), s.threads[i]? = some p →
    ∃ b, p.Timed start (fun _ _ => True) b ∧
      (b = true → ∃ n, n < s.world.ticks ∧ start ≤ time n)
  meals : ∀ p ∈ s.world.table.philos,
    p.last_meal = start ∨ ∃ n, n < s.world.ticks ∧ p.last_meal = time n

/-! ## Observations of a thread -/

/-- What a thread learns or does in one atomic operation: the stop flag it
read, the value an operation of `Read` returned, or an operation of `Act` it
completed. -/
inductive Obs where
  | flag (b : Bool)
  | value (r : Read) (v : Int)
  | did (a : Act)
  deriving DecidableEq

/-- The observation a thread makes with its next atomic operation in world `w`;
`none` where `Prog.step` is `none`. -/
def Prog.obs {α : Type} : Prog α → World → Option Obs
  | .ret _, _ => none
  | .stopped _, w => some (.flag w.table.sim_stop)
  | .read r _, w => some (.value r (r.exec w).1)
  | .act a _, w =>
      match a.exec w with
      | some _ => some (.did a)
      | none => none
  | .spin, _ => none

/-- The code that remains after the thread made observation `o` with its next
atomic operation; `none` when the next operation cannot make it. -/
def Prog.next {α : Type} : Prog α → Obs → Option (Prog α)
  | .stopped k, .flag b => some (k b)
  | .read r k, .value r1 v => if r1 = r then some (k v) else none
  | .act a k, .did a1 => if a1 = a then some k else none
  | _, _ => none

/-- The code that remains after a sequence of observations. -/
def Prog.follow {α : Type} : Prog α → List Obs → Option (Prog α)
  | p, [] => some p
  | p, o :: l =>
      match p.next o with
      | some q => q.follow l
      | none => none

/-- The observations thread `i` makes along a schedule, in order. -/
def Sys.path (s : Sys) (i : Nat) : List Nat → List Obs
  | [] => []
  | j :: sched =>
      (if j = i then
        match s.threads[i]? with
        | some p => (p.obs s.world).toList
        | none => []
      else []) ++ (s.step j).path i sched

/-! ## Inputs used in the checked examples -/

/-- A clock whose readings are the entries of `l` and then `d` for ever. -/
def clockOf (l : List Int) (d : Int) : Nat → Int :=
  fun n => l.getD n d

/-- A two-philosopher table in mid-run: started at 100 ms, `time_to_die` 10 ms,
nobody has eaten since the start. -/
def tableTwo : Table :=
  startTable (initTable 5 [0, 2, 10, 5, 5]) 60

/-- A world over `tableTwo` with all forks free, nothing printed and the clock
at 103 ms. -/
def worldTwo : World :=
  { table := tableTwo, locked := fun _ => false, held := fun _ => [], out := [],
    time := clockOf [] 103, ticks := 0 }

/-- The world `worldTwo` ten milliseconds after the start: both philosophers
have reached `time_to_die`. -/
def worldStarved : World :=
  { worldTwo with time := clockOf [] 110 }

/-- A two-philosopher table with a quota of one meal, started at 100 ms, in
which both philosophers have eaten once. -/
def tableQuota : Table :=
  { startTable (initTable 6 [0, 2, 10, 5, 5, 1]) 60 with
    philos := (startTable (initTable 6 [0, 2, 10, 5, 5, 1]) 60).philos.map
      fun p => { p with times_ate := 1 } }

/-- A world over `tableQuota` with the clock at 103 ms. -/
def worldQuota : World :=
  { table := tableQuota, locked := fun _ => false, held := fun _ => [], out := [],
    time := clockOf [] 103, ticks := 0 }

/-- The world `worldTwo` with a clock that reads 103 ms twice and 110 ms from
then on: the first checkpoint of `eatRoutine` sees nobody starved, the second
one, after the first fork is locked, sees `time_to_die` reached. -/
def worldAbortOne : World :=
  { worldTwo with time := clockOf [103, 103] 110 }

/-- The world `worldTwo` with a clock that reads 103 ms seven times and 110 ms
from then on: `time_to_die` is reached at the checkpoint after the second fork
is locked. -/
def worldAbortTwo : World :=
  { worldTwo with time := clockOf [103, 103, 103, 103, 103, 103, 103] 110 }

/-- The run `./philo 2 10 0 0 1`: two philosophers, `time_to_die` 10 ms, no
eating or sleeping time, quota one meal.  The clock reads 60 ms when
`startSimulator` takes `start_time` (so `start_time` is 100), then 100 ms for 27
readings, 105 ms for 19 readings, and 110 ms from then on. -/
def sysQuota : Sys :=
  startSimulator (initTable 6 [0, 2, 10, 0, 0, 1])
    (clockOf (60 :: (List.replicate 27 100 ++ List.replicate 19 105)) 110) 3

/-- A schedule for `sysQuota`: philosopher 2 eats (35 operations), philosopher
1 thinks and eats (50), the monitor runs one round up to and including its quota
check (8), philosopher 2 runs the sweep of its next checkpoint (4), and the
monitor finishes its round (2). -/
def schedQuota : List Nat :=
  List.replicate 35 1 ++ List.replicate 50 0 ++ List.replicate 8 2 ++ List.replicate 4 1 ++
    List.replicate 2 2

/-- The run `./philo 1 10 5 5` with loop bound `fuel`: one philosopher,
`time_to_die` 10 ms.  The clock reads 80 ms when `startSimulator` takes
`start_time` (so `start_time` is 100), then 100 ms four times, then 109 ms, then
110 ms from then on. -/
def sysLone (fuel : Nat) : Sys :=
  startSimulator (initTable 5 [0, 1, 10, 5, 5]) (clockOf [80, 100, 100, 100, 100, 109] 110) fuel

/-- The run `./philo 2 0 5 5`: two philosophers with `time_to_die` 0.  The
clock reads 60 ms when `startSimulator` takes `start_time` (so `start_time` is
100) and 100 ms from then on. -/
def sysZero : Sys :=
  startSimulator (initTable 5 [0, 2, 0, 5, 5]) (clockOf [60] 100) 1

/-- The world `worldTwo` with a clock that reads 103 ms seventeen times and
108 ms from then on: philosopher 1 eats a whole meal of 5 ms and nobody
starves. -/
def worldMeal : World :=
  { worldTwo with time := clockOf (List.replicate 17 103) 108 }

/-- The world `worldTwo` 2147483648 ms (2^31 ms) after the start, nobody having
eaten since: every clock reading is 2147483748 and every `last_meal` is 100. -/
def worldLate : World :=
  { worldTwo with time := clockOf [] 2147483748 }

/-- A schedule for `sysQuota` that differs from `schedQuota` in the moment at
which philosopher 2 runs the sweep of its next checkpoint: after the monitor's
sweep (5 operations of the monitor) and before the monitor's stop check. -/
def schedStopped : List Nat :=
  List.replicate 35 1 ++ List.replicate 50 0 ++ List.replicate 5 2 ++ List.replicate 4 1 ++
    List.replicate 3 2

/-! # Checked properties -/

/-! ## Properties of the death report, the fork assignment and the thinking time -/

/-- C1. `reportDeath` is a check-and-set.  With `sim_stop` false it sets
`sim_stop`, appends exactly one `DIED` line for philosopher `p` (stamped with the
clock reading taken by `writeStatus`) and leaves the rest of the table and the
forks alone; with `sim_stop` true it changes nothing.  A second call, for the
same or another philosopher `q`, changes nothing after the first. -/
theorem reportDeath_check_and_set (w : World) (p q : Nat) :
    (w.table.sim_stop = false →
      (reportDeath p w).table = { w.table with sim_stop := true } ∧
      (reportDeath p w).out =
        w.out ++ [Line.status (w.time w.ticks - w.table.start_time) (w.table.philo p).id
          STATUS.DIED] ∧
      (reportDeath p w).locked = w.locked ∧ (reportDeath p w).held = w.held) ∧
    (w.table.sim_stop = true → reportDeath p w = w) ∧
    reportDeath q (reportDeath p w) = reportDeath p w := by
  refine ⟨?_, ?_, ?_⟩
  · intro h
    simp [reportDeath, writeStatus, getTimeIn_ms, h, Table.philo]
  · intro h
    simp [reportDeath, h]
  · cases h : w.table.sim_stop
    · simp [reportDeath, writeStatus, getTimeIn_ms, h]
    · simp [reportDeath, h]

/-- C1, at a concrete input: philosopher 1 is reported in `worldTwo`, then
philosopher 2. -/
theorem reportDeath_check_and_set_witness :
    worldTwo.table.sim_stop = false ∧
    (reportDeath 0 worldTwo).out = [Line.status 3 1 STATUS.DIED] ∧
    reportDeath 1 (reportDeath 0 worldTwo) = reportDeath 0 worldTwo :=
  ⟨by decide,
   ((reportDeath_check_and_set worldTwo 0 1).1 (by decide)).2.1.trans (by decide),
   (reportDeath_check_and_set worldTwo 0 1).2.2⟩

/-- Entry `j` of the list built by the loop of `initPhilos` that starts at
counter `k` with `n` rounds left. -/
theorem initPhilos_loop_getElem (N : Int) (n k j : Nat) (h : j < n) :
    (initPhilos.loop N n k)[j]? =
      some { id := ((k + j : Nat) : Int) + 1, fork0 := ((k + j : Nat) : Int),
             fork1 := Int.tmod (((k + j : Nat) : Int) + 1) N, times_ate := 0, last_meal := 0 } := by
  induction n generalizing k j with
  | zero => omega
  | succ n ih =>
    cases j with
    | zero => simp [initPhilos.loop]
    | succ j =>
      have := ih (k + 1) j (by omega)
      simp only [initPhilos.loop, List.getElem?_cons_succ, this]
      have e : k + 1 + j = k + (j + 1) := by omega
      rw [e]

theorem initPhilos_loop_length (N : Int) (n k : Nat) :
    (initPhilos.loop N n k).length = n := by
  induction n generalizing k with
  | zero => rfl
  | succ n ih => simp [initPhilos.loop, ih]

/-- C6. `initPhilos` builds `N` records; the one at position `i` has
`id = i + 1`, `times_ate = 0`, `fork[0] = i` and `fork[1] = (i + 1) mod N`, both
inside `0..N-1`.  For `N >= 2` every position but the last has
`fork[0] < fork[1]`, the last has `fork[0] = N - 1` and `fork[1] = 0`; for `N = 1`
both are `0`. -/
theorem initPhilos_forks (N : Int) (i : Nat) (hN : 1 ≤ N) (hi : (i : Int) < N) :
    (initPhilos N).length = N.toNat ∧
    ∃ p, (initPhilos N)[i]? = some p ∧
      p.id = (i : Int) + 1 ∧ p.times_ate = 0 ∧
      p.fork0 = (i : Int) ∧ p.fork1 = ((i : Int) + 1) % N ∧
      (0 ≤ p.fork0 ∧ p.fork0 < N) ∧ (0 ≤ p.fork1 ∧ p.fork1 < N) ∧
      (2 ≤ N → (i : Int) < N - 1 → p.fork0 < p.fork1) ∧
      (2 ≤ N → (i : Int) = N - 1 → p.fork0 = N - 1 ∧ p.fork1 = 0) ∧
      (N = 1 → p.fork0 = 0 ∧ p.fork1 = 0) := by
  refine ⟨initPhilos_loop_length N _ 0, _, initPhilos_loop_getElem N N.toNat 0 i (by omega), ?_⟩
  have hmod : Int.tmod (((0 + i : Nat) : Int) + 1) N = ((i : Int) + 1) % N := by
    rw [Int.tmod_eq_emod (by omega) (by omega)]
    simp
  rw [hmod]
  have h0 : 0 ≤ ((i : Int) + 1) % N := Int.emod_nonneg _ (by omega)
  have h1 : ((i : Int) + 1) % N < N := Int.emod_lt_of_pos _ (by omega)
  refine ⟨by simp, rfl, by simp, rfl, ⟨by simp, by simpa using hi⟩, ⟨h0, h1⟩, ?_, ?_, ?_⟩
  · intro _ hlt
    have : ((i : Int) + 1) % N = (i : Int) + 1 := Int.emod_eq_of_lt (by omega) (by omega)
    simp only [this]
    simp
  · intro _ he
    have : ((i : Int) + 1) % N = 0 := by
      have : (i : Int) + 1 = N := by omega
      rw [this]
      exact Int.emod_self
    simp only [this]
    simp [he]
  · intro h1N
    have hi0 : i = 0 := by omega
    subst hi0
    subst h1N
    simp

/-- C6, at a concrete input: the last of five philosophers. -/
theorem initPhilos_forks_witness :
    (initPhilos 5).length = 5 ∧
    ∃ p, (initPhilos 5)[4]? = some p ∧
      p.id = 5 ∧ p.times_ate = 0 ∧ p.fork0 = 4 ∧ p.fork1 = 0 := by
  obtain ⟨hl, p, hp, h1, h2, h3, h4, _, _, _, h5, _⟩ :=
    initPhilos_forks 5 4 (by decide) (by decide)
  exact ⟨hl, p, hp, by simpa using h1, h2, by simpa using h3, (h5 (by decide) (by decide)).2⟩

/-- C7, as stated, fails: with `time_to_die = 1000` and no eating or sleeping
time, the first thinking phase lasts 500 ms, more than 200. -/
theorem thinking_time_above_200 :
    thinking_time
      { num_philos := 2, start_time := 0, time_to_die := 1000, time_to_eat := 0,
        time_to_sleep := 0, sim_stop := false, min_dining := -1, philos := initPhilos 2 }
      true 0 = 500 ∧ ¬ ((500 : Int) ≤ 200) := by
  decide

/-- C7, amended.  The duration that `thinkingRoutine` passes to `lullPhilo` is
at least 1 and at most 600 ms, for every configuration, both kinds of cycle and
every elapsed time since the last meal. -/
theorem thinking_time_bounds (t : Table) (first : Bool) (elapsed : Int) :
    1 ≤ thinking_time t first elapsed ∧ thinking_time t first elapsed ≤ 600 := by
  unfold thinking_time
  simp only
  split_ifs <;> omega

/-! ## Running thread code alone -/

theorem Prog.run_bind {α β : Type} (m : Prog α) (g : α → Prog β) (w : World) :
    (m.bind g).run w = (m.run w).bind fun r => (g r.1).run r.2 := by
  induction m generalizing w with
  | ret a => rfl
  | stopped k ih => simp [Prog.bind, Prog.run, ih]
  | read r k ih => simp [Prog.bind, Prog.run, ih]
  | act a k ih =>
    simp only [Prog.bind, Prog.run]
    cases a.exec w <;> simp [ih]
  | spin => rfl

theorem Prog.run_ret {α : Type} (a : α) (w : World) : (Prog.ret a).run w = some (a, w) := rfl

theorem Prog.run_stopped {α : Type} (k : Bool → Prog α) (w : World) :
    (Prog.stopped k).run w = (k w.table.sim_stop).run w := rfl

theorem Prog.run_read {α : Type} (r : Read) (k : Int → Prog α) (w : World) :
    (Prog.read r k).run w = (k (r.exec w).1).run (r.exec w).2 := rfl

theorem Prog.run_act {α : Type} (a : Act) (k : Prog α) (w w1 : World) (h : a.exec w = some w1) :
    (Prog.act a k).run w = k.run w1 := by
  simp [Prog.run, h]

theorem Prog.acts_bind {α β : Type} (pa : Act → Prop) (m : Prog α) (g : α → Prog β)
    (hm : m.Acts pa) (hg : ∀ a, (g a).Acts pa) : (m.bind g).Acts pa := by
  induction m with
  | ret a => exact hg a
  | stopped k ih => exact fun b => ih b (hm b)
  | read r k ih => exact fun v => ih v (hm v)
  | act a k ih => exact ⟨hm.1, ih hm.2⟩
  | spin => trivial

theorem Prog.acts_mono {α : Type} (pa pb : Act → Prop) (m : Prog α)
    (h : ∀ a, pa a → pb a) (hm : m.Acts pa) : m.Acts pb := by
  induction m with
  | ret a => trivial
  | stopped k ih => exact fun b => ih b (hm b)
  | read r k ih => exact fun v => ih v (hm v)
  | act a k ih => exact ⟨h a hm.1, ih hm.2⟩
  | spin => trivial

theorem Prog.noSpin_bind {α β : Type} (m : Prog α) (g : α → Prog β)
    (hm : m.NoSpin) (hg : ∀ a, (g a).NoSpin) : (m.bind g).NoSpin := by
  induction m with
  | ret a => exact hg a
  | stopped k ih => exact fun b => ih b (hm b)
  | read r k ih => exact fun v => ih v (hm v)
  | act a k ih => exact ih hm
  | spin => exact hm.elim

/-- A property of the world that every read and every operation allowed by `pa`
keeps is kept by a whole run. -/
theorem Prog.run_keeps {α : Type} (pa : Act → Prop) (I : World → Prop)
    (hread : ∀ r w, I w → I (Read.exec r w).2)
    (hact : ∀ a w w1, pa a → Act.exec a w = some w1 → I w → I w1)
    (m : Prog α) (hm : m.Acts pa) (w : World) (r : α × World)
    (hrun : m.run w = some r) (hw : I w) : I r.2 := by
  induction m generalizing w with
  | ret a =>
    simp only [Prog.run, Option.some.injEq] at hrun
    subst hrun
    exact hw
  | stopped k ih => exact ih _ (hm _) w hrun hw
  | read rd k ih => exact ih _ (hm _) _ hrun (hread rd w hw)
  | act a k ih =>
    simp only [Prog.run] at hrun
    cases h : a.exec w with
    | none => simp [h] at hrun
    | some w1 =>
      simp only [h] at hrun
      exact ih hm.2 w1 hrun (hact a w w1 hm.1 h hw)
  | spin => simp [Prog.run] at hrun

/-- Code without fork locks that never spins returns from every world. -/
theorem Prog.run_total {α : Type} (m : Prog α) (hm : m.Acts Act.forkFree) (hs : m.NoSpin)
    (w : World) : ∃ r, m.run w = some r := by
  induction m generalizing w with
  | ret a => exact ⟨_, rfl⟩
  | stopped k ih => exact ih _ (hm _) (hs _) w
  | read rd k ih => exact ih _ (hm _) (hs _) _
  | act a k ih =>
    obtain ⟨ha, hk⟩ := hm
    cases a with
    | lock i f => exact ha.elim
    | unlock i f => exact ha.elim
    | reportDeath i => exact ih hk hs _
    | writeStatus i st => exact ih hk hs _
    | stampLastMeal i => exact ih hk hs _
    | updateTimesAte i => exact ih hk hs _
    | setStop => exact ih hk hs _
    | printAllMeals => exact ih hk hs _
    | usleep => exact ih hk hs _
  | spin => exact hs.elim

/-! ## The starvation sweep -/

/-- A value in the range of `int` is stored unchanged. -/
theorem toInt32_of_range (x : Int) (h0 : -2147483648 ≤ x) (h1 : x < 2147483648) :
    toInt32 x = x := by
  unfold toInt32
  omega

theorem hasPhiloDied_run (t : Table) (i : Nat) (w : World) :
    (hasPhiloDied t i).run w =
      if toInt32 (w.time w.ticks - (w.table.philo i).last_meal) ≥ t.time_to_die then
        some (true, reportDeath i { w with ticks := w.ticks + 1 })
      else some (false, { w with ticks := w.ticks + 1 }) := by
  simp only [hasPhiloDied, Prog.run, Read.exec, getTimeIn_ms]
  split_ifs <;> simp [Prog.run, Act.exec]

/-- Once the stop flag is set the sweep only reads the clock. -/
theorem sweep_stopped (t : Table) (n k : Nat) (w : World) (h : w.table.sim_stop = true) :
    (hasAnyoneDied.loop t n k).run w = some ((), { w with ticks := w.ticks + n }) := by
  induction n generalizing k w with
  | zero => rfl
  | succ n ih =>
    rw [hasAnyoneDied.loop, Prog.run_bind, hasPhiloDied_run]
    have e : reportDeath k { w with ticks := w.ticks + 1 } = { w with ticks := w.ticks + 1 } := by
      simp [reportDeath, h]
    rw [e]
    have e2 := ih (k + 1) { w with ticks := w.ticks + 1 } h
    split_ifs <;> simp only [Option.some_bind, e2] <;> simp [Nat.add_assoc, Nat.add_comm 1 n]

/-- The sweep when nobody in the range `k .. k+n-1` has starved: only the clock
is read. -/
theorem sweep_none (t : Table) (now : Int) (n k : Nat) (w : World)
    (hclock : ∀ j, w.time (w.ticks + j) = now)
    (hno : ∀ j, k ≤ j → j < k + n →
      ¬ (toInt32 (now - (w.table.philo j).last_meal) ≥ t.time_to_die)) :
    (hasAnyoneDied.loop t n k).run w = some ((), { w with ticks := w.ticks + n }) := by
  induction n generalizing k w with
  | zero => rfl
  | succ n ih =>
    rw [hasAnyoneDied.loop, Prog.run_bind, hasPhiloDied_run]
    have h0 : w.time w.ticks = now := by simpa using hclock 0
    rw [h0, if_neg (hno k (le_refl k) (by omega))]
    simp only [Option.some_bind]
    rw [ih (k + 1) { w with ticks := w.ticks + 1 }
      (fun j => by simpa [Nat.add_assoc] using hclock (1 + j))
      (fun j h1 h2 => hno j (by omega) (by omega))]
    simp [Nat.add_assoc, Nat.add_comm 1 n]

/-- The sweep when `i` is the first starved philosopher of the range and the stop
flag is not yet set: the flag is set and one `DIED` line for `i` is printed. -/
theorem sweep_first (t : Table) (now : Int) (n k i : Nat) (w : World)
    (hstop : w.table.sim_stop = false)
    (hclock : ∀ j, w.time (w.ticks + j) = now)
    (hk : k ≤ i) (hi : i < k + n)
    (hdead : toInt32 (now - (w.table.philo i).last_meal) ≥ t.time_to_die)
    (hno : ∀ j, k ≤ j → j < i →
      ¬ (toInt32 (now - (w.table.philo j).last_meal) ≥ t.time_to_die)) :
    (hasAnyoneDied.loop t n k).run w =
      some ((), { w with
        table := { w.table with sim_stop := true }
        out := w.out ++ [Line.status (now - w.table.start_time) (w.table.philo i).id STATUS.DIED]
        ticks := w.ticks + n + 1 }) := by
  induction n generalizing k w with
  | zero => omega
  | succ n ih =>
    rw [hasAnyoneDied.loop, Prog.run_bind, hasPhiloDied_run]
    have h0 : w.time w.ticks = now := by simpa using hclock 0
    have h1 : w.time (w.ticks + 1) = now := hclock 1
    rw [h0]
    by_cases hki : k = i
    · subst hki
      rw [if_pos hdead]
      simp only [Option.some_bind]
      rw [sweep_stopped _ _ _ _ (by simp [reportDeath, hstop, writeStatus, getTimeIn_ms])]
      simp [reportDeath, hstop, writeStatus, getTimeIn_ms, h1, Table.philo]
      omega
    · rw [if_neg (hno k (le_refl k) (by omega))]
      simp only [Option.some_bind]
      rw [ih (k + 1) { w with ticks := w.ticks + 1 } hstop
        (fun j => by simpa [Nat.add_assoc] using hclock (1 + j))
        (by omega) (by omega) hdead (fun j h1 h2 => hno j (by omega) h2)]
      simp [Nat.add_assoc, Nat.add_comm 1 n]

set_option maxRecDepth 100000 in
/-- C8, as stated, fails: in `worldLate` the stop flag is unset, every clock
reading is 2147483748 and philosopher 1 has `now - last_meal = 2147483648`, which
is at least `time_to_die = 10`; the `int` that `hasPhiloDied` compares is
-2147483648, so the sweep returns false, sets no flag and prints nothing. -/
theorem hasAnyoneDied_misses_beyond_int :
    worldLate.table.sim_stop = false ∧
    worldLate.time = clockOf [] 2147483748 ∧
    (0 : Int) < worldLate.table.num_philos ∧
    2147483748 - (worldLate.table.philo 0).last_meal ≥ worldLate.table.time_to_die ∧
    toInt32 (2147483748 - (worldLate.table.philo 0).last_meal) = -2147483648 ∧
    ((hasAnyoneDied worldLate.table).run worldLate).map
        (fun r => (r.1, r.2.table.sim_stop, r.2.out)) = some (false, false, []) := by
  refine ⟨by decide, rfl, by decide, by decide, by decide, by decide⟩

/-- C8, amended.  The starvation sweep from a world where the stop flag is not
set, with the clock reading `now` throughout and every philosopher's
`now - last_meal` in the range of `int`.  `hasAnyoneDied` returns true exactly
when some philosopher has `now - last_meal >= time_to_die`.  When it returns true
the stop flag is set and exactly one `DIED` line is appended; it names the first
starved philosopher in table order, which has the lowest id among the starved
ones when the ids are `1..N` in table order (as `initPhilos` assigns them).  When
it returns false the table and the output are unchanged.  The forks are never
touched. -/
theorem hasAnyoneDied_sweep (w : World) (now : Int)
    (hstop : w.table.sim_stop = false)
    (hclock : ∀ j, w.time (w.ticks + j) = now)
    (hrange : ∀ i : Nat, (i : Int) < w.table.num_philos →
      -2147483648 ≤ now - (w.table.philo i).last_meal ∧
      now - (w.table.philo i).last_meal < 2147483648) :
    ∃ b w1, (hasAnyoneDied w.table).run w = some (b, w1) ∧
      (b = true ↔ ∃ i : Nat, (i : Int) < w.table.num_philos ∧
        now - (w.table.philo i).last_meal ≥ w.table.time_to_die) ∧
      (b = true →
        w1.table = { w.table with sim_stop := true } ∧
        ∃ i : Nat, (i : Int) < w.table.num_philos ∧
          now - (w.table.philo i).last_meal ≥ w.table.time_to_die ∧
          (∀ j : Nat, j < i → ¬ (now - (w.table.philo j).last_meal ≥ w.table.time_to_die)) ∧
          ((∀ j : Nat, (j : Int) < w.table.num_philos →
              (w.table.philo j).id = (j : Int) + 1) →
            ∀ j : Nat, (j : Int) < w.table.num_philos →
              now - (w.table.philo j).last_meal ≥ w.table.time_to_die →
              (w.table.philo i).id ≤ (w.table.philo j).id) ∧
          w1.out = w.out ++
            [Line.status (now - w.table.start_time) (w.table.philo i).id STATUS.DIED]) ∧
      (b = false → w1.table = w.table ∧ w1.out = w.out) ∧
      w1.locked = w.locked ∧ w1.held = w.held := by
  have hrun : ∀ w2, (hasAnyoneDied.loop w.table w.table.num_philos.toNat 0).run w = some ((), w2) →
      (hasAnyoneDied w.table).run w = some (w2.table.sim_stop, w2) := by
    intro w2 h2
    simp [hasAnyoneDied, Prog.run, hstop, Prog.run_bind, h2]
  have hint : ∀ j : Nat, j < w.table.num_philos.toNat →
      toInt32 (now - (w.table.philo j).last_meal) = now - (w.table.philo j).last_meal :=
    fun j hj => toInt32_of_range _ (hrange j (by omega)).1 (hrange j (by omega)).2
  by_cases hex : ∃ i : Nat, i < w.table.num_philos.toNat ∧
      now - (w.table.philo i).last_meal ≥ w.table.time_to_die
  · have hfind := Nat.find_spec hex
    have hmin := fun j => Nat.find_min hex (m := j)
    generalize Nat.find hex = i at hfind hmin
    have hs := sweep_first w.table now w.table.num_philos.toNat 0 i w hstop hclock
      (Nat.zero_le i) (by omega) (by rw [hint i hfind.1]; exact hfind.2)
      (fun j _ hj hc => hmin j hj ⟨by omega, by rw [hint j (by omega)] at hc; exact hc⟩)
    refine ⟨_, _, hrun _ hs, ?_, ?_, ?_, rfl, rfl⟩
    · simp only [true_iff]
      exact ⟨i, by omega, hfind.2⟩
    · intro _
      refine ⟨rfl, i, by omega, hfind.2, ?_, ?_, rfl⟩
      · intro j hj hc
        exact hmin j hj ⟨by omega, hc⟩
      · intro hid j hj hc
        rw [hid i (by omega), hid j hj]
        have : ¬ j < i := fun hlt => hmin j hlt ⟨by omega, hc⟩
        omega
    · intro hb
      simp at hb
  · have hs := sweep_none w.table now w.table.num_philos.toNat 0 w hclock
      (fun j _ hj hc => hex ⟨j, by omega, by rw [hint j (by omega)] at hc; exact hc⟩)
    refine ⟨_, _, hrun _ hs, ?_, ?_, ?_, rfl, rfl⟩
    · simp only [hstop, Bool.false_eq_true, false_iff]
      rintro ⟨i, hi, hc⟩
      exact hex ⟨i, by omega, hc⟩
    · intro hb
      simp [hstop] at hb
    · intro _
      exact ⟨rfl, rfl⟩

/-- C8, at a concrete input: in `worldStarved` the stop flag is unset, the clock
reads 110 throughout and both philosophers have `now - last_meal = 10`; the sweep
returns true and sets the stop flag. -/
theorem hasAnyoneDied_sweep_witness :
    worldStarved.table.sim_stop = false ∧
    ∃ b w1, (hasAnyoneDied worldStarved.table).run worldStarved = some (b, w1) ∧
      b = true ∧ w1.table.sim_stop = true := by
  obtain ⟨b, w1, hrun, hiff, htrue, _⟩ :=
    hasAnyoneDied_sweep worldStarved 110 (by decide)
      (fun j => by simp [worldStarved, clockOf])
      (fun i hi => by
        have h2 : i < 2 := by
          have : worldStarved.table.num_philos = 2 := rfl
          omega
        interval_cases i <;> decide)
  have hb : b = true := hiff.2 ⟨0, by decide, by decide⟩
  refine ⟨by decide, b, w1, hrun, hb, ?_⟩
  rw [(htrue hb).1]

/-! ## Which operations each routine performs -/

theorem hasPhiloDied_quiet (t : Table) (i : Nat) : (hasPhiloDied t i).Acts Act.quiet := by
  intro v
  simp only [hasPhiloDied]
  split_ifs <;> simp [Prog.Acts, Act.quiet]

theorem sweep_quiet (t : Table) (n k : Nat) : (hasAnyoneDied.loop t n k).Acts Act.quiet := by
  induction n generalizing k with
  | zero => trivial
  | succ n ih => exact Prog.acts_bind _ _ _ (hasPhiloDied_quiet t k) (fun _ => ih _)

theorem hasAnyoneDied_quiet (t : Table) : (hasAnyoneDied t).Acts Act.quiet := by
  intro b
  cases b
  · exact Prog.acts_bind _ _ _ (sweep_quiet t _ _) (fun _ _ => trivial)
  · trivial

theorem hasPhiloDied_noSpin (t : Table) (i : Nat) : (hasPhiloDied t i).NoSpin := by
  intro v
  simp only [hasPhiloDied]
  split_ifs <;> simp [Prog.NoSpin]

theorem sweep_noSpin (t : Table) (n k : Nat) : (hasAnyoneDied.loop t n k).NoSpin := by
  induction n generalizing k with
  | zero => trivial
  | succ n ih => exact Prog.noSpin_bind _ _ (hasPhiloDied_noSpin t k) (fun _ => ih _)

theorem hasAnyoneDied_noSpin (t : Table) : (hasAnyoneDied t).NoSpin := by
  intro b
  cases b
  · exact Prog.noSpin_bind _ _ (sweep_noSpin t _ _) (fun _ _ => trivial)
  · trivial

theorem quiet_forkFree (a : Act) (h : a.quiet) : a.forkFree := by
  cases a <;> simp_all [Act.quiet, Act.forkFree]

theorem simStartDelay_quiet (time : Int) (fuel : Nat) : (simStartDelay time fuel).Acts Act.quiet := by
  induction fuel with
  | zero => trivial
  | succ n ih =>
    intro v
    simp only []
    split_ifs
    · exact ih
    · trivial

theorem lullPhilo_loop_quiet (t : Table) (b s : Int) (fuel : Nat) :
    (lullPhilo.loop t b s fuel).Acts Act.quiet := by
  induction fuel with
  | zero => trivial
  | succ n ih =>
    refine Prog.acts_bind _ _ _ (hasAnyoneDied_quiet t) (fun died => ?_)
    cases died
    · intro v
      simp only []
      split_ifs
      · exact ⟨trivial, ih⟩
      · trivial
    · trivial

theorem lullPhilo_quiet (t : Table) (s : Int) (fuel : Nat) : (lullPhilo t s fuel).Acts Act.quiet :=
  fun b => lullPhilo_loop_quiet t b s fuel

theorem quiet_keeps_allMeals (c : Nat) (a : Act) (w w1 : World) (ha : a.quiet)
    (he : a.exec w = some w1) (hw : allMealsCount w.out = c) : allMealsCount w1.out = c := by
  cases a <;> simp_all [Act.quiet, Act.exec, reportDeath, writeStatus, getTimeIn_ms]
  · subst he
    split_ifs <;> simp_all [allMealsCount]
  · subst he
    simp_all [allMealsCount]

theorem read_keeps_out (r : Read) (w : World) : (r.exec w).2.out = w.out := by
  cases r <;> rfl

/-! ## The quota check -/

theorem meals_loop_run (t : Table) (n k : Nat) (w : World) :
    ∃ b, (areMealsCompleted.loop t n k).run w = some (b, w) ∧
      (b = true ↔ ∀ j, k ≤ j → j < k + n → (w.table.philo j).times_ate ≥ t.min_dining) := by
  induction n generalizing k with
  | zero => exact ⟨true, rfl, by simp only [true_iff]; intro j h1 h2; omega⟩
  | succ n ih =>
    by_cases hlt : (w.table.philo k).times_ate < t.min_dining
    · refine ⟨false, by simp [areMealsCompleted.loop, Prog.run, Read.exec, hlt], ?_⟩
      simp only [Bool.false_eq_true, false_iff, not_forall]
      exact ⟨k, le_refl k, by omega, by omega⟩
    · obtain ⟨b, hb, hiff⟩ := ih (k + 1)
      refine ⟨b, by simp [areMealsCompleted.loop, Prog.run, Read.exec, hlt, hb], ?_⟩
      rw [hiff]
      constructor
      · intro h j hj1 hj2
        by_cases hjk : j = k
        · subst hjk
          omega
        · exact h j (by omega) (by omega)
      · intro h j hj1 hj2
        exact h j (by omega) (by omega)

theorem areMealsCompleted_run (t : Table) (w : World) :
    ∃ b, (areMealsCompleted t).run w = some (b, w) ∧
      (b = true ↔ ∀ i : Nat, (i : Int) < t.num_philos →
        (w.table.philo i).times_ate ≥ t.min_dining) := by
  obtain ⟨b, hb, hiff⟩ := meals_loop_run t t.num_philos.toNat 0 w
  refine ⟨b, hb, hiff.trans ⟨fun h i hi => h i (Nat.zero_le i) (by omega), fun h j _ hj => h j (by omega)⟩⟩

theorem monitor_round_quiet (t : Table) (h : t.min_dining = -1) :
    (monitor.round t).Acts Act.quiet := by
  refine Prog.acts_bind _ _ _ (hasAnyoneDied_quiet t) (fun died => ?_)
  cases died
  · intro s
    cases s <;> simp [h, Prog.bind, Prog.Acts]
  · trivial

theorem monitor_quiet (t : Table) (fuel : Nat) (h : t.min_dining = -1) :
    (monitor t fuel).Acts Act.quiet := by
  refine Prog.acts_bind _ _ _ (simStartDelay_quiet _ _) (fun _ => ?_)
  split_ifs
  · trivial
  · generalize fuel = n
    induction n with
    | zero => trivial
    | succ n ih =>
      refine Prog.acts_bind _ _ _ (monitor_round_quiet t h) (fun d => ?_)
      cases d
      · exact ih
      · trivial

/-! ## Properties kept along interleaved runs -/

/-- One atomic operation of a thread keeps a property of the world that every
read and every operation allowed by `pa` keeps, and the rest of the thread
still performs only operations allowed by `pa`. -/
theorem Prog.move_keeps {α : Type} (pa : Act → Prop) (I : World → Prop)
    (hread : ∀ r w, I w → I (Read.exec r w).2)
    (hact : ∀ a w w1, pa a → Act.exec a w = some w1 → I w → I w1)
    (p p1 : Prog α) (w w1 : World) (hs : p.step w = some (p1, w1))
    (hp : p.Acts pa) (hw : I w) : p1.Acts pa ∧ I w1 := by
  cases p with
  | ret a => simp [Prog.step] at hs
  | stopped k =>
    simp only [Prog.step, Option.some.injEq, Prod.mk.injEq] at hs
    rw [← hs.1, ← hs.2]
    exact ⟨hp _, hw⟩
  | read r k =>
    simp only [Prog.step, Option.some.injEq, Prod.mk.injEq] at hs
    rw [← hs.1, ← hs.2]
    exact ⟨hp _, hread r w hw⟩
  | act a k =>
    simp only [Prog.step] at hs
    cases he : a.exec w with
    | none => simp [he] at hs
    | some w2 =>
      simp only [he, Option.some.injEq, Prod.mk.injEq] at hs
      rw [← hs.1, ← hs.2]
      exact ⟨hp.2, hact a w w2 hp.1 he hw⟩
  | spin => simp [Prog.step] at hs

theorem Sys.move_keeps_all (pa : Act → Prop) (I : World → Prop)
    (hread : ∀ r w, I w → I (Read.exec r w).2)
    (hact : ∀ a w w1, pa a → Act.exec a w = some w1 → I w → I w1)
    (s : Sys) (hth : ∀ p ∈ s.threads, p.Acts pa) (hw : I s.world) (i : Nat) :
    (∀ p ∈ (s.step i).threads, p.Acts pa) ∧ I (s.step i).world := by
  unfold Sys.step
  cases hp : s.threads[i]? with
  | none => exact ⟨hth, hw⟩
  | some p =>
    simp only
    cases hs : p.step s.world with
    | none => exact ⟨hth, hw⟩
    | some r =>
      obtain ⟨h1, h2⟩ := Prog.move_keeps pa I hread hact p r.1 s.world r.2 hs
        (hth p (List.getElem?_mem hp)) hw
      refine ⟨fun q hq => ?_, h2⟩
      rcases List.mem_or_eq_of_mem_set hq with h | h
      · exact hth q h
      · rw [h]
        exact h1

/-- A property of the world that every read and every operation allowed by `pa`
keeps is kept along every schedule of threads that perform only operations
allowed by `pa`. -/
theorem Sys.sched_keeps (pa : Act → Prop) (I : World → Prop)
    (hread : ∀ r w, I w → I (Read.exec r w).2)
    (hact : ∀ a w w1, pa a → Act.exec a w = some w1 → I w → I w1)
    (s : Sys) (hth : ∀ p ∈ s.threads, p.Acts pa) (hw : I s.world) (sched : List Nat) :
    (∀ p ∈ (s.run sched).threads, p.Acts pa) ∧ I (s.run sched).world := by
  induction sched generalizing s with
  | nil => exact ⟨hth, hw⟩
  | cons i is ih =>
    obtain ⟨h1, h2⟩ := Sys.move_keeps_all pa I hread hact s hth hw i
    exact ih (s.step i) h1 h2

theorem quiet_ofPhilo (a : Act) (h : a.quiet) : a.ofPhilo := by
  cases a <;> simp_all [Act.quiet, Act.ofPhilo]

theorem hasSimStopped_quiet : hasSimStopped.Acts Act.quiet :=
  fun _ => trivial

theorem sleepRoutine_quiet (t : Table) (i fuel : Nat) : (sleepRoutine t i fuel).Acts Act.quiet := by
  refine Prog.acts_bind _ _ _ (hasAnyoneDied_quiet t) (fun died => ?_)
  split_ifs
  · exact ⟨trivial, lullPhilo_quiet _ _ _⟩
  · trivial

theorem thinkingRoutine_quiet (t : Table) (i : Nat) (first : Bool) (fuel : Nat) :
    (thinkingRoutine t i first fuel).Acts Act.quiet := by
  refine Prog.acts_bind _ _ _ (hasAnyoneDied_quiet t) (fun d1 => ?_)
  cases d1
  · refine Prog.acts_bind _ _ _ ?_ (fun e => ?_)
    · cases first
      · exact fun _ => trivial
      · trivial
    · refine Prog.acts_bind _ _ _ (hasAnyoneDied_quiet t) (fun d2 => ?_)
      cases d2
      · exact ⟨trivial, lullPhilo_quiet _ _ _⟩
      · trivial
  · trivial

/-- A stop checkpoint followed by `k` performs only operations allowed by `pa`
when `k` does and `pa` allows the operations of the sweep. -/
theorem acts_checkpoint (t : Table) (pa : Act → Prop) (hq : ∀ a, a.quiet → pa a)
    (k : Prog Unit) (hk : k.Acts pa) :
    ((hasAnyoneDied t).bind fun d => if d then Prog.ret () else k).Acts pa := by
  refine Prog.acts_bind _ _ _ (Prog.acts_mono _ _ _ hq (hasAnyoneDied_quiet t)) (fun d => ?_)
  cases d
  · exact hk
  · trivial

theorem eatRoutine_ofPhilo (t : Table) (i fuel : Nat) : (eatRoutine t i fuel).Acts Act.ofPhilo := by
  unfold eatRoutine
  refine acts_checkpoint _ _ quiet_ofPhilo _ ⟨trivial, ?_⟩
  refine acts_checkpoint _ _ quiet_ofPhilo _ ⟨trivial, ?_⟩
  refine acts_checkpoint _ _ quiet_ofPhilo _ ⟨trivial, ?_⟩
  refine acts_checkpoint _ _ quiet_ofPhilo _ ⟨trivial, trivial, ?_⟩
  refine acts_checkpoint _ _ quiet_ofPhilo _ ?_
  refine Prog.acts_bind _ _ _ ?_ (fun _ => ⟨trivial, trivial, ?_⟩)
  · split_ifs
    · exact ⟨trivial, Prog.acts_mono _ _ _ quiet_ofPhilo (lullPhilo_quiet _ _ _)⟩
    · trivial
  · exact acts_checkpoint _ _ quiet_ofPhilo _ ⟨trivial, trivial⟩

theorem philosopherRoutine_ofPhilo (t : Table) (i fuel : Nat) :
    (philosopherRoutine t i fuel).Acts Act.ofPhilo := by
  have hloop : ∀ n, (philosopherRoutine.loop t i fuel n).Acts Act.ofPhilo := by
    intro n
    induction n with
    | zero => trivial
    | succ n ih =>
      refine Prog.acts_bind _ _ _ (Prog.acts_mono _ _ _ quiet_ofPhilo hasSimStopped_quiet)
        (fun s => ?_)
      cases s
      · simp only [Bool.false_eq_true, if_false]
        refine Prog.acts_bind _ _ _ (eatRoutine_ofPhilo t i fuel) (fun _ => ?_)
        refine Prog.acts_bind _ _ _
          (Prog.acts_mono _ _ _ quiet_ofPhilo (sleepRoutine_quiet _ _ _)) (fun _ => ?_)
        exact Prog.acts_bind _ _ _
          (Prog.acts_mono _ _ _ quiet_ofPhilo (thinkingRoutine_quiet _ _ _ _)) (fun _ => ih)
      · trivial
  unfold philosopherRoutine
  refine Prog.acts_bind _ _ _ (Prog.acts_mono _ _ _ quiet_ofPhilo (simStartDelay_quiet _ _))
    (fun _ => ?_)
  refine Prog.acts_bind _ _ _ (Prog.acts_mono _ _ _ quiet_ofPhilo (hasPhiloDied_quiet _ _))
    (fun died => ?_)
  cases died
  · simp only [Bool.false_eq_true, if_false]
    split_ifs
    · exact ⟨trivial, trivial, Prog.acts_bind _ _ _
        (Prog.acts_mono _ _ _ quiet_ofPhilo (lullPhilo_quiet _ _ _)) (fun _ => ⟨trivial, trivial⟩)⟩
    · exact Prog.acts_bind _ _ _
        (Prog.acts_mono _ _ _ quiet_ofPhilo (thinkingRoutine_quiet _ _ _ _)) (fun _ => hloop _)
    · exact hloop _
  · trivial

theorem startSimulator_loop_mem (t : Table) (fuel n k : Nat) (p : Prog Unit)
    (h : p ∈ startSimulator.loop t fuel n k) : ∃ i, p = philosopherRoutine t i fuel := by
  induction n generalizing k with
  | zero => simp [startSimulator.loop] at h
  | succ n ih =>
    simp only [startSimulator.loop, List.mem_cons] at h
    rcases h with h | h
    · exact ⟨k, h⟩
    · exact ih _ h

/-- The threads that `startSimulator` starts are philosopher threads and, at
most, the monitor thread. -/
theorem startSimulator_threads (t : Table) (time : Nat → Int) (fuel : Nat) (p : Prog Unit)
    (h : p ∈ (startSimulator t time fuel).threads) :
    (∃ i, p = philosopherRoutine (startTable t (time 0)) i fuel) ∨
      p = monitor (startTable t (time 0)) fuel := by
  simp only [startSimulator, List.mem_append] at h
  rcases h with h | h
  · exact Or.inl (startSimulator_loop_mem _ _ _ _ _ h)
  · split_ifs at h
    · exact Or.inr (by simpa using h)
    · simp at h

theorem ofPhilo_keeps_allMeals (c : Nat) (a : Act) (w w1 : World) (ha : a.ofPhilo)
    (he : a.exec w = some w1) (hw : allMealsCount w.out = c) : allMealsCount w1.out = c := by
  cases a <;> simp only [Act.exec, Option.some.injEq] at he
  · subst he
    simp only [reportDeath, writeStatus, getTimeIn_ms]
    split_ifs <;> simp_all [allMealsCount]
  · subst he
    simp_all [allMealsCount, writeStatus, getTimeIn_ms]
  · subst he
    exact hw
  · subst he
    exact hw
  · split_ifs at he
    simp only [Option.some.injEq] at he
    subst he
    exact hw
  · subst he
    exact hw
  · exact ha.elim
  · exact ha.elim
  · subst he
    exact hw

/-! ## The stop flag along interleaved runs -/

theorem act_keeps_stop (a : Act) (w w1 : World) (he : a.exec w = some w1)
    (h : w.table.sim_stop = true) : w1.table.sim_stop = true := by
  cases a <;> simp only [Act.exec, Option.some.injEq] at he
  · subst he
    simp [reportDeath, h]
  · subst he
    simpa [writeStatus, getTimeIn_ms] using h
  · subst he
    simpa [stampLastMeal, getTimeIn_ms] using h
  · subst he
    simpa [updateTimesAte] using h
  · split_ifs at he
    simp only [Option.some.injEq] at he
    subst he
    exact h
  · subst he
    exact h
  · subst he
    rfl
  · subst he
    exact h
  · subst he
    exact h

theorem read_keeps_table (r : Read) (w : World) : (r.exec w).2.table = w.table := by
  cases r <;> rfl

theorem Prog.acts_any {α : Type} (m : Prog α) : m.Acts fun _ => True := by
  induction m with
  | ret a => trivial
  | stopped k ih => exact fun b => ih b
  | read r k ih => exact fun v => ih v
  | act a k ih => exact ⟨trivial, ih⟩
  | spin => trivial

theorem Prog.run_keeps_stop {α : Type} (m : Prog α) (w : World) (r : α × World)
    (hrun : m.run w = some r) (h : w.table.sim_stop = true) : r.2.table.sim_stop = true :=
  Prog.run_keeps (fun _ => True) (fun x => x.table.sim_stop = true)
    (fun rd x hx => by simpa [read_keeps_table] using hx)
    (fun a x x1 _ he hx => act_keeps_stop a x x1 he hx) m m.acts_any w r hrun h

theorem Prog.step_keeps_stop {α : Type} (m m1 : Prog α) (w w1 : World)
    (hs : m.step w = some (m1, w1)) (h : w.table.sim_stop = true) :
    w1.table.sim_stop = true := by
  cases m with
  | ret a => simp [Prog.step] at hs
  | stopped k =>
    simp only [Prog.step, Option.some.injEq, Prod.mk.injEq] at hs
    rw [← hs.2]
    exact h
  | read r k =>
    simp only [Prog.step, Option.some.injEq, Prod.mk.injEq] at hs
    rw [← hs.2, read_keeps_table]
    exact h
  | act a k =>
    simp only [Prog.step] at hs
    cases he : a.exec w with
    | none => simp [he] at hs
    | some w2 =>
      simp only [he, Option.some.injEq, Prod.mk.injEq] at hs
      rw [← hs.2]
      exact act_keeps_stop a w w2 he h
  | spin => simp [Prog.step] at hs

theorem Sys.step_keeps_raised (s : Sys) (i : Nat) (h : s.world.table.sim_stop = true) :
    (s.step i).world.table.sim_stop = true := by
  unfold Sys.step
  cases s.threads[i]? with
  | none => exact h
  | some p =>
    simp only
    cases hs : p.step s.world with
    | none => exact h
    | some r => exact Prog.step_keeps_stop p r.1 s.world r.2 hs h

theorem Sys.stops_head (s : Sys) (sched : List Nat) :
    ∃ l, s.stops sched = s.world.table.sim_stop :: l := by
  cases sched with
  | nil => exact ⟨[], rfl⟩
  | cons i is => exact ⟨_, rfl⟩

/-- Along any schedule the flag never falls, rises at most once, and does not
rise at all when it is set at the start. -/
theorem Sys.stops_shape (s : Sys) (sched : List Nat) :
    falls (s.stops sched) = 0 ∧ rises (s.stops sched) ≤ 1 ∧
      (s.world.table.sim_stop = true → rises (s.stops sched) = 0) := by
  induction sched generalizing s with
  | nil => simp [Sys.stops, rises, falls]
  | cons i is ih =>
    obtain ⟨l, hl⟩ := (s.step i).stops_head is
    obtain ⟨h1, h2, h3⟩ := ih (s.step i)
    have hk := s.step_keeps_raised i
    simp only [Sys.stops, hl, rises, falls] at h1 h2 h3 ⊢
    generalize (s.step i).world.table.sim_stop = b1 at *
    generalize s.world.table.sim_stop = b0 at *
    cases b0 <;> cases b1 <;> simp_all

/-- C2. The stop flag is monotone.  `initTable` and `startSimulator` leave it
false; no atomic operation and no routine run to its return turns it from true
to false; and along every interleaving of the threads started by
`startSimulator` the flag never goes from true to false and goes from false to
true at most once. -/
theorem sim_stop_monotone (ac : Int) (av : List Int) (time : Nat → Int) (fuel : Nat)
    (sched : List Nat) :
    (initTable ac av).sim_stop = false ∧
    (startSimulator (initTable ac av) time fuel).world.table.sim_stop = false ∧
    (∀ (a : Act) (w w1 : World), a.exec w = some w1 →
      w.table.sim_stop = true → w1.table.sim_stop = true) ∧
    (∀ (r : Read) (w : World), w.table.sim_stop = true → (r.exec w).2.table.sim_stop = true) ∧
    (∀ (α : Type) (m : Prog α) (w : World) (r : α × World), m.run w = some r →
      w.table.sim_stop = true → r.2.table.sim_stop = true) ∧
    falls ((startSimulator (initTable ac av) time fuel).stops sched) = 0 ∧
    rises ((startSimulator (initTable ac av) time fuel).stops sched) ≤ 1 := by
  refine ⟨rfl, rfl, act_keeps_stop, ?_, fun _ m w r => Prog.run_keeps_stop m w r, ?_, ?_⟩
  · intro r w h
    rw [read_keeps_table]
    exact h
  · exact (Sys.stops_shape _ sched).1
  · exact (Sys.stops_shape _ sched).2.1

set_option maxRecDepth 100000 in
/-- C2, at a concrete input: along the schedule `schedQuota` of the run
`sysQuota` the flag rises exactly once and never falls. -/
theorem sim_stop_monotone_witness :
    rises (sysQuota.stops schedQuota) = 1 ∧ falls (sysQuota.stops schedQuota) = 0 :=
  ⟨by decide,
   (sim_stop_monotone 6 [0, 2, 10, 0, 0, 1]
      (clockOf (60 :: (List.replicate 27 100 ++ List.replicate 19 105)) 110) 3 schedQuota).2.2.2.2.2.1⟩

/-! ## Fork discipline -/

theorem Prog.safe_lock {α : Type} (i : Nat) (own : Int → Prop) (Q : α → List Int → Prop)
    (j : Nat) (f : Int) (k : Prog α) (h : List Int) :
    (Prog.act (.lock j f) k).Safe i own Q h ↔ j = i ∧ own f ∧ k.Safe i own Q (f :: h) :=
  Iff.rfl

theorem Prog.safe_unlock {α : Type} (i : Nat) (own : Int → Prop) (Q : α → List Int → Prop)
    (j : Nat) (f : Int) (k : Prog α) (h : List Int) :
    (Prog.act (.unlock j f) k).Safe i own Q h ↔ j = i ∧ f ∈ h ∧ k.Safe i own Q (h.erase f) :=
  Iff.rfl

theorem Prog.safe_quiet_act {α : Type} (i : Nat) (own : Int → Prop) (Q : α → List Int → Prop)
    (a : Act) (ha : a.forkFree) (k : Prog α) (h : List Int) :
    (Prog.act a k).Safe i own Q h ↔ k.Safe i own Q h := by
  cases a <;> first | exact Iff.rfl | exact ha.elim

theorem Prog.safe_bind {α β : Type} (i : Nat) (own : Int → Prop) (Q : α → List Int → Prop)
    (Q1 : β → List Int → Prop) (m : Prog α) (g : α → Prog β) (h : List Int)
    (hm : m.Safe i own Q h) (hg : ∀ a h1, Q a h1 → (g a).Safe i own Q1 h1) :
    (m.bind g).Safe i own Q1 h := by
  induction m generalizing h with
  | ret a => exact hg a h hm
  | stopped k ih => exact fun b => ih b h (hm b)
  | read r k ih => exact fun v => ih v h (hm v)
  | act a k ih =>
    cases a with
    | lock j f => exact ⟨hm.1, hm.2.1, ih _ hm.2.2⟩
    | unlock j f => exact ⟨hm.1, hm.2.1, ih _ hm.2.2⟩
    | reportDeath j => exact ih h hm
    | writeStatus j st => exact ih h hm
    | stampLastMeal j => exact ih h hm
    | updateTimesAte j => exact ih h hm
    | setStop => exact ih h hm
    | printAllMeals => exact ih h hm
    | usleep => exact ih h hm
  | spin => trivial

/-- Code without fork operations follows the discipline and returns with the
forks it started with. -/
theorem Prog.safe_of_forkFree {α : Type} (i : Nat) (own : Int → Prop) (m : Prog α)
    (h : List Int) (hm : m.Acts Act.forkFree) : m.Safe i own (fun _ h1 => h1 = h) h := by
  induction m with
  | ret a => exact rfl
  | stopped k ih => exact fun b => ih b (hm b)
  | read r k ih => exact fun v => ih v (hm v)
  | act a k ih =>
    rw [Prog.safe_quiet_act _ _ _ _ hm.1]
    exact ih hm.2
  | spin => trivial

theorem Prog.safe_quiet_bind {α β : Type} (i : Nat) (own : Int → Prop)
    (Q : β → List Int → Prop) (m : Prog α) (g : α → Prog β) (h : List Int)
    (hm : m.Acts Act.quiet) (hg : ∀ a, (g a).Safe i own Q h) :
    (m.bind g).Safe i own Q h :=
  Prog.safe_bind i own _ Q m g h
    (Prog.safe_of_forkFree i own m h (Prog.acts_mono _ _ _ quiet_forkFree hm))
    (fun a _ e => e ▸ hg a)

/-- A stop checkpoint followed by `k` follows the fork discipline when `k`
does. -/
theorem safe_checkpoint (t : Table) (i : Nat) (own : Int → Prop) (k : Prog Unit) (h : List Int)
    (hk : k.Safe i own (fun _ _ => True) h) :
    ((hasAnyoneDied t).bind fun d => if d then Prog.ret () else k).Safe i own
      (fun _ _ => True) h := by
  refine Prog.safe_quiet_bind _ _ _ _ _ _ (hasAnyoneDied_quiet t) (fun d => ?_)
  cases d
  · exact hk
  · trivial

theorem eatRoutine_safe (t : Table) (i fuel : Nat) (h : List Int) :
    (eatRoutine t i fuel).Safe i (ownFork t i) (fun _ _ => True) h := by
  unfold eatRoutine
  refine safe_checkpoint _ _ _ _ _ ?_
  refine (Prog.safe_lock _ _ _ _ _ _ _).mpr ⟨rfl, Or.inl rfl, ?_⟩
  refine safe_checkpoint _ _ _ _ _ ?_
  refine (Prog.safe_quiet_act _ _ _ _ (by trivial) _ _).mpr ?_
  refine safe_checkpoint _ _ _ _ _ ?_
  refine (Prog.safe_lock _ _ _ _ _ _ _).mpr ⟨rfl, Or.inr rfl, ?_⟩
  refine safe_checkpoint _ _ _ _ _ ?_
  refine (Prog.safe_quiet_act _ _ _ _ (by trivial) _ _).mpr ?_
  refine (Prog.safe_quiet_act _ _ _ _ (by trivial) _ _).mpr ?_
  refine safe_checkpoint _ _ _ _ _ ?_
  refine Prog.safe_quiet_bind _ _ _ _ _ _ ?_ (fun _ => ?_)
  · split_ifs
    · exact ⟨trivial, lullPhilo_quiet _ _ _⟩
    · trivial
  refine (Prog.safe_unlock _ _ _ _ _ _ _).mpr ⟨rfl, by simp, ?_⟩
  refine (Prog.safe_unlock _ _ _ _ _ _ _).mpr ⟨rfl, ?_, ?_⟩
  · rw [List.erase_cons]
    split_ifs with e
    · have : (t.philo i).fork1 = (t.philo i).fork0 := by simpa using e
      simp [this]
    · simp
  refine safe_checkpoint _ _ _ _ _ ?_
  exact (Prog.safe_quiet_act _ _ _ _ (by trivial) _ _).mpr trivial

theorem lonePhiloRoutine_safe (t : Table) (i fuel : Nat) (h : List Int) :
    (lonePhiloRoutine t i fuel).Safe i (ownFork t i) (fun _ _ => True) h := by
  unfold lonePhiloRoutine
  refine (Prog.safe_lock _ _ _ _ _ _ _).mpr ⟨rfl, Or.inl rfl, ?_⟩
  refine (Prog.safe_quiet_act _ _ _ _ (by trivial) _ _).mpr ?_
  refine Prog.safe_quiet_bind _ _ _ _ _ _ (lullPhilo_quiet _ _ _) (fun _ => ?_)
  exact (Prog.safe_unlock _ _ _ _ _ _ _).mpr ⟨rfl, by simp, trivial⟩

theorem philosopherRoutine_loop_safe (t : Table) (i fuel n : Nat) (h : List Int) :
    (philosopherRoutine.loop t i fuel n).Safe i (ownFork t i) (fun _ _ => True) h := by
  induction n generalizing h with
  | zero => trivial
  | succ n ih =>
    refine Prog.safe_quiet_bind _ _ _ _ _ _ hasSimStopped_quiet (fun s => ?_)
    cases s
    · simp only [Bool.false_eq_true, if_false]
      refine Prog.safe_bind _ _ _ _ _ _ _ (eatRoutine_safe t i fuel h) (fun _ h1 _ => ?_)
      refine Prog.safe_quiet_bind _ _ _ _ _ _ (sleepRoutine_quiet _ _ _) (fun _ => ?_)
      refine Prog.safe_quiet_bind _ _ _ _ _ _ (thinkingRoutine_quiet _ _ _ _) (fun _ => ?_)
      exact ih h1
    · trivial

theorem philosopherRoutine_safe (t : Table) (i fuel : Nat) (h : List Int) :
    (philosopherRoutine t i fuel).Safe i (ownFork t i) (fun _ _ => True) h := by
  unfold philosopherRoutine
  refine Prog.safe_quiet_bind _ _ _ _ _ _ (simStartDelay_quiet _ _) (fun _ => ?_)
  refine Prog.safe_quiet_bind _ _ _ _ _ _ (hasPhiloDied_quiet _ _) (fun died => ?_)
  cases died
  · simp only [Bool.false_eq_true, if_false]
    split_ifs
    · exact lonePhiloRoutine_safe _ _ _ _
    · exact Prog.safe_quiet_bind _ _ _ _ _ _ (thinkingRoutine_quiet _ _ _ _)
        (fun _ => philosopherRoutine_loop_safe _ _ _ _ _)
    · exact philosopherRoutine_loop_safe _ _ _ _ _
  · trivial

theorem areMealsCompleted_forkFree (t : Table) : (areMealsCompleted t).Acts Act.forkFree := by
  unfold areMealsCompleted
  generalize t.num_philos.toNat = n
  generalize 0 = k
  induction n generalizing k with
  | zero => trivial
  | succ n ih =>
    intro v
    simp only []
    split_ifs
    · trivial
    · exact ih _

theorem monitor_forkFree (t : Table) (fuel : Nat) : (monitor t fuel).Acts Act.forkFree := by
  have hround : (monitor.round t).Acts Act.forkFree := by
    refine Prog.acts_bind _ _ _ (Prog.acts_mono _ _ _ quiet_forkFree (hasAnyoneDied_quiet t))
      (fun died => ?_)
    cases died
    · refine Prog.acts_bind _ _ _ (Prog.acts_mono _ _ _ quiet_forkFree hasSimStopped_quiet)
        (fun s => ?_)
      cases s
      · simp only [Bool.false_eq_true, if_false]
        refine Prog.acts_bind _ _ _ ?_ (fun c => ?_)
        · split_ifs
          · exact areMealsCompleted_forkFree t
          · trivial
        · cases c
          · trivial
          · exact ⟨trivial, trivial, trivial⟩
      · trivial
    · trivial
  refine Prog.acts_bind _ _ _ (Prog.acts_mono _ _ _ quiet_forkFree (simStartDelay_quiet _ _))
    (fun _ => ?_)
  split_ifs
  · trivial
  · generalize fuel = n
    induction n with
    | zero => trivial
    | succ n ih =>
      refine Prog.acts_bind _ _ _ hround (fun d => ?_)
      cases d
      · exact ih
      · trivial

theorem Prog.safe_weaken {α : Type} (i : Nat) (own : Int → Prop) (Q Q1 : α → List Int → Prop)
    (m : Prog α) (h : List Int) (hm : m.Safe i own Q h) (hq : ∀ a h1, Q a h1 → Q1 a h1) :
    m.Safe i own Q1 h := by
  induction m generalizing h with
  | ret a => exact hq a h hm
  | stopped k ih => exact fun b => ih b h (hm b)
  | read r k ih => exact fun v => ih v h (hm v)
  | act a k ih =>
    cases a with
    | lock j f => exact ⟨hm.1, hm.2.1, ih _ hm.2.2⟩
    | unlock j f => exact ⟨hm.1, hm.2.1, ih _ hm.2.2⟩
    | reportDeath j => exact ih h hm
    | writeStatus j st => exact ih h hm
    | stampLastMeal j => exact ih h hm
    | updateTimesAte j => exact ih h hm
    | setStop => exact ih h hm
    | printAllMeals => exact ih h hm
    | usleep => exact ih h hm
  | spin => trivial

theorem monitor_safe (t : Table) (fuel i : Nat) (own : Int → Prop) (h : List Int) :
    (monitor t fuel).Safe i own (fun _ _ => True) h :=
  Prog.safe_weaken i own _ _ _ h (Prog.safe_of_forkFree i own _ h (monitor_forkFree t fuel))
    (fun _ _ _ => trivial)

/-! ## The fork invariant along interleaved runs -/

theorem act_keeps_forks (a : Act) (w w1 : World) (ha : a.forkFree) (he : a.exec w = some w1) :
    w1.held = w.held ∧ w1.locked = w.locked := by
  cases a <;> simp only [Act.exec, Option.some.injEq] at he
  · subst he
    simp only [reportDeath, writeStatus, getTimeIn_ms]
    split_ifs <;> exact ⟨rfl, rfl⟩
  · subst he
    exact ⟨rfl, rfl⟩
  · subst he
    exact ⟨rfl, rfl⟩
  · subst he
    exact ⟨rfl, rfl⟩
  · exact ha.elim
  · exact ha.elim
  · subst he
    exact ⟨rfl, rfl⟩
  · subst he
    exact ⟨rfl, rfl⟩
  · subst he
    exact ⟨rfl, rfl⟩

theorem read_keeps_forks (r : Read) (w : World) :
    (r.exec w).2.held = w.held ∧ (r.exec w).2.locked = w.locked := by
  cases r <;> exact ⟨rfl, rfl⟩

/-- A step of thread `i` that leaves the forks alone keeps the invariant. -/
theorem ForkInv.same (t : Table) (s : Sys) (inv : ForkInv t s) (i : Nat) (p1 : Prog Unit)
    (w1 : World) (hh : w1.held = s.world.held) (hl : w1.locked = s.world.locked)
    (hsafe : p1.Safe i (ownFork t i) (fun _ _ => True) (s.world.held i)) :
    ForkInv t { threads := s.threads.set i p1, world := w1 } where
  safe := by
    intro j q hq
    simp only [List.getElem?_set] at hq
    simp only [hh]
    split_ifs at hq with e1 e2
    · simp only [Option.some.injEq] at hq
      subst e1
      subst hq
      exact hsafe
    · exact inv.safe j q hq
  locked_of_held := by
    simp only [hh, hl]
    exact inv.locked_of_held
  held_of_locked := by
    simp only [hh, hl]
    exact inv.held_of_locked
  unique := by
    simp only [hh]
    exact inv.unique
  nodup := by
    simp only [hh]
    exact inv.nodup
  own := by
    simp only [hh]
    exact inv.own

/-- Locking a free fork keeps the invariant. -/
theorem ForkInv.lock (t : Table) (s : Sys) (inv : ForkInv t s) (i j : Nat) (f : Int)
    (k : Prog Unit) (hp : s.threads[i]? = some (Prog.act (.lock j f) k))
    (hfree : ¬ s.world.locked f = true) :
    ForkInv t { threads := s.threads.set i k,
                world := { s.world with
                  locked := Function.update s.world.locked f true
                  held := Function.update s.world.held j (f :: s.world.held j) } } := by
  obtain ⟨hj, hown, hk⟩ := (Prog.safe_lock _ _ _ _ _ _ _).mp (inv.safe i _ hp)
  subst hj
  have hnot : ∀ a, f ∉ s.world.held a := fun a hm => hfree (inv.locked_of_held a f hm)
  refine ⟨?_, ?_, ?_, ?_, ?_, ?_⟩
  · intro a q hq
    simp only [List.getElem?_set] at hq
    split_ifs at hq with e1 e2
    · simp only [Option.some.injEq] at hq
      subst e1
      subst hq
      simpa using hk
    · simp only [Function.update_noteq (Ne.symm e1)]
      exact inv.safe a q hq
  · intro a g hg
    simp only [Function.update_apply] at hg ⊢
    split_ifs with e1
    · rfl
    · split_ifs at hg with e2
      · rcases List.mem_cons.mp hg with h1 | h1
        · exact absurd h1 e1
        · exact inv.locked_of_held _ g h1
      · exact inv.locked_of_held a g hg
  · intro g hg
    simp only [Function.update_apply] at hg
    split_ifs at hg with e1
    · subst e1
      exact ⟨j, by simp⟩
    · obtain ⟨a, ha⟩ := inv.held_of_locked g hg
      refine ⟨a, ?_⟩
      simp only [Function.update_apply]
      split_ifs with e2
      · subst e2
        exact List.mem_cons_of_mem _ ha
      · exact ha
  · intro a b g ha hb
    simp only [Function.update_apply] at ha hb
    split_ifs at ha hb with e1 e2 e2
    · rw [e1, e2]
    · rcases List.mem_cons.mp ha with h1 | h1
      · exact absurd (h1 ▸ hb) (hnot b)
      · subst e1
        exact inv.unique _ b g h1 hb
    · rcases List.mem_cons.mp hb with h1 | h1
      · exact absurd (h1 ▸ ha) (hnot a)
      · subst e2
        exact inv.unique a _ g ha h1
    · exact inv.unique a b g ha hb
  · intro a
    simp only [Function.update_apply]
    split_ifs with e1
    · exact List.nodup_cons.mpr ⟨hnot j, inv.nodup j⟩
    · exact inv.nodup a
  · intro a g hg
    simp only [Function.update_apply] at hg
    split_ifs at hg with e1
    · rcases List.mem_cons.mp hg with h1 | h1
      · subst e1
        subst h1
        exact hown
      · exact inv.own a g (e1 ▸ h1)
    · exact inv.own a g hg

/-- Unlocking a fork keeps the invariant. -/
theorem ForkInv.unlock (t : Table) (s : Sys) (inv : ForkInv t s) (i j : Nat) (f : Int)
    (k : Prog Unit) (hp : s.threads[i]? = some (Prog.act (.unlock j f) k)) :
    ForkInv t { threads := s.threads.set i k,
                world := { s.world with
                  locked := Function.update s.world.locked f false
                  held := Function.update s.world.held j ((s.world.held j).erase f) } } := by
  obtain ⟨hj, hmem, hk⟩ := (Prog.safe_unlock _ _ _ _ _ _ _).mp (inv.safe i _ hp)
  subst hj
  have hsub : ∀ a g, g ∈ Function.update s.world.held j ((s.world.held j).erase f) a →
      g ∈ s.world.held a ∧ g ≠ f := by
    intro a g hg
    simp only [Function.update_apply] at hg
    split_ifs at hg with e1
    · subst e1
      have := ((inv.nodup a).mem_erase_iff).mp hg
      exact ⟨this.2, this.1⟩
    · refine ⟨hg, fun e => e1 ?_⟩
      subst e
      exact inv.unique a j g hg hmem
  refine ⟨?_, ?_, ?_, ?_, ?_, ?_⟩
  · intro a q hq
    simp only [List.getElem?_set] at hq
    split_ifs at hq with e1 e2
    · simp only [Option.some.injEq] at hq
      subst e1
      subst hq
      simpa using hk
    · simp only [Function.update_noteq (Ne.symm e1)]
      exact inv.safe a q hq
  · intro a g hg
    obtain ⟨h1, h2⟩ := hsub a g hg
    simp only [Function.update_noteq h2]
    exact inv.locked_of_held a g h1
  · intro g hg
    simp only [Function.update_apply] at hg
    split_ifs at hg with e1
    obtain ⟨a, ha⟩ := inv.held_of_locked g hg
    refine ⟨a, ?_⟩
    simp only [Function.update_apply]
    split_ifs with e2
    · subst e2
      exact (List.mem_erase_of_ne e1).mpr ha
    · exact ha
  · intro a b g ha hb
    exact inv.unique a b g (hsub a g ha).1 (hsub b g hb).1
  · intro a
    simp only [Function.update_apply]
    split_ifs with e1
    · exact (inv.nodup j).erase f
    · exact inv.nodup a
  · intro a g hg
    exact inv.own a g (hsub a g hg).1

/-- Every step of every thread keeps the fork invariant. -/
theorem ForkInv.step (t : Table) (s : Sys) (inv : ForkInv t s) (i : Nat) :
    ForkInv t (s.step i) := by
  unfold Sys.step
  cases hp : s.threads[i]? with
  | none => exact inv
  | some p =>
    simp only
    have hsafe := inv.safe i p hp
    cases p with
    | ret a => exact inv
    | spin => exact inv
    | stopped k => exact ForkInv.same t s inv i _ _ rfl rfl (hsafe _)
    | read r k =>
      exact ForkInv.same t s inv i _ _ (read_keeps_forks r _).1 (read_keeps_forks r _).2 (hsafe _)
    | act a k =>
      simp only [Prog.step]
      cases a with
      | lock j f =>
        simp only [Act.exec]
        split_ifs with hl
        · exact inv
        · exact ForkInv.lock t s inv i j f k hp hl
      | unlock j f => exact ForkInv.unlock t s inv i j f k hp
      | reportDeath j =>
        exact ForkInv.same t s inv i _ _
          (act_keeps_forks (.reportDeath j) s.world _ trivial rfl).1
          (act_keeps_forks (.reportDeath j) s.world _ trivial rfl).2 hsafe
      | writeStatus j st =>
        exact ForkInv.same t s inv i _ _ rfl rfl hsafe
      | stampLastMeal j =>
        exact ForkInv.same t s inv i _ _ rfl rfl hsafe
      | updateTimesAte j =>
        exact ForkInv.same t s inv i _ _ rfl rfl hsafe
      | setStop => exact ForkInv.same t s inv i _ _ rfl rfl hsafe
      | printAllMeals => exact ForkInv.same t s inv i _ _ rfl rfl hsafe
      | usleep => exact ForkInv.same t s inv i _ _ rfl rfl hsafe

theorem ForkInv.run (t : Table) (s : Sys) (inv : ForkInv t s) (sched : List Nat) :
    ForkInv t (s.run sched) := by
  induction sched generalizing s with
  | nil => exact inv
  | cons i is ih => exact ih (s.step i) (ForkInv.step t s inv i)

theorem startSimulator_loop_getElem (t : Table) (fuel n k j : Nat) :
    (startSimulator.loop t fuel n k)[j]? =
      if j < n then some (philosopherRoutine t (k + j) fuel) else none := by
  induction n generalizing k j with
  | zero => simp [startSimulator.loop]
  | succ n ih =>
    cases j with
    | zero => simp [startSimulator.loop]
    | succ j =>
      simp only [startSimulator.loop, List.getElem?_cons_succ, ih, Nat.add_lt_add_iff_right]
      have e : k + 1 + j = k + (j + 1) := by omega
      rw [e]

theorem startSimulator_loop_length (t : Table) (fuel n k : Nat) :
    (startSimulator.loop t fuel n k).length = n := by
  induction n generalizing k with
  | zero => rfl
  | succ n ih => simp [startSimulator.loop, ih]

/-- The system set up by `startSimulator` satisfies the fork invariant. -/
theorem ForkInv.start (t : Table) (time : Nat → Int) (fuel : Nat) :
    ForkInv (startTable t (time 0)) (startSimulator t time fuel) := by
  refine ⟨?_, ?_, ?_, ?_, ?_, ?_⟩
  · intro i p hp
    simp only [startSimulator, List.getElem?_append, startSimulator_loop_length,
      startSimulator_loop_getElem] at hp
    split_ifs at hp with h1 h2
    · simp only [Option.some.injEq, Nat.zero_add] at hp
      subst hp
      exact philosopherRoutine_safe _ _ _ _
    · have hm := List.getElem?_mem hp
      simp only [List.mem_singleton] at hm
      subst hm
      exact monitor_safe _ _ _ _ _
    · simp at hp
  · intro i f hf
    simp [startSimulator] at hf
  · intro f hf
    simp [startSimulator] at hf
  · intro i j f hf
    simp [startSimulator] at hf
  · intro i
    simp [startSimulator]
  · intro i f hf
    simp [startSimulator] at hf

/-- C5. Mutual exclusion per fork.  In every state reached by an interleaving
of the threads that `startSimulator` starts (for any table, any clock, any loop
bound), a fork is held by at most one philosopher, a philosopher holds only its
own `fork[0]` and `fork[1]`, never the same fork twice, and a fork is locked
exactly when some philosopher holds it. -/
theorem fork_mutual_exclusion (t : Table) (time : Nat → Int) (fuel : Nat) (sched : List Nat) :
    (∀ (f : Int) (i j : Nat),
      f ∈ ((startSimulator t time fuel).run sched).world.held i →
      f ∈ ((startSimulator t time fuel).run sched).world.held j → i = j) ∧
    (∀ (f : Int) (i : Nat), f ∈ ((startSimulator t time fuel).run sched).world.held i →
      f = ((startTable t (time 0)).philo i).fork0 ∨
      f = ((startTable t (time 0)).philo i).fork1) ∧
    (∀ i : Nat, (((startSimulator t time fuel).run sched).world.held i).Nodup) ∧
    (∀ f : Int, ((startSimulator t time fuel).run sched).world.locked f = true ↔
      ∃ i, f ∈ ((startSimulator t time fuel).run sched).world.held i) := by
  have inv := ForkInv.run _ _ (ForkInv.start t time fuel) sched
  exact ⟨fun f i j hi hj => inv.unique i j f hi hj, fun f i hf => inv.own i f hf, inv.nodup,
    fun f => ⟨inv.held_of_locked f, fun ⟨i, hi⟩ => inv.locked_of_held i f hi⟩⟩

set_option maxRecDepth 100000 in
/-- C5, at a concrete input: after 18 operations of philosopher 2 in the run
`sysQuota` it holds forks 1 and 0, and philosopher 1 holds neither. -/
theorem fork_mutual_exclusion_witness :
    (sysQuota.run (List.replicate 18 1)).world.held 1 = [0, 1] ∧
    (0 : Int) ∉ (sysQuota.run (List.replicate 18 1)).world.held 0 ∧
    (1 : Int) ∉ (sysQuota.run (List.replicate 18 1)).world.held 0 :=
  ⟨by decide,
   fun h => absurd
     ((fork_mutual_exclusion (initTable 6 [0, 2, 10, 0, 0, 1])
        (clockOf (60 :: (List.replicate 27 100 ++ List.replicate 19 105)) 110) 3
        (List.replicate 18 1)).1 0 0 1 h (by decide)) (by decide),
   fun h => absurd
     ((fork_mutual_exclusion (initTable 6 [0, 2, 10, 0, 0, 1])
        (clockOf (60 :: (List.replicate 27 100 ++ List.replicate 19 105)) 110) 3
        (List.replicate 18 1)).1 1 0 1 h (by decide)) (by decide)⟩

/-! ## Runs in which the program leaves the described behaviour -/

theorem clockOf_mem (l : List Int) (d : Int) (n : Nat) : clockOf l d n ∈ l ++ [d] := by
  unfold clockOf
  rw [List.getD_eq_getElem?_getD]
  cases h : l[n]? with
  | none => simp
  | some a => simpa using Or.inl (List.getElem?_mem h)

/-- A clock made from a non-decreasing list of readings never runs backwards. -/
theorem clockOf_monotone (l : List Int) (d : Int) (h : (l ++ [d]).Pairwise (· ≤ ·)) :
    Monotone (clockOf l d) := by
  induction l with
  | nil =>
    intro a b _
    simp [clockOf]
  | cons x l ih =>
    rw [List.cons_append, List.pairwise_cons] at h
    intro a b hab
    cases a with
    | zero =>
      cases b with
      | zero => exact le_refl _
      | succ b => exact h.1 _ (clockOf_mem l d b)
    | succ a =>
      cases b with
      | zero => omega
      | succ b => exact ih h.2 (by omega)

set_option maxRecDepth 100000 in
/-- C4 fails on the code.  Philosopher 1 of `tableTwo` runs `eatRoutine`; when
the checkpoint after the first lock sees a death, `eatRoutine` returns with fork
0 still locked and held; when the checkpoint after the second lock sees it,
`eatRoutine` returns with forks 0 and 1 still locked and held. -/
theorem eatRoutine_abort_keeps_forks (fuel : Nat) :
    ((eatRoutine tableTwo 0 fuel).run worldAbortOne).map
        (fun r => (r.2.held 0, r.2.locked 0, r.2.locked 1, r.2.table.sim_stop)) =
      some ([0], true, false, true) ∧
    ((eatRoutine tableTwo 0 fuel).run worldAbortTwo).map
        (fun r => (r.2.held 0, r.2.locked 0, r.2.locked 1, r.2.table.sim_stop)) =
      some ([1, 0], true, true, true) := by
  constructor <;> rfl

set_option maxRecDepth 100000 in
/-- C3 fails on the code.  In the run `sysQuota` under the schedule
`schedQuota` the monitor passes its sweep, its stop check and its quota check,
then philosopher 2 is reported dead by the sweep of a philosopher thread, then
the monitor sets the flag and prints: the output ends with a `DIED` line followed
by `ALL MEALS COMPLETE.`.  The clock readings are non-decreasing. -/
theorem died_and_all_meals_complete :
    Monotone sysQuota.world.time ∧
    (sysQuota.run schedQuota).world.out =
      [Line.status 0 2 .GOT_RIGHT_FORK, Line.status 0 2 .GOT_LEFT_FORK,
       Line.status 0 1 .THINKING, Line.status 5 1 .GOT_RIGHT_FORK,
       Line.status 5 1 .GOT_LEFT_FORK, Line.status 10 2 .DIED, Line.allMeals] ∧
    diedCount (sysQuota.run schedQuota).world.out = 1 ∧
    allMealsCount (sysQuota.run schedQuota).world.out = 1 := by
  refine ⟨clockOf_monotone _ _ (by decide), ?_⟩
  decide

set_option maxRecDepth 100000 in
/-- C10 fails on the code.  In the run `sysLone` the only thread is the
philosopher's (no monitor is started).  Its last sweep reads the clock at 109 ms,
one short of `time_to_die`; the next reading, 110 ms, ends the delay; the thread
returns with the fork released, the stop flag false and no `DIED` line.  The
clock readings are non-decreasing. -/
theorem lone_philosopher_returns_alive (fuel : Nat) :
    Monotone (sysLone (fuel + 1)).world.time ∧
    (sysLone (fuel + 1)).threads.length = 1 ∧
    ((sysLone (fuel + 1)).threads.head?.bind fun p => p.run (sysLone (fuel + 1)).world).map
        (fun r => (r.2.table.sim_stop, r.2.out, r.2.held 0, r.2.locked 0,
          r.2.table.philos.map fun p => p.times_ate)) =
      some (false, [Line.status 0 1 .GOT_RIGHT_FORK], [], false, [0]) := by
  refine ⟨clockOf_monotone _ _ (by decide), ?_, ?_⟩ <;> rfl

/-! ## Argument validation -/

/-- C13, as stated, fails: a fifth argument of 0 is accepted by `isValid`, and
`initTable` then builds a table whose quota is 0, neither absent nor
positive. -/
theorem isValid_accepts_quota_zero :
    isValid 6 [0, 2, 10, 5, 5, 0] = true ∧
    (initTable 6 [0, 2, 10, 5, 5, 0]).min_dining = 0 ∧
    ¬ ((initTable 6 [0, 2, 10, 5, 5, 0]).min_dining = -1 ∨
        0 < (initTable 6 [0, 2, 10, 5, 5, 0]).min_dining) := by
  decide

/-- C13, amended.  For four or five arguments, `isValid` returns false and
`main` returns `EXIT_FAILURE` without building a table whenever the count is
below 1 or one of the three times is negative.  Every table that `initTable`
builds from arguments that `isValid` accepts has `num_philos >= 1`, non-negative
times, as many philosopher records as `num_philos`, and a quota that is absent
(`min_dining = -1`, exactly when there is no fifth argument) or not negative. -/
theorem isValid_table (ac : Int) (av : List Int) (time : Nat → Int) (fuel : Nat)
    (hac : ac = 5 ∨ ac = 6) :
    ((atoi av 1 < 1 ∨ atoi av 2 < 0 ∨ atoi av 3 < 0 ∨ atoi av 4 < 0) →
      isValid ac av = false ∧ main ac av time fuel = .error 1) ∧
    (isValid ac av = true →
      (∃ s, main ac av time fuel = .ok s) ∧
      1 ≤ (initTable ac av).num_philos ∧
      0 ≤ (initTable ac av).time_to_die ∧
      0 ≤ (initTable ac av).time_to_eat ∧
      0 ≤ (initTable ac av).time_to_sleep ∧
      (initTable ac av).philos.length = (initTable ac av).num_philos.toNat ∧
      ((initTable ac av).min_dining = -1 ↔ ac = 5) ∧
      ((initTable ac av).min_dining = -1 ∨ 0 ≤ (initTable ac av).min_dining)) := by
  constructor
  · intro h
    have hv : isValid ac av = false := by
      unfold isValid
      split_ifs <;> first | rfl | omega
    refine ⟨hv, ?_⟩
    unfold main
    rw [if_neg (by omega), if_pos hv]
  · intro h
    have hm : main ac av time fuel = .ok (startSimulator (initTable ac av) time fuel) := by
      unfold main
      rw [if_neg (by omega), if_neg (by simp [h])]
    unfold isValid at h
    split_ifs at h with h1 h2 h3 h4 h5
    refine ⟨⟨_, hm⟩, ?_, ?_, ?_, ?_, initPhilos_loop_length _ _ _, ?_, ?_⟩
    · simp only [initTable]; omega
    · simp only [initTable]; omega
    · simp only [initTable]; omega
    · simp only [initTable]; omega
    · simp only [initTable]
      rcases hac with rfl | rfl
      · simp
      · simp only [if_true, show ¬ ((6 : Int) = 5) by decide, iff_false]
        intro h6
        exact h5 ⟨rfl, by omega⟩
    · simp only [initTable]
      rcases hac with rfl | rfl
      · simp
      · simp only [if_true]
        right
        by_contra hneg
        exact h5 ⟨rfl, by omega⟩

/-- C13, at a concrete input: `./philo 5 800 200 200 7` is accepted and gives a
table with five philosophers and a quota of 7. -/
theorem isValid_table_witness :
    (∃ s, main 6 [0, 5, 800, 200, 200, 7] (fun _ => 0) 1 = .ok s) ∧
    (initTable 6 [0, 5, 800, 200, 200, 7]).philos.length = 5 ∧
    0 ≤ (initTable 6 [0, 5, 800, 200, 200, 7]).min_dining :=
  ⟨((isValid_table 6 [0, 5, 800, 200, 200, 7] (fun _ => 0) 1 (Or.inr rfl)).2 (by decide)).1,
   ((isValid_table 6 [0, 5, 800, 200, 200, 7] (fun _ => 0) 1 (Or.inr rfl)).2 (by decide)).2.2.2.2.2.1.trans
     (by decide),
   by decide⟩

/-! ## The operations of each thread -/

theorem hasPhiloDied_report (t : Table) (i : Nat) : (hasPhiloDied t i).Acts Act.isReport := by
  intro v
  simp only [hasPhiloDied]
  split_ifs <;> simp [Prog.Acts, Act.isReport]

theorem sweep_report (t : Table) (n k : Nat) :
    (hasAnyoneDied.loop t n k).Acts Act.isReport := by
  induction n generalizing k with
  | zero => trivial
  | succ n ih => exact Prog.acts_bind _ _ _ (hasPhiloDied_report t k) (fun _ => ih _)

theorem hasAnyoneDied_report (t : Table) : (hasAnyoneDied t).Acts Act.isReport := by
  intro b
  cases b
  · exact Prog.acts_bind _ _ _ (sweep_report t _ _) (fun _ _ => trivial)
  · trivial

theorem hasSimStopped_reads : hasSimStopped.Acts fun _ => False :=
  fun _ => trivial

theorem isReport_poll (a : Act) (h : a.isReport) : a.poll := by
  cases a <;> simp_all [Act.isReport, Act.poll]

theorem isReport_byPhilo (i : Nat) (a : Act) (h : a.isReport) : a.byPhilo i := by
  cases a <;> simp_all [Act.isReport, Act.byPhilo]

theorem isReport_byMonitor (a : Act) (h : a.isReport) : a.byMonitor := by
  cases a <;> simp_all [Act.isReport, Act.byMonitor]

/-- The start barrier performs no operation of `Act` at all. -/
theorem simStartDelay_reads (time : Int) (fuel : Nat) :
    (simStartDelay time fuel).Acts fun _ => False := by
  induction fuel with
  | zero => trivial
  | succ n ih =>
    intro v
    simp only []
    split_ifs
    · exact ih
    · trivial

theorem lullPhilo_poll (t : Table) (s : Int) (fuel : Nat) : (lullPhilo t s fuel).Acts Act.poll := by
  intro b
  simp only []
  induction fuel with
  | zero => trivial
  | succ n ih =>
    refine Prog.acts_bind _ _ _ (Prog.acts_mono _ _ _ isReport_poll (hasAnyoneDied_report t))
      (fun died => ?_)
    cases died
    · intro v
      simp only []
      split_ifs
      · exact ⟨trivial, ih⟩
      · trivial
    · trivial

/-- A stop checkpoint followed by `k` performs only operations allowed by `pa`
when `k` does and `pa` allows the operations of the sweep. -/
theorem report_checkpoint (t : Table) (pa : Act → Prop) (hq : ∀ a, a.isReport → pa a)
    (k : Prog Unit) (hk : k.Acts pa) :
    ((hasAnyoneDied t).bind fun d => if d then Prog.ret () else k).Acts pa := by
  refine Prog.acts_bind _ _ _ (Prog.acts_mono _ _ _ hq (hasAnyoneDied_report t)) (fun d => ?_)
  cases d
  · exact hk
  · trivial

theorem poll_byPhilo (i : Nat) (a : Act) (h : a.poll) : a.byPhilo i := by
  cases a <;> simp_all [Act.poll, Act.byPhilo]

theorem byPhilo_byThread (i : Nat) (a : Act) (h : a.byPhilo i) : a.byThread := by
  cases a <;> simp_all [Act.byPhilo, Act.byThread]

theorem byMonitor_byThread (a : Act) (h : a.byMonitor) : a.byThread := by
  cases a <;> simp_all [Act.byMonitor, Act.byThread]

theorem sleepRoutine_byPhilo (t : Table) (i fuel : Nat) :
    (sleepRoutine t i fuel).Acts (Act.byPhilo i) := by
  refine Prog.acts_bind _ _ _ (Prog.acts_mono _ _ _ (isReport_byPhilo i) (hasAnyoneDied_report t))
    (fun died => ?_)
  split_ifs
  · exact ⟨⟨rfl, by decide⟩, Prog.acts_mono _ _ _ (poll_byPhilo i) (lullPhilo_poll _ _ _)⟩
  · trivial

theorem thinkingRoutine_byPhilo (t : Table) (i : Nat) (first : Bool) (fuel : Nat) :
    (thinkingRoutine t i first fuel).Acts (Act.byPhilo i) := by
  refine report_checkpoint _ _ (isReport_byPhilo i) _ ?_
  refine Prog.acts_bind _ _ _ ?_ (fun e => ?_)
  · cases first
    · exact fun _ => trivial
    · trivial
  · refine Prog.acts_bind _ _ _ (Prog.acts_mono _ _ _ (isReport_byPhilo i) (hasAnyoneDied_report t))
      (fun d2 => ?_)
    cases d2
    · exact ⟨⟨rfl, by decide⟩, Prog.acts_mono _ _ _ (poll_byPhilo i) (lullPhilo_poll _ _ _)⟩
    · trivial

theorem eatRoutine_byPhilo (t : Table) (i fuel : Nat) :
    (eatRoutine t i fuel).Acts (Act.byPhilo i) := by
  unfold eatRoutine
  refine report_checkpoint _ _ (isReport_byPhilo i) _ ⟨rfl, ?_⟩
  refine report_checkpoint _ _ (isReport_byPhilo i) _ ⟨⟨rfl, by decide⟩, ?_⟩
  refine report_checkpoint _ _ (isReport_byPhilo i) _ ⟨rfl, ?_⟩
  refine report_checkpoint _ _ (isReport_byPhilo i) _ ⟨⟨rfl, by decide⟩, rfl, ?_⟩
  refine report_checkpoint _ _ (isReport_byPhilo i) _ ?_
  refine Prog.acts_bind _ _ _ ?_ (fun _ => ⟨rfl, rfl, ?_⟩)
  · split_ifs
    · exact ⟨⟨rfl, by decide⟩, Prog.acts_mono _ _ _ (poll_byPhilo i) (lullPhilo_poll _ _ _)⟩
    · trivial
  · exact report_checkpoint _ _ (isReport_byPhilo i) _ ⟨rfl, trivial⟩

theorem lonePhiloRoutine_byPhilo (t : Table) (i fuel : Nat) :
    (lonePhiloRoutine t i fuel).Acts (Act.byPhilo i) :=
  ⟨rfl, ⟨rfl, by decide⟩, Prog.acts_bind _ _ _
    (Prog.acts_mono _ _ _ (poll_byPhilo i) (lullPhilo_poll _ _ _)) (fun _ => ⟨rfl, trivial⟩)⟩

theorem philosopherRoutine_byPhilo (t : Table) (i fuel : Nat) :
    (philosopherRoutine t i fuel).Acts (Act.byPhilo i) := by
  have hloop : ∀ n, (philosopherRoutine.loop t i fuel n).Acts (Act.byPhilo i) := by
    intro n
    induction n with
    | zero => trivial
    | succ n ih =>
      refine Prog.acts_bind _ _ _ (Prog.acts_mono _ _ _ (fun _ h => h.elim) hasSimStopped_reads)
        (fun s => ?_)
      cases s
      · simp only [Bool.false_eq_true, if_false]
        refine Prog.acts_bind _ _ _ (eatRoutine_byPhilo t i fuel) (fun _ => ?_)
        refine Prog.acts_bind _ _ _ (sleepRoutine_byPhilo _ _ _) (fun _ => ?_)
        exact Prog.acts_bind _ _ _ (thinkingRoutine_byPhilo _ _ _ _) (fun _ => ih)
      · trivial
  unfold philosopherRoutine
  refine Prog.acts_bind _ _ _ (Prog.acts_mono _ _ _ (fun _ h => h.elim) (simStartDelay_reads _ _))
    (fun _ => ?_)
  refine Prog.acts_bind _ _ _ (Prog.acts_mono _ _ _ (isReport_byPhilo i) (hasPhiloDied_report _ _))
    (fun died => ?_)
  cases died
  · simp only [Bool.false_eq_true, if_false]
    split_ifs
    · exact lonePhiloRoutine_byPhilo _ _ _
    · exact Prog.acts_bind _ _ _ (thinkingRoutine_byPhilo _ _ _ _) (fun _ => hloop _)
    · exact hloop _
  · trivial

theorem areMealsCompleted_reads (t : Table) : (areMealsCompleted t).Acts fun _ => False := by
  unfold areMealsCompleted
  generalize t.num_philos.toNat = n
  generalize 0 = k
  induction n generalizing k with
  | zero => trivial
  | succ n ih =>
    intro v
    simp only []
    split_ifs
    · trivial
    · exact ih _

theorem monitor_byMonitor (t : Table) (fuel : Nat) : (monitor t fuel).Acts Act.byMonitor := by
  have hround : (monitor.round t).Acts Act.byMonitor := by
    refine Prog.acts_bind _ _ _ (Prog.acts_mono _ _ _ isReport_byMonitor (hasAnyoneDied_report t))
      (fun died => ?_)
    cases died
    · refine Prog.acts_bind _ _ _ (Prog.acts_mono _ _ _ (fun _ h => h.elim) hasSimStopped_reads)
        (fun s => ?_)
      cases s
      · simp only [Bool.false_eq_true, if_false]
        refine Prog.acts_bind _ _ _ ?_ (fun c => ?_)
        · split_ifs
          · exact Prog.acts_mono _ _ _ (fun _ h => h.elim) (areMealsCompleted_reads t)
          · trivial
        · cases c
          · trivial
          · exact ⟨trivial, trivial, trivial⟩
      · trivial
    · trivial
  refine Prog.acts_bind _ _ _ (Prog.acts_mono _ _ _ (fun _ h => h.elim) (simStartDelay_reads _ _))
    (fun _ => ?_)
  split_ifs
  · trivial
  · generalize fuel = n
    induction n with
    | zero => trivial
    | succ n ih =>
      refine Prog.acts_bind _ _ _ hround (fun d => ?_)
      cases d
      · exact ih
      · trivial

/-- Every thread that `startSimulator` starts performs only operations of
`Act.byThread`. -/
theorem startSimulator_byThread (t : Table) (time : Nat → Int) (fuel : Nat) (p : Prog Unit)
    (h : p ∈ (startSimulator t time fuel).threads) : p.Acts Act.byThread := by
  rcases startSimulator_threads t time fuel p h with ⟨i, h⟩ | h
  · rw [h]
    exact Prog.acts_mono _ _ _ (byPhilo_byThread i) (philosopherRoutine_byPhilo _ _ _)
  · rw [h]
    exact Prog.acts_mono _ _ _ byMonitor_byThread (monitor_byMonitor _ _)

/-! ## The configuration with `time_to_die = 0` -/

/-- The start barrier returns as soon as a reading reaches `time`, when its loop
bound allows that many readings; it only reads the clock, and the last reading
it took is at least `time`. -/
theorem simStartDelay_returns (time : Int) (fuel : Nat) (w : World) (k : Nat) (hk : k < fuel)
    (h : w.time (w.ticks + k) ≥ time) :
    ∃ n, n ≤ k ∧ w.time (w.ticks + n) ≥ time ∧
      (simStartDelay time fuel).run w = some ((), { w with ticks := w.ticks + n + 1 }) := by
  induction fuel generalizing w k with
  | zero => omega
  | succ m ih =>
    by_cases hlt : w.time w.ticks < time
    · cases k with
      | zero =>
        simp only [Nat.add_zero] at h
        omega
      | succ k =>
        obtain ⟨n, hn, hge, hrun⟩ := ih { w with ticks := w.ticks + 1 } k (by omega)
          (by simpa [Nat.add_assoc, Nat.add_comm 1 k] using h)
        refine ⟨n + 1, by omega, by simpa [Nat.add_assoc, Nat.add_comm 1 n] using hge, ?_⟩
        simp only [simStartDelay, Prog.run_read, Read.exec, getTimeIn_ms, hlt, if_true, hrun]
        simp [Nat.add_assoc, Nat.add_comm 1 n]
    · refine ⟨0, Nat.zero_le k, by simpa using le_of_not_lt hlt, ?_⟩
      simp only [simStartDelay, Prog.run_read, Read.exec, getTimeIn_ms, hlt, if_false,
        Prog.run_ret, Nat.add_zero]

theorem monitor_reads_of_zero (t : Table) (fuel : Nat) (h : t.time_to_die = 0) :
    (monitor t fuel).Acts fun _ => False := by
  refine Prog.acts_bind _ _ _ (simStartDelay_reads _ _) (fun _ => ?_)
  rw [if_pos h]
  trivial

theorem read_keeps_state (r : Read) (w : World) :
    (r.exec w).2.table = w.table ∧ (r.exec w).2.out = w.out ∧
      (r.exec w).2.locked = w.locked ∧ (r.exec w).2.held = w.held ∧
      (r.exec w).2.time = w.time := by
  cases r <;> exact ⟨rfl, rfl, rfl, rfl, rfl⟩

/-- A death report or an operation of a thread keeps the count of `DIED` lines
at most one, and at zero while the stop flag is unset. -/
theorem byThread_keeps_died (a : Act) (w w1 : World) (ha : a.byThread)
    (he : a.exec w = some w1)
    (hw : diedCount w.out ≤ 1 ∧ (w.table.sim_stop = false → diedCount w.out = 0)) :
    diedCount w1.out ≤ 1 ∧ (w1.table.sim_stop = false → diedCount w1.out = 0) := by
  cases a <;> simp only [Act.exec, Option.some.injEq] at he
  · subst he
    simp only [reportDeath]
    split_ifs with hs
    · have h0 : diedCount w.out = 0 := hw.2 hs
      unfold diedCount at h0 ⊢
      simp only [writeStatus, getTimeIn_ms, List.countP_append, h0]
      simp
    · exact hw
  · subst he
    rename_i j st
    have hst : st ≠ STATUS.DIED := ha
    cases st <;> first | exact absurd rfl hst | simpa [writeStatus, getTimeIn_ms, diedCount, List.countP_append] using hw
  · subst he
    exact hw
  · subst he
    exact hw
  · split_ifs at he
    simp only [Option.some.injEq] at he
    subst he
    exact hw
  · subst he
    exact hw
  · subst he
    exact ⟨hw.1, fun h => by simp at h⟩
  · subst he
    simpa [diedCount, List.countP_append] using hw
  · subst he
    exact hw

/-- In every interleaving of the threads that `startSimulator` starts, at most
one `DIED` line is printed, and none while the stop flag is unset. -/
theorem died_at_most_once (t : Table) (time : Nat → Int) (fuel : Nat) (sched : List Nat) :
    diedCount ((startSimulator t time fuel).run sched).world.out ≤ 1 ∧
      (((startSimulator t time fuel).run sched).world.table.sim_stop = false →
        diedCount ((startSimulator t time fuel).run sched).world.out = 0) :=
  (Sys.sched_keeps Act.byThread
    (fun x => diedCount x.out ≤ 1 ∧ (x.table.sim_stop = false → diedCount x.out = 0))
    (fun r x hx => by simpa [read_keeps_out, read_keeps_table] using hx)
    (fun a x x1 ha he hx => byThread_keeps_died a x x1 ha he hx)
    (startSimulator t time fuel) (startSimulator_byThread t time fuel)
    ⟨Nat.zero_le 1, fun _ => rfl⟩ sched).2

theorem startTable_last_meal (t : Table) (now : Int) (i : Nat) (hi : i < t.philos.length) :
    ((startTable t now).philo i).last_meal = (startTable t now).start_time := by
  simp [Table.philo, startTable, List.getD_eq_getElem?_getD, List.getElem?_map,
    List.getElem?_eq_getElem hi]

set_option maxRecDepth 100000 in
/-- C11, as stated, fails: in the run `./philo 2 0 5 5` the first three
operations of philosopher 1 (start delay, elapsed time, death report) print a
`DIED` line. -/
theorem zero_time_to_die_prints_died :
    (initTable 5 [0, 2, 0, 5, 5]).time_to_die = 0 ∧
    (sysZero.run [0, 0, 0]).world.out = [Line.status 0 1 STATUS.DIED] ∧
    diedCount (sysZero.run [0, 0, 0]).world.out = 1 := by
  decide

/-- C11, amended.  With `time_to_die = 0` the monitor only reads the clock:
every run of it leaves the table, the output and the forks unchanged, and it
returns as soon as a reading reaches `start_time`.  No interleaving of the
threads started by `startSimulator` prints `ALL MEALS COMPLETE.`, and none prints
more than one `DIED` line.  A `DIED` line is printed: a philosopher thread that
runs from the start, under a clock that never runs backwards, reaches
`start_time` within the loop bound and is then less than 2^31 ms past
`start_time`, passes its start delay, finds its elapsed time at least 0, reports
its own death and returns. -/
theorem zero_time_to_die (t : Table) (time : Nat → Int) (fuel : Nat)
    (ht : t.time_to_die = 0) :
    (∀ (w : World) (r : Unit × World), (monitor t fuel).run w = some r →
      r.2.table = w.table ∧ r.2.out = w.out ∧ r.2.locked = w.locked ∧ r.2.held = w.held) ∧
    (∀ (w : World) (k : Nat), k < fuel → w.time (w.ticks + k) ≥ t.start_time →
      ∃ r, (monitor t fuel).run w = some r) ∧
    (∀ sched : List Nat,
      allMealsCount ((startSimulator t time fuel).run sched).world.out = 0 ∧
      diedCount ((startSimulator t time fuel).run sched).world.out ≤ 1) ∧
    (∀ i k : Nat, i < t.philos.length → t.sim_stop = false → Monotone time → k < fuel →
      time (1 + k) ≥ (startTable t (time 0)).start_time →
      time (1 + k + 1) - (startTable t (time 0)).start_time < 2147483648 →
      ∃ r ms, (philosopherRoutine (startTable t (time 0)) i fuel).run
          (startSimulator t time fuel).world = some r ∧
        r.2.table.sim_stop = true ∧
        r.2.out = [Line.status ms ((startTable t (time 0)).philo i).id STATUS.DIED]) := by
  refine ⟨?_, ?_, ?_, ?_⟩
  · intro w r hr
    have h := Prog.run_keeps (fun _ => False)
      (fun x => x.table = w.table ∧ x.out = w.out ∧ x.locked = w.locked ∧ x.held = w.held)
      (fun rd x hx => by
        obtain ⟨h1, h2, h3, h4, _⟩ := read_keeps_state rd x
        exact ⟨h1.trans hx.1, h2.trans hx.2.1, h3.trans hx.2.2.1, h4.trans hx.2.2.2⟩)
      (fun a x x1 ha _ _ => ha.elim) _ (monitor_reads_of_zero t fuel ht) w r hr
      ⟨rfl, rfl, rfl, rfl⟩
    exact h
  · intro w k hk hge
    obtain ⟨n, -, -, hrun⟩ := simStartDelay_returns t.start_time fuel w k hk hge
    refine ⟨((), { w with ticks := w.ticks + n + 1 }), ?_⟩
    simp only [monitor, Prog.run_bind, hrun, Option.some_bind, ht, if_true, Prog.run_ret]
  · intro sched
    refine ⟨?_, (died_at_most_once t time fuel sched).1⟩
    refine (Sys.sched_keeps Act.ofPhilo (fun x => allMealsCount x.out = 0)
      (fun r x hx => by simpa [read_keeps_out] using hx)
      (fun a x x1 ha he hx => ofPhilo_keeps_allMeals _ a x x1 ha he hx)
      (startSimulator t time fuel) (fun p hp => ?_) rfl sched).2
    rcases startSimulator_threads t time fuel p hp with ⟨i, h⟩ | h
    · rw [h]
      exact philosopherRoutine_ofPhilo _ _ _
    · rw [h]
      exact Prog.acts_mono _ _ _ (fun _ h => h.elim) (monitor_reads_of_zero _ fuel ht)
  · intro i k hi hs hmono hk hge hlate
    obtain ⟨n, hnk, hn, hrun⟩ := simStartDelay_returns (startTable t (time 0)).start_time fuel
      (startSimulator t time fuel).world k hk hge
    have hlast := startTable_last_meal t (time 0) i hi
    have hn1 : time (1 + n) ≥ (startTable t (time 0)).start_time := hn
    have hnow : time (1 + n + 1) ≥ (startTable t (time 0)).start_time :=
      le_trans hn1 (hmono (Nat.le_succ (1 + n)))
    refine ⟨((), reportDeath i { (startSimulator t time fuel).world with ticks := 1 + n + 1 + 1 }),
      time (1 + n + 1 + 1) - (startTable t (time 0)).start_time, ?_, ?_, ?_⟩
    · simp only [philosopherRoutine, Prog.run_bind, hrun, Option.some_bind, hasPhiloDied_run]
      have hle : time (1 + n + 1) ≤ time (1 + k + 1) := hmono (by omega)
      have hc : toInt32 ((startSimulator t time fuel).world.time (1 + n + 1) -
          ((startSimulator t time fuel).world.table.philo i).last_meal) ≥
            (startTable t (time 0)).time_to_die := by
        show toInt32 (time (1 + n + 1) - ((startTable t (time 0)).philo i).last_meal) ≥
          t.time_to_die
        rw [hlast, ht, toInt32_of_range _ (by omega) (by omega)]
        omega
      have e : (startSimulator t time fuel).world.ticks = 1 := rfl
      simp only [e]
      rw [if_pos hc]
      simp only [Option.some_bind, if_true, Prog.run_ret]
    · simp [reportDeath, startSimulator, startTable, hs, writeStatus, getTimeIn_ms]
    · simp [reportDeath, startSimulator, startTable, hs, writeStatus, getTimeIn_ms, Table.philo]

/-- C11, at a concrete input: in the run `./philo 2 0 5 5` the thread of
philosopher 1, run from the start, prints a `DIED` line for philosopher 1 and
sets the stop flag. -/
theorem zero_time_to_die_witness :
    (initTable 5 [0, 2, 0, 5, 5]).time_to_die = 0 ∧
    ∃ r ms, (philosopherRoutine (startTable (initTable 5 [0, 2, 0, 5, 5]) 60) 0 1).run
        sysZero.world = some r ∧
      r.2.table.sim_stop = true ∧ r.2.out = [Line.status ms 1 STATUS.DIED] :=
  ⟨rfl, (zero_time_to_die (initTable 5 [0, 2, 0, 5, 5]) (clockOf [60] 100) 1 rfl).2.2.2 0 0
    (by decide) rfl (clockOf_monotone _ _ (by decide)) (by decide) (by decide) (by decide)⟩

/-! ## The meal count -/

theorem modifyAt_getD (g : Philo → Philo) (i j : Nat) (l : List Philo) (d : Philo) :
    (modifyAt g i l).getD j d = if j = i ∧ i < l.length then g (l.getD i d) else l.getD j d := by
  induction l generalizing i j with
  | nil => simp [modifyAt]
  | cons p ps ih =>
    cases i with
    | zero =>
      cases j with
      | zero => simp [modifyAt]
      | succ j => simp [modifyAt]
    | succ i =>
      cases j with
      | zero => simp [modifyAt]
      | succ j =>
        have := ih i j
        simp only [List.getD_eq_getElem?_getD] at this
        simp [modifyAt, this]

theorem modifyAt_length (g : Philo → Philo) (i : Nat) (l : List Philo) :
    (modifyAt g i l).length = l.length := by
  induction l generalizing i with
  | nil => simp [modifyAt]
  | cons p ps ih =>
    cases i with
    | zero => simp [modifyAt]
    | succ i => simp [modifyAt, ih]

theorem Prog.triple_ret {α : Type} (J : World → Prop) (a : α) (Q : α → World → Prop)
    (h : ∀ w, J w → Q a w) : (Prog.ret a).Triple J Q := by
  intro w r hw hr
  simp only [Prog.run_ret, Option.some.injEq] at hr
  subst hr
  exact h w hw

theorem Prog.triple_bind {α β : Type} (J J1 : World → Prop) (m : Prog α) (g : α → Prog β)
    (Q : β → World → Prop) (hm : m.Triple J (fun _ w => J1 w))
    (hg : ∀ a, (g a).Triple J1 Q) : (m.bind g).Triple J Q := by
  intro w r hw hr
  rw [Prog.run_bind] at hr
  cases h : m.run w with
  | none => simp [h] at hr
  | some r1 =>
    simp only [h, Option.some_bind] at hr
    exact hg r1.1 r1.2 r (hm w r1 hw h) hr

theorem Prog.triple_act {α : Type} (J J1 : World → Prop) (a : Act) (k : Prog α)
    (Q : α → World → Prop) (ha : ∀ w w1, J w → a.exec w = some w1 → J1 w1)
    (hk : k.Triple J1 Q) : (Prog.act a k).Triple J Q := by
  intro w r hw hr
  cases h : a.exec w with
  | none => simp [Prog.run, h] at hr
  | some w1 =>
    rw [Prog.run_act a k w w1 h] at hr
    exact hk w1 r (ha w w1 hw h) hr

theorem Prog.triple_weaken {α : Type} (J J1 : World → Prop) (m : Prog α)
    (Q : α → World → Prop) (h : ∀ w, J1 w → J w) (hm : m.Triple J Q) : m.Triple J1 Q :=
  fun w r hw hr => hm w r (h w hw) hr

/-- A property kept by every read and by every operation allowed by `pa` is
kept by code that performs only such operations. -/
theorem Prog.triple_keeps {α : Type} (pa : Act → Prop) (J : World → Prop)
    (hread : ∀ r w, J w → J (Read.exec r w).2)
    (hact : ∀ a w w1, pa a → Act.exec a w = some w1 → J w → J w1)
    (m : Prog α) (hm : m.Acts pa) : m.Triple J (fun _ w => J w) :=
  fun w r hw hr => Prog.run_keeps pa J hread hact m hm w r hr hw

/-- A checkpoint returns the value of the stop flag that it leaves behind. -/
theorem hasAnyoneDied_returns_flag (t : Table) (w : World) (b : Bool) (w1 : World)
    (h : (hasAnyoneDied t).run w = some (b, w1)) : b = w1.table.sim_stop := by
  simp only [hasAnyoneDied, Prog.run_stopped] at h
  cases hs : w.table.sim_stop with
  | true =>
    simp only [hs, if_true, Prog.run_ret, Option.some.injEq, Prod.mk.injEq] at h
    rw [← h.1, ← h.2, hs]
  | false =>
    simp only [hs, Bool.false_eq_true, if_false, Prog.run_bind] at h
    cases hl : (hasAnyoneDied.loop t t.num_philos.toNat 0).run w with
    | none => simp [hl] at h
    | some r =>
      simp only [hl, Option.some_bind, Prog.run_stopped, Prog.run_ret, Option.some.injEq,
        Prod.mk.injEq] at h
      rw [← h.1, ← h.2]

/-- A checkpoint followed by `k`: when the checkpoint sees the stop flag set the
routine returns at once, otherwise `k` runs from a world where the flag is
unset. -/
theorem triple_checkpoint (t : Table) (J : World → Prop) (k : Prog Unit)
    (Q : Unit → World → Prop)
    (hread : ∀ r w, J w → J (Read.exec r w).2)
    (hact : ∀ a w w1, a.isReport → Act.exec a w = some w1 → J w → J w1)
    (hret : ∀ w, J w → w.table.sim_stop = true → Q () w)
    (hk : k.Triple (fun w => J w ∧ w.table.sim_stop = false) Q) :
    ((hasAnyoneDied t).bind fun d => if d then Prog.ret () else k).Triple J Q := by
  intro w r hw hr
  rw [Prog.run_bind] at hr
  cases h : (hasAnyoneDied t).run w with
  | none => simp [h] at hr
  | some r1 =>
    obtain ⟨b, w1⟩ := r1
    have hJ : J w1 :=
      Prog.run_keeps Act.isReport J hread hact _ (hasAnyoneDied_report t) w _ h hw
    have hb := hasAnyoneDied_returns_flag t w b w1 h
    simp only [h, Option.some_bind] at hr
    cases b with
    | true =>
      simp only [if_true, Prog.run_ret, Option.some.injEq] at hr
      subst hr
      exact hret w1 hJ hb.symm
    | false =>
      simp only [Bool.false_eq_true, if_false] at hr
      exact hk w1 r ⟨hJ, hb.symm⟩ hr

theorem mealsKept_read (w0 : World) (i : Nat) (r : Read) (x : World)
    (hx : mealsKept w0 i x) : mealsKept w0 i (r.exec x).2 := by
  unfold mealsKept at hx ⊢
  rw [read_keeps_table]
  exact hx

/-- Every operation of philosopher `i` other than its meal count keeps the meal
counts of all and the last-meal times of the others. -/
theorem mealsKept_exec (w0 : World) (i : Nat) (a : Act) (x x1 : World)
    (h1 : a.byPhilo i) (h2 : a.keepsMeals) (he : a.exec x = some x1)
    (hx : mealsKept w0 i x) : mealsKept w0 i x1 := by
  cases a <;> simp only [Act.exec, Option.some.injEq] at he
  · subst he
    simp only [reportDeath, writeStatus, getTimeIn_ms]
    split_ifs
    · exact hx
    · exact hx
  · subst he
    exact hx
  · subst he
    have hi : _ = i := h1
    subst hi
    obtain ⟨hl, ha, hm⟩ := hx
    refine ⟨by simpa [stampLastMeal, getTimeIn_ms, modifyAt_length] using hl, ?_, ?_⟩
    · intro j
      rw [← ha j]
      simp only [stampLastMeal, getTimeIn_ms, Table.philo, modifyAt_getD]
      split_ifs with h
      · rw [h.1]
      · rfl
    · intro j hj
      rw [← hm j hj]
      simp only [stampLastMeal, getTimeIn_ms, Table.philo, modifyAt_getD]
      rw [if_neg (fun h => hj h.1)]
  · exact h2.elim
  · split_ifs at he
    simp only [Option.some.injEq] at he
    subst he
    exact hx
  · subst he
    exact hx
  · exact h1.elim
  · exact h1.elim
  · subst he
    exact hx

theorem mealsKept_report (w0 : World) (i : Nat) (a : Act) (x x1 : World)
    (h : a.isReport) (he : a.exec x = some x1) (hx : mealsKept w0 i x) :
    mealsKept w0 i x1 :=
  mealsKept_exec w0 i a x x1 (isReport_byPhilo i a h)
    (by cases a <;> trivial) he hx

theorem mealsKept_poll (w0 : World) (i : Nat) (a : Act) (x x1 : World)
    (h : a.poll) (he : a.exec x = some x1) (hx : mealsKept w0 i x) :
    mealsKept w0 i x1 :=
  mealsKept_exec w0 i a x x1 (poll_byPhilo i a h)
    (by cases a <;> trivial) he hx

/-- One call of `eatRoutine` by philosopher `i`, run from `w0` to its return. -/
theorem eatRoutine_triple (t : Table) (i fuel : Nat) (w0 : World)
    (hi : i < w0.table.philos.length) :
    (eatRoutine t i fuel).Triple (mealsKept w0 i) (fun _ x => mealsAfter w0 i x) := by
  have hret : ∀ x, mealsKept w0 i x → x.table.sim_stop = true → mealsAfter w0 i x := by
    intro x hx hs
    exact ⟨fun h => by simp [hs] at h, fun _ => hx.2.1 i, fun j hj => ⟨hx.2.1 j, hx.2.2 j hj⟩⟩
  have hstep : ∀ (a : Act), a.byPhilo i → a.keepsMeals → ∀ x x1 : World,
      (mealsKept w0 i x ∧ x.table.sim_stop = false) → a.exec x = some x1 → mealsKept w0 i x1 :=
    fun a h1 h2 x x1 hx he => mealsKept_exec w0 i a x x1 h1 h2 he hx.1
  have hstep1 : ∀ (a : Act), a.byPhilo i → a.keepsMeals → ∀ x x1 : World,
      mealsKept w0 i x → a.exec x = some x1 → mealsKept w0 i x1 :=
    fun a h1 h2 x x1 hx he => mealsKept_exec w0 i a x x1 h1 h2 he hx
  unfold eatRoutine
  refine triple_checkpoint t _ _ _ (mealsKept_read w0 i) (mealsKept_report w0 i) hret ?_
  refine Prog.triple_act _ _ _ _ _ (hstep _ rfl trivial) ?_
  refine triple_checkpoint t _ _ _ (mealsKept_read w0 i) (mealsKept_report w0 i) hret ?_
  refine Prog.triple_act _ _ _ _ _ (hstep _ ⟨rfl, by decide⟩ trivial) ?_
  refine triple_checkpoint t _ _ _ (mealsKept_read w0 i) (mealsKept_report w0 i) hret ?_
  refine Prog.triple_act _ _ _ _ _ (hstep _ rfl trivial) ?_
  refine triple_checkpoint t _ _ _ (mealsKept_read w0 i) (mealsKept_report w0 i) hret ?_
  refine Prog.triple_act _ _ _ _ _ (hstep _ ⟨rfl, by decide⟩ trivial) ?_
  refine Prog.triple_act _ _ _ _ _ (hstep1 _ rfl trivial) ?_
  refine triple_checkpoint t _ _ _ (mealsKept_read w0 i) (mealsKept_report w0 i) hret ?_
  refine Prog.triple_bind _ (mealsKept w0 i) _ _ _ ?_ (fun _ => ?_)
  · refine Prog.triple_weaken (mealsKept w0 i) _ _ _ (fun _ h => h.1) ?_
    split_ifs
    · refine Prog.triple_act _ _ _ _ _ (hstep1 _ ⟨rfl, by decide⟩ trivial) ?_
      exact Prog.triple_keeps Act.poll _ (mealsKept_read w0 i) (mealsKept_poll w0 i) _
        (lullPhilo_poll _ _ _)
    · exact Prog.triple_ret _ _ _ (fun _ h => h)
  refine Prog.triple_act _ _ _ _ _ (hstep1 _ rfl trivial) ?_
  refine Prog.triple_act _ _ _ _ _ (hstep1 _ rfl trivial) ?_
  refine triple_checkpoint t _ _ _ (mealsKept_read w0 i) (mealsKept_report w0 i) hret ?_
  refine Prog.triple_act (fun x => mealsKept w0 i x ∧ x.table.sim_stop = false)
    (mealsAfter w0 i) _ _ _ ?_ (Prog.triple_ret _ _ _ (fun _ h => h))
  intro x x1 hx he
  simp only [Act.exec, Option.some.injEq] at he
  subst he
  obtain ⟨⟨hl, ha, hm⟩, hs⟩ := hx
  have hix : i < x.table.philos.length := by omega
  refine ⟨fun _ => ?_, fun h => ?_, fun j hj => ⟨?_, ?_⟩⟩
  · rw [← ha i]
    simp only [updateTimesAte, Table.philo, modifyAt_getD, hix, and_self, if_true]
  · simp [updateTimesAte, hs] at h
  · rw [← ha j]
    simp only [updateTimesAte, Table.philo, modifyAt_getD]
    rw [if_neg (fun h => hj h.1)]
  · rw [← hm j hj]
    simp only [updateTimesAte, Table.philo, modifyAt_getD]
    rw [if_neg (fun h => hj h.1)]

theorem Prog.stamps_lock {α : Type} (f0 f1 : Int) (j : Nat) (f : Int) (k : Prog α)
    (h : List Int) :
    (Prog.act (.lock j f) k).StampsHolding f0 f1 h ↔ k.StampsHolding f0 f1 (f :: h) :=
  Iff.rfl

theorem Prog.stamps_unlock {α : Type} (f0 f1 : Int) (j : Nat) (f : Int) (k : Prog α)
    (h : List Int) :
    (Prog.act (.unlock j f) k).StampsHolding f0 f1 h ↔ k.StampsHolding f0 f1 (h.erase f) :=
  Iff.rfl

theorem Prog.stamps_stamp {α : Type} (f0 f1 : Int) (j : Nat) (k : Prog α) (h : List Int) :
    (Prog.act (.stampLastMeal j) k).StampsHolding f0 f1 h ↔
      (f0 ∈ h ∧ f1 ∈ h) ∧ k.StampsHolding f0 f1 h :=
  Iff.rfl

theorem Prog.stamps_quiet_act {α : Type} (f0 f1 : Int) (a : Act) (ha : a.quiet) (k : Prog α)
    (h : List Int) : (Prog.act a k).StampsHolding f0 f1 h ↔ k.StampsHolding f0 f1 h := by
  cases a <;> first | exact Iff.rfl | exact ha.elim

theorem Prog.stamps_quiet_bind {α β : Type} (f0 f1 : Int) (m : Prog α) (g : α → Prog β)
    (h : List Int) (hm : m.Acts Act.quiet) (hg : ∀ a, (g a).StampsHolding f0 f1 h) :
    (m.bind g).StampsHolding f0 f1 h := by
  induction m with
  | ret a => exact hg a
  | stopped k ih => exact fun b => ih b (hm b)
  | read r k ih => exact fun v => ih v (hm v)
  | act a k ih =>
    have := ih hm.2
    exact (Prog.stamps_quiet_act f0 f1 a hm.1 _ h).mpr this
  | spin => trivial

theorem stamps_checkpoint (t : Table) (f0 f1 : Int) (k : Prog Unit) (h : List Int)
    (hk : k.StampsHolding f0 f1 h) :
    ((hasAnyoneDied t).bind fun d => if d then Prog.ret () else k).StampsHolding f0 f1 h := by
  refine Prog.stamps_quiet_bind _ _ _ _ _ (hasAnyoneDied_quiet t) (fun d => ?_)
  cases d
  · exact hk
  · trivial

/-- In `eatRoutine` the meal stamp is made while both forks are locked. -/
theorem eatRoutine_stamps (t : Table) (i fuel : Nat) (h : List Int) :
    (eatRoutine t i fuel).StampsHolding (t.philo i).fork0 (t.philo i).fork1 h := by
  unfold eatRoutine
  refine stamps_checkpoint _ _ _ _ _ ?_
  refine (Prog.stamps_lock _ _ _ _ _ _).mpr ?_
  refine stamps_checkpoint _ _ _ _ _ ?_
  refine (Prog.stamps_quiet_act _ _ _ (by trivial) _ _).mpr ?_
  refine stamps_checkpoint _ _ _ _ _ ?_
  refine (Prog.stamps_lock _ _ _ _ _ _).mpr ?_
  refine stamps_checkpoint _ _ _ _ _ ?_
  refine (Prog.stamps_quiet_act _ _ _ (by trivial) _ _).mpr ?_
  refine (Prog.stamps_stamp _ _ _ _ _).mpr ⟨⟨by simp, by simp⟩, ?_⟩
  refine stamps_checkpoint _ _ _ _ _ ?_
  refine Prog.stamps_quiet_bind _ _ _ _ _ ?_ (fun _ => ?_)
  · split_ifs
    · exact ⟨trivial, lullPhilo_quiet _ _ _⟩
    · trivial
  refine (Prog.stamps_unlock _ _ _ _ _ _).mpr ?_
  refine (Prog.stamps_unlock _ _ _ _ _ _).mpr ?_
  refine stamps_checkpoint _ _ _ _ _ ?_
  trivial

/-- Every operation other than a meal count keeps all meal counts. -/
theorem keepsMeals_exec (w0 : World) (a : Act) (x x1 : World) (ha : a.keepsMeals)
    (he : a.exec x = some x1)
    (hx : ∀ j, (x.table.philo j).times_ate = (w0.table.philo j).times_ate) :
    ∀ j, (x1.table.philo j).times_ate = (w0.table.philo j).times_ate := by
  cases a <;> simp only [Act.exec, Option.some.injEq] at he
  · subst he
    simp only [reportDeath, writeStatus, getTimeIn_ms]
    split_ifs
    · exact hx
    · exact hx
  · subst he
    exact hx
  · subst he
    intro j
    rw [← hx j]
    simp only [stampLastMeal, getTimeIn_ms, Table.philo, modifyAt_getD]
    split_ifs with h
    · rw [h.1]
    · rfl
  · exact ha.elim
  · split_ifs at he
    simp only [Option.some.injEq] at he
    subst he
    exact hx
  · subst he
    exact hx
  · subst he
    exact hx
  · subst he
    exact hx
  · subst he
    exact hx

theorem quiet_keepsMeals (a : Act) (h : a.quiet) : a.keepsMeals := by
  cases a <;> trivial

theorem byMonitor_keepsMeals (a : Act) (h : a.byMonitor) : a.keepsMeals := by
  cases a <;> trivial

theorem lonePhiloRoutine_keepsMeals (t : Table) (i fuel : Nat) :
    (lonePhiloRoutine t i fuel).Acts Act.keepsMeals :=
  ⟨trivial, trivial, Prog.acts_bind _ _ _
    (Prog.acts_mono _ _ _ quiet_keepsMeals (lullPhilo_quiet _ _ _)) (fun _ => ⟨trivial, trivial⟩)⟩

/-- Code that performs no meal count returns with all meal counts unchanged. -/
theorem run_keepsMeals {α : Type} (m : Prog α) (hm : m.Acts Act.keepsMeals) (w : World)
    (r : α × World) (hr : m.run w = some r) (j : Nat) :
    (r.2.table.philo j).times_ate = (w.table.philo j).times_ate :=
  Prog.run_keeps Act.keepsMeals
    (fun x => ∀ j, (x.table.philo j).times_ate = (w.table.philo j).times_ate)
    (fun rd x hx => by simpa [read_keeps_table] using hx)
    (fun a x x1 ha he hx => keepsMeals_exec w a x x1 ha he hx) m hm w r hr (fun _ => rfl) j

/-- C12. Meal counting.  One call of `eatRoutine` by philosopher `i`, run to
its return, leaves `times_ate` of `i` one higher when the stop flag is unset at
the return, which is when none of the six checkpoints saw it set, and unchanged
when the flag is set at the return, which is when some checkpoint saw it set
(a checkpoint returns the flag it leaves behind, and the flag stays set); it
leaves `times_ate` and `last_meal` of every other philosopher unchanged.  The meal
stamp is made while both forks of `i` are locked.  `sleepRoutine`,
`thinkingRoutine`, `lonePhiloRoutine` and the monitor change no `times_ate`. -/
theorem eatRoutine_meal_count (t : Table) (i fuel : Nat) :
    (∀ (w : World) (r : Unit × World), i < w.table.philos.length →
      (eatRoutine t i fuel).run w = some r →
      (r.2.table.sim_stop = false →
        (r.2.table.philo i).times_ate = (w.table.philo i).times_ate + 1) ∧
      (r.2.table.sim_stop = true →
        (r.2.table.philo i).times_ate = (w.table.philo i).times_ate) ∧
      (∀ j, j ≠ i → (r.2.table.philo j).times_ate = (w.table.philo j).times_ate ∧
        (r.2.table.philo j).last_meal = (w.table.philo j).last_meal)) ∧
    (∀ (w : World) (b : Bool) (w1 : World), (hasAnyoneDied t).run w = some (b, w1) →
      b = w1.table.sim_stop) ∧
    (eatRoutine t i fuel).StampsHolding (t.philo i).fork0 (t.philo i).fork1 [] ∧
    (∀ (w : World) (r : Unit × World) (first : Bool),
      ((sleepRoutine t i fuel).run w = some r ∨
        (thinkingRoutine t i first fuel).run w = some r ∨
        (lonePhiloRoutine t i fuel).run w = some r ∨
        (monitor t fuel).run w = some r) →
      ∀ j, (r.2.table.philo j).times_ate = (w.table.philo j).times_ate) := by
  refine ⟨?_, hasAnyoneDied_returns_flag t, eatRoutine_stamps t i fuel [], ?_⟩
  · intro w r hi hr
    exact eatRoutine_triple t i fuel w hi w r ⟨rfl, fun _ => rfl, fun _ _ => rfl⟩ hr
  · intro w r first h j
    rcases h with h | h | h | h
    · exact run_keepsMeals _ (Prog.acts_mono _ _ _ quiet_keepsMeals (sleepRoutine_quiet t i fuel))
        w r h j
    · exact run_keepsMeals _
        (Prog.acts_mono _ _ _ quiet_keepsMeals (thinkingRoutine_quiet t i first fuel)) w r h j
    · exact run_keepsMeals _ (lonePhiloRoutine_keepsMeals t i fuel) w r h j
    · exact run_keepsMeals _ (Prog.acts_mono _ _ _ byMonitor_keepsMeals (monitor_byMonitor t fuel))
        w r h j

set_option maxRecDepth 100000 in
/-- C12, at a concrete input: in `worldMeal` philosopher 1 eats a whole meal; the
stop flag is unset at the return and its `times_ate` goes from 0 to 1. -/
theorem eatRoutine_meal_count_witness :
    ∃ r, (eatRoutine tableTwo 0 1).run worldMeal = some r ∧
      r.2.table.sim_stop = false ∧ (r.2.table.philo 0).times_ate = 1 := by
  have hs : ((eatRoutine tableTwo 0 1).run worldMeal).map (fun r => r.2.table.sim_stop) =
      some false := by decide
  cases hr : (eatRoutine tableTwo 0 1).run worldMeal with
  | none => simp [hr] at hs
  | some r =>
    have hf : r.2.table.sim_stop = false := by simpa [hr] using hs
    refine ⟨r, rfl, hf, ?_⟩
    have h := ((eatRoutine_meal_count tableTwo 0 1).1 worldMeal r (by decide) hr).1 hf
    rw [h]
    decide

/-! ## The last-meal time along interleaved runs -/

/-- Once the flag is raised every tree follows the clock discipline. -/
theorem Prog.timed_raised {α : Type} (start : Int) (m : Prog α) :
    m.Timed start (fun _ b => b = true) true := by
  induction m with
  | ret a => exact rfl
  | stopped k ih => exact fun x => ih x
  | read r k ih =>
    cases r with
    | getTime => exact fun v => by simpa using ih v
    | elapsed j => exact ⟨rfl, fun v => ih v⟩
    | timesAte j => exact fun v => ih v
  | act a k ih =>
    cases a with
    | stampLastMeal j => exact ⟨rfl, ih⟩
    | reportDeath j => exact ih
    | writeStatus j st => exact ih
    | updateTimesAte j => exact ih
    | lock j f => exact ih
    | unlock j f => exact ih
    | setStop => exact ih
    | printAllMeals => exact ih
    | usleep => exact ih
  | spin => trivial

theorem Prog.timed_bind {α β : Type} (start : Int) (Q : α → Bool → Prop)
    (Q1 : β → Bool → Prop) (m : Prog α) (g : α → Prog β) (b : Bool)
    (hm : m.Timed start Q b) (hg : ∀ a b1, Q a b1 → (g a).Timed start Q1 b1) :
    (m.bind g).Timed start Q1 b := by
  induction m generalizing b with
  | ret a => exact hg a b hm
  | stopped k ih => exact fun x => ih x b (hm x)
  | read r k ih =>
    cases r with
    | getTime => exact fun v => ih v _ (hm v)
    | elapsed j => exact ⟨hm.1, fun v => ih v b (hm.2 v)⟩
    | timesAte j => exact fun v => ih v b (hm v)
  | act a k ih =>
    cases a with
    | stampLastMeal j => exact ⟨hm.1, ih b hm.2⟩
    | reportDeath j => exact ih b hm
    | writeStatus j st => exact ih b hm
    | updateTimesAte j => exact ih b hm
    | lock j f => exact ih b hm
    | unlock j f => exact ih b hm
    | setStop => exact ih b hm
    | printAllMeals => exact ih b hm
    | usleep => exact ih b hm
  | spin => trivial

/-- The start barrier returns with the flag raised. -/
theorem simStartDelay_timed (start : Int) (fuel : Nat) :
    (simStartDelay start fuel).Timed start (fun _ b => b = true) false := by
  induction fuel with
  | zero => trivial
  | succ n ih =>
    intro v
    simp only []
    split_ifs with h
    · have : decide (start ≤ v) = false := by simpa using h
      simpa [this] using ih
    · have : decide (start ≤ v) = true := by simpa using h
      simp [this, Prog.Timed]

theorem Prog.timed_weaken {α : Type} (start : Int) (Q Q1 : α → Bool → Prop) (m : Prog α)
    (b : Bool) (hm : m.Timed start Q b) (hq : ∀ a b1, Q a b1 → Q1 a b1) :
    m.Timed start Q1 b := by
  induction m generalizing b with
  | ret a => exact hq a b hm
  | stopped k ih => exact fun x => ih x b (hm x)
  | read r k ih =>
    cases r with
    | getTime => exact fun v => ih v _ (hm v)
    | elapsed j => exact ⟨hm.1, fun v => ih v b (hm.2 v)⟩
    | timesAte j => exact fun v => ih v b (hm v)
  | act a k ih =>
    cases a with
    | stampLastMeal j => exact ⟨hm.1, ih b hm.2⟩
    | reportDeath j => exact ih b hm
    | writeStatus j st => exact ih b hm
    | updateTimesAte j => exact ih b hm
    | lock j f => exact ih b hm
    | unlock j f => exact ih b hm
    | setStop => exact ih b hm
    | printAllMeals => exact ih b hm
    | usleep => exact ih b hm
  | spin => trivial

/-- Code that begins with the start barrier follows the clock discipline from
the start. -/
theorem timed_after_barrier {α : Type} (start : Int) (fuel : Nat) (g : Unit → Prog α) :
    ((simStartDelay start fuel).bind g).Timed start (fun _ _ => True) false := by
  refine Prog.timed_bind start _ _ _ g false (simStartDelay_timed start fuel) (fun a b1 hb => ?_)
  subst hb
  exact Prog.timed_weaken start _ _ _ true (Prog.timed_raised start (g a)) (fun _ _ _ => trivial)

theorem modifyAt_mem (g : Philo → Philo) (i : Nat) (l : List Philo) (p : Philo)
    (h : p ∈ modifyAt g i l) : p ∈ l ∨ ∃ q ∈ l, p = g q := by
  induction l generalizing i with
  | nil => simp [modifyAt] at h
  | cons x xs ih =>
    cases i with
    | zero =>
      simp only [modifyAt, List.mem_cons] at h
      rcases h with h | h
      · exact Or.inr ⟨x, by simp, h⟩
      · exact Or.inl (by simp [h])
    | succ i =>
      simp only [modifyAt, List.mem_cons] at h
      rcases h with h | h
      · exact Or.inl (by simp [h])
      · rcases ih i h with h1 | ⟨q, hq, he⟩
        · exact Or.inl (by simp [h1])
        · exact Or.inr ⟨q, by simp [hq], he⟩

/-- What an operation does to the clock and to the last-meal times: the clock
function stays, the number of readings does not shrink, and every `last_meal`
afterwards is one from before or, after a meal stamp, the reading just taken. -/
theorem act_clock (a : Act) (w w1 : World) (he : a.exec w = some w1) :
    w1.time = w.time ∧ w.ticks ≤ w1.ticks ∧
    ∀ p ∈ w1.table.philos, (∃ q ∈ w.table.philos, p.last_meal = q.last_meal) ∨
      (w.ticks < w1.ticks ∧ p.last_meal = w.time w.ticks) := by
  cases a <;> simp only [Act.exec, Option.some.injEq] at he
  · subst he
    simp only [reportDeath, writeStatus, getTimeIn_ms]
    split_ifs
    · exact ⟨rfl, Nat.le_succ _, fun p hp => Or.inl ⟨p, hp, rfl⟩⟩
    · exact ⟨rfl, le_refl _, fun p hp => Or.inl ⟨p, hp, rfl⟩⟩
  · subst he
    exact ⟨rfl, Nat.le_succ _, fun p hp => Or.inl ⟨p, hp, rfl⟩⟩
  · subst he
    refine ⟨rfl, Nat.le_succ _, fun p hp => ?_⟩
    rcases modifyAt_mem _ _ _ p hp with h | ⟨q, _, h⟩
    · exact Or.inl ⟨p, h, rfl⟩
    · exact Or.inr ⟨Nat.lt_succ_self _, by rw [h]; rfl⟩
  · subst he
    refine ⟨rfl, le_refl _, fun p hp => ?_⟩
    rcases modifyAt_mem _ _ _ p hp with h | ⟨q, hq, h⟩
    · exact Or.inl ⟨p, h, rfl⟩
    · exact Or.inl ⟨q, hq, by rw [h]⟩
  · split_ifs at he
    simp only [Option.some.injEq] at he
    subst he
    exact ⟨rfl, le_refl _, fun p hp => Or.inl ⟨p, hp, rfl⟩⟩
  · subst he
    exact ⟨rfl, le_refl _, fun p hp => Or.inl ⟨p, hp, rfl⟩⟩
  · subst he
    exact ⟨rfl, le_refl _, fun p hp => Or.inl ⟨p, hp, rfl⟩⟩
  · subst he
    exact ⟨rfl, le_refl _, fun p hp => Or.inl ⟨p, hp, rfl⟩⟩
  · subst he
    exact ⟨rfl, le_refl _, fun p hp => Or.inl ⟨p, hp, rfl⟩⟩

theorem read_clock (r : Read) (w : World) :
    (r.exec w).2.time = w.time ∧ w.ticks ≤ (r.exec w).2.ticks ∧
      (r.exec w).2.table = w.table := by
  cases r
  · exact ⟨rfl, Nat.le_succ _, rfl⟩
  · exact ⟨rfl, Nat.le_succ _, rfl⟩
  · exact ⟨rfl, le_refl _, rfl⟩

/-- A step of thread `i` to the code `p1` and the world `w1` keeps the clock
invariant when the clock function stays, the number of readings does not
shrink, the last-meal times of `w1` are `start` or readings taken, and `p1`
follows the clock discipline in `w1`. -/
theorem ClockInv.advance (time : Nat → Int) (start : Int) (s : Sys)
    (inv : ClockInv time start s) (i : Nat) (p1 : Prog Unit) (w1 : World)
    (htime : w1.time = s.world.time) (hticks : s.world.ticks ≤ w1.ticks)
    (hmeals : ∀ p ∈ w1.table.philos,
      p.last_meal = start ∨ ∃ n, n < w1.ticks ∧ p.last_meal = time n)
    (hp1 : ∃ b, p1.Timed start (fun _ _ => True) b ∧
      (b = true → ∃ n, n < w1.ticks ∧ start ≤ time n)) :
    ClockInv time start { threads := s.threads.set i p1, world := w1 } where
  clock := htime.trans inv.clock
  timed := by
    intro j q hq
    simp only [List.getElem?_set] at hq
    split_ifs at hq with e1 e2
    · simp only [Option.some.injEq] at hq
      subst hq
      exact hp1
    · obtain ⟨b, hb, hw⟩ := inv.timed j q hq
      refine ⟨b, hb, fun h => ?_⟩
      obtain ⟨n, hn, hs⟩ := hw h
      exact ⟨n, lt_of_lt_of_le hn hticks, hs⟩
  meals := hmeals

/-- Every step of every thread keeps the clock invariant. -/
theorem ClockInv.clock_step (time : Nat → Int) (start : Int) (s : Sys)
    (inv : ClockInv time start s) (i : Nat) : ClockInv time start (s.step i) := by
  unfold Sys.step
  cases hp : s.threads[i]? with
  | none => exact inv
  | some p =>
    simp only
    obtain ⟨b, hb, hw⟩ := inv.timed i p hp
    have hold : ∀ w1 : World, s.world.ticks ≤ w1.ticks → w1.table = s.world.table →
        ∀ q ∈ w1.table.philos,
          q.last_meal = start ∨ ∃ n, n < w1.ticks ∧ q.last_meal = time n := by
      intro w1 ht he q hq
      rw [he] at hq
      rcases inv.meals q hq with h | ⟨n, hn, h⟩
      · exact Or.inl h
      · exact Or.inr ⟨n, lt_of_lt_of_le hn ht, h⟩
    cases p with
    | ret a => exact inv
    | spin => exact inv
    | stopped k =>
      exact ClockInv.advance time start s inv i _ _ rfl (le_refl _)
        (hold _ (le_refl _) rfl) ⟨b, hb _, hw⟩
    | read r k =>
      obtain ⟨h1, h2, h3⟩ := read_clock r s.world
      refine ClockInv.advance time start s inv i _ _ h1 h2 (hold _ h2 h3) ?_
      cases r with
      | getTime =>
        refine ⟨_, hb _, fun h => ?_⟩
        simp only [Bool.or_eq_true, decide_eq_true_eq] at h
        rcases h with h | h
        · obtain ⟨n, hn, hs⟩ := hw h
          exact ⟨n, lt_of_lt_of_le hn h2, hs⟩
        · refine ⟨s.world.ticks, Nat.lt_succ_self _, ?_⟩
          rw [← inv.clock]
          exact h
      | elapsed j =>
        refine ⟨b, hb.2 _, fun h => ?_⟩
        obtain ⟨n, hn, hs⟩ := hw h
        exact ⟨n, lt_of_lt_of_le hn h2, hs⟩
      | timesAte j =>
        refine ⟨b, hb _, fun h => ?_⟩
        obtain ⟨n, hn, hs⟩ := hw h
        exact ⟨n, lt_of_lt_of_le hn h2, hs⟩
    | act a k =>
      simp only [Prog.step]
      cases he : a.exec s.world with
      | none => exact inv
      | some w1 =>
        simp only
        obtain ⟨h1, h2, h3⟩ := act_clock a s.world w1 he
        have hk : k.Timed start (fun _ _ => True) b := by
          cases a with
          | stampLastMeal j => exact hb.2
          | reportDeath j => exact hb
          | writeStatus j st => exact hb
          | updateTimesAte j => exact hb
          | lock j f => exact hb
          | unlock j f => exact hb
          | setStop => exact hb
          | printAllMeals => exact hb
          | usleep => exact hb
        refine ClockInv.advance time start s inv i _ _ h1 h2 ?_ ⟨b, hk, fun h => ?_⟩
        · intro q hq
          rcases h3 q hq with ⟨q0, hq0, e⟩ | ⟨hlt, e⟩
          · rw [e]
            rcases inv.meals q0 hq0 with h | ⟨n, hn, h⟩
            · exact Or.inl h
            · exact Or.inr ⟨n, lt_of_lt_of_le hn h2, h⟩
          · exact Or.inr ⟨s.world.ticks, hlt, by rw [e, inv.clock]⟩
        · obtain ⟨n, hn, hs⟩ := hw h
          exact ⟨n, lt_of_lt_of_le hn h2, hs⟩

theorem ClockInv.clock_run (time : Nat → Int) (start : Int) (s : Sys)
    (inv : ClockInv time start s) (sched : List Nat) : ClockInv time start (s.run sched) := by
  induction sched generalizing s with
  | nil => exact inv
  | cons i is ih => exact ih (s.step i) (ClockInv.clock_step time start s inv i)

/-- The system set up by `startSimulator` satisfies the clock invariant: every
thread begins with the start barrier and every `last_meal` is `start_time`. -/
theorem ClockInv.clock_start (t : Table) (time : Nat → Int) (fuel : Nat) :
    ClockInv time (startTable t (time 0)).start_time (startSimulator t time fuel) where
  clock := rfl
  timed := by
    intro i p hp
    refine ⟨false, ?_, fun h => by simp at h⟩
    rcases startSimulator_threads t time fuel p (List.getElem?_mem hp) with ⟨j, h⟩ | h
    · rw [h]
      exact timed_after_barrier _ _ _
    · rw [h]
      exact timed_after_barrier _ _ _
  meals := by
    intro p hp
    left
    simp only [startSimulator, startTable, List.mem_map] at hp
    obtain ⟨q, _, rfl⟩ := hp
    rfl

theorem getD_mem_of_lt (l : List Philo) (j : Nat) (d : Philo) (hj : j < l.length) :
    l.getD j d ∈ l := by
  rw [List.getD_eq_getElem?_getD, List.getElem?_eq_getElem hj]
  exact List.getElem_mem hj

/-- What an operation does to the last-meal time of position `j`: nothing, or,
for a meal stamp on a position inside the table, the reading just taken. -/
theorem act_last_meal (a : Act) (w w1 : World) (he : a.exec w = some w1) (j : Nat) :
    (w1.table.philo j).last_meal = (w.table.philo j).last_meal ∨
      ((∃ k, a = Act.stampLastMeal k) ∧ j < w.table.philos.length ∧
        (w1.table.philo j).last_meal = w.time w.ticks) := by
  cases a <;> simp only [Act.exec, Option.some.injEq] at he
  · subst he
    simp only [reportDeath, writeStatus, getTimeIn_ms]
    split_ifs
    · exact Or.inl rfl
    · exact Or.inl rfl
  · subst he
    exact Or.inl rfl
  · subst he
    rename_i k
    simp only [stampLastMeal, getTimeIn_ms, Table.philo, modifyAt_getD]
    split_ifs with h
    · exact Or.inr ⟨⟨k, rfl⟩, by omega, rfl⟩
    · exact Or.inl rfl
  · subst he
    simp only [updateTimesAte, Table.philo, modifyAt_getD]
    split_ifs with h
    · rw [h.1]
      exact Or.inl rfl
    · exact Or.inl rfl
  · split_ifs at he
    simp only [Option.some.injEq] at he
    subst he
    exact Or.inl rfl
  · subst he
    exact Or.inl rfl
  · subst he
    exact Or.inl rfl
  · subst he
    exact Or.inl rfl
  · subst he
    exact Or.inl rfl

/-- Under the clock invariant and a clock that never runs backwards, the next
reading is at least every `last_meal` of the table once some reading has reached
`start`. -/
theorem ClockInv.next_reading (time : Nat → Int) (start : Int) (s : Sys)
    (inv : ClockInv time start s) (hmono : Monotone time)
    (hpast : ∃ n, n < s.world.ticks ∧ start ≤ time n) (j : Nat)
    (hj : j < s.world.table.philos.length) :
    (s.world.table.philo j).last_meal ≤ time s.world.ticks := by
  obtain ⟨n, hn, hs⟩ := hpast
  rcases inv.meals _ (getD_mem_of_lt s.world.table.philos j _ hj) with h | ⟨m, hm, h⟩
  · have : (s.world.table.philo j).last_meal = start := h
    rw [this]
    exact le_trans hs (hmono (le_of_lt hn))
  · have : (s.world.table.philo j).last_meal = time m := h
    rw [this]
    exact hmono (le_of_lt hm)

/-- No step of any thread lowers a `last_meal`. -/
theorem ClockInv.step_le (time : Nat → Int) (start : Int) (s : Sys)
    (inv : ClockInv time start s) (hmono : Monotone time) (i j : Nat) :
    (s.world.table.philo j).last_meal ≤ ((s.step i).world.table.philo j).last_meal := by
  unfold Sys.step
  cases hp : s.threads[i]? with
  | none => exact le_refl _
  | some p =>
    simp only
    obtain ⟨b, hb, hw⟩ := inv.timed i p hp
    cases p with
    | ret a => exact le_refl _
    | spin => exact le_refl _
    | stopped k => exact le_refl _
    | read r k =>
      simp only [Prog.step, read_keeps_table]
      exact le_refl _
    | act a k =>
      simp only [Prog.step]
      cases he : a.exec s.world with
      | none => exact le_refl _
      | some w1 =>
        simp only
        rcases act_last_meal a s.world w1 he j with h | ⟨⟨k1, hk1⟩, hj, h⟩
        · rw [h]
        · subst hk1
          rw [h, inv.clock]
          exact ClockInv.next_reading time start s inv hmono (hw hb.1) j hj

theorem ClockInv.run_le (time : Nat → Int) (start : Int) (s : Sys)
    (inv : ClockInv time start s) (hmono : Monotone time) (sched : List Nat) (j : Nat) :
    (s.world.table.philo j).last_meal ≤ ((s.run sched).world.table.philo j).last_meal := by
  induction sched generalizing s with
  | nil => exact le_refl _
  | cons i is ih =>
    exact le_trans (ClockInv.step_le time start s inv hmono i j)
      (ih (s.step i) (ClockInv.clock_step time start s inv i))

theorem Sys.run_append (s : Sys) (a b : List Nat) : s.run (a ++ b) = (s.run a).run b := by
  simp [Sys.run, List.foldl_append]

/-- C14. `last_meal` only ever increases.  Under a clock that never runs
backwards, in the system that `startSimulator` sets up: every `last_meal` starts
as `start_time`; along every interleaving no `last_meal` ever decreases; a meal
stamp is made only by a thread that has taken a reading of at least
`start_time`, so the reading it stores is at least `start_time`; and whenever a
thread is about to compute the elapsed time `now - last_meal` of a philosopher of
the table (as `hasPhiloDied` does), the result is not negative. -/
theorem last_meal_never_decreases (t : Table) (time : Nat → Int) (fuel : Nat)
    (hmono : Monotone time) :
    (∀ p ∈ (startSimulator t time fuel).world.table.philos,
      p.last_meal = (startSimulator t time fuel).world.table.start_time) ∧
    (∀ (sched1 sched2 : List Nat) (j : Nat),
      (((startSimulator t time fuel).run sched1).world.table.philo j).last_meal ≤
        (((startSimulator t time fuel).run (sched1 ++ sched2)).world.table.philo j).last_meal) ∧
    (∀ (sched : List Nat) (i j : Nat) (k : Prog Unit),
      ((startSimulator t time fuel).run sched).threads[i]? =
          some (Prog.act (.stampLastMeal j) k) →
      (startSimulator t time fuel).world.table.start_time ≤
        time ((startSimulator t time fuel).run sched).world.ticks) ∧
    (∀ (sched : List Nat) (i j : Nat) (k : Int → Prog Unit),
      ((startSimulator t time fuel).run sched).threads[i]? =
          some (Prog.read (.elapsed j) k) →
      j < ((startSimulator t time fuel).run sched).world.table.philos.length →
      0 ≤ ((Read.elapsed j).exec ((startSimulator t time fuel).run sched).world).1) := by
  have inv := fun sched => ClockInv.clock_run time _ _ (ClockInv.clock_start t time fuel) sched
  refine ⟨fun p hp => ?_, ?_, ?_, ?_⟩
  · simp only [startSimulator, startTable, List.mem_map] at hp
    obtain ⟨q, _, rfl⟩ := hp
    rfl
  · intro sched1 sched2 j
    rw [Sys.run_append]
    exact ClockInv.run_le time _ _ (inv sched1) hmono sched2 j
  · intro sched i j k hp
    obtain ⟨b, hb, hw⟩ := (inv sched).timed i _ hp
    obtain ⟨n, hn, hs⟩ := hw hb.1
    exact le_trans hs (hmono (le_of_lt hn))
  · intro sched i j k hp hj
    obtain ⟨b, hb, hw⟩ := (inv sched).timed i _ hp
    have h := ClockInv.next_reading time _ _ (inv sched) hmono (hw hb.1) j hj
    have e : ((Read.elapsed j).exec ((startSimulator t time fuel).run sched).world).1 =
        time ((startSimulator t time fuel).run sched).world.ticks -
          (((startSimulator t time fuel).run sched).world.table.philo j).last_meal := by
      simp only [Read.exec, getTimeIn_ms]
      rw [(inv sched).clock]
    rw [e]
    omega

set_option maxRecDepth 100000 in
/-- C14, at a concrete input: in the run `sysQuota` under `schedQuota` the
`last_meal` of philosopher 1 goes from 100 to 105. -/
theorem last_meal_never_decreases_witness :
    (sysQuota.world.table.philo 0).last_meal = 100 ∧
    ((sysQuota.run schedQuota).world.table.philo 0).last_meal = 105 ∧
    ((sysQuota.run []).world.table.philo 0).last_meal ≤
      ((sysQuota.run ([] ++ schedQuota)).world.table.philo 0).last_meal :=
  ⟨by decide, by decide,
   (last_meal_never_decreases (initTable 6 [0, 2, 10, 0, 0, 1])
      (clockOf (60 :: (List.replicate 27 100 ++ List.replicate 19 105)) 110) 3
      (clockOf_monotone _ _ (by decide))).2.1 [] schedQuota 0⟩

/-! ## The quota branch of the monitor along interleaved runs -/

theorem Prog.step_obs {α : Type} (p : Prog α) (w : World) :
    (p.step w = none ∧ p.obs w = none) ∨
    ∃ q w1 o, p.step w = some (q, w1) ∧ p.obs w = some o ∧ p.next o = some q := by
  cases p with
  | ret a => exact Or.inl ⟨rfl, rfl⟩
  | stopped k => exact Or.inr ⟨_, _, _, rfl, rfl, rfl⟩
  | read r k => exact Or.inr ⟨_, _, _, rfl, rfl, by simp [Prog.next]⟩
  | act a k =>
    cases h : a.exec w with
    | none => exact Or.inl ⟨by simp [Prog.step, h], by simp [Prog.obs, h]⟩
    | some w1 =>
      exact Or.inr ⟨k, w1, .did a, by simp [Prog.step, h], by simp [Prog.obs, h], by simp [Prog.next]⟩
  | spin => exact Or.inl ⟨rfl, rfl⟩

/-- The observations of a thread along a schedule lead from its code at the
start to its code at the end. -/
theorem Sys.follow_path (s : Sys) (i : Nat) (sched : List Nat) (p : Prog Unit)
    (h : s.threads[i]? = some p) :
    ∃ q, p.follow (s.path i sched) = some q ∧ (s.run sched).threads[i]? = some q := by
  induction sched generalizing s p with
  | nil => exact ⟨p, rfl, h⟩
  | cons j sched ih =>
    simp only [Sys.path, Sys.run, List.foldl_cons]
    by_cases hj : j = i
    · subst hj
      simp only [if_true, h]
      rcases Prog.step_obs p s.world with ⟨h1, h2⟩ | ⟨q, w1, o, h1, h2, h3⟩
      · have e : s.step j = s := by simp [Sys.step, h, h1]
        rw [h2, e]
        simpa [Sys.run] using ih s p h
      · have hlt : j < s.threads.length := by
          rcases Nat.lt_or_ge j s.threads.length with hl | hl
          · exact hl
          · rw [List.getElem?_eq_none hl] at h
            cases h
        have e : (s.step j).threads[j]? = some q := by
          simp [Sys.step, h, h1, List.getElem?_set, hlt]
        rw [h2]
        simp only [Option.toList, List.singleton_append, Prog.follow, h3]
        simpa [Sys.run] using ih (s.step j) q e
    · simp only [if_neg hj, List.nil_append]
      have e : (s.step j).threads[i]? = some p := by
        cases hq : s.threads[j]? with
        | none => simpa [Sys.step, hq] using h
        | some q =>
          cases hs : q.step s.world with
          | none => simpa [Sys.step, hq, hs] using h
          | some r => simp [Sys.step, hq, hs, List.getElem?_set, hj, h]
      simpa [Sys.run] using ih (s.step j) p e

theorem Prog.follow_append {α : Type} (p : Prog α) (a b : List Obs) :
    p.follow (a ++ b) = (p.follow a).bind fun q => q.follow b := by
  induction a generalizing p with
  | nil => rfl
  | cons o a ih =>
    simp only [List.cons_append, Prog.follow]
    cases p.next o with
    | none => rfl
    | some q => exact ih q

theorem Prog.follow_ret {α : Type} (x : α) (l : List Obs) (q : Prog α)
    (h : (Prog.ret x).follow l = some q) : l = [] ∧ q = .ret x := by
  cases l with
  | nil =>
    simp only [Prog.follow, Option.some.injEq] at h
    exact ⟨rfl, h.symm⟩
  | cons o l => simp [Prog.follow, Prog.next] at h

theorem Prog.next_did {α : Type} (p q : Prog α) (a : Act) (h : p.next (.did a) = some q) :
    p = .act a q := by
  cases p with
  | act b k =>
    simp only [Prog.next] at h
    split_ifs at h with e
    simp only [Option.some.injEq] at h
    rw [e, h]
  | ret x => simp [Prog.next] at h
  | stopped k => simp [Prog.next] at h
  | read r k => simp [Prog.next] at h
  | spin => simp [Prog.next] at h

/-- The code that remains after some observations performs only operations the
code at the start could perform. -/
theorem Prog.acts_follow {α : Type} (pa : Act → Prop) (p q : Prog α) (l : List Obs)
    (hp : p.Acts pa) (h : p.follow l = some q) : q.Acts pa := by
  induction l generalizing p with
  | nil =>
    simp only [Prog.follow, Option.some.injEq] at h
    rw [← h]
    exact hp
  | cons o l ih =>
    simp only [Prog.follow] at h
    cases hn : p.next o with
    | none => simp [hn] at h
    | some r =>
      rw [hn] at h
      refine ih r ?_ h
      cases p with
      | ret x => simp [Prog.next] at hn
      | spin => simp [Prog.next] at hn
      | stopped k =>
        cases o with
        | flag b =>
          simp only [Prog.next, Option.some.injEq] at hn
          rw [← hn]
          exact hp _
        | value r1 v => simp [Prog.next] at hn
        | did b => simp [Prog.next] at hn
      | read rd k =>
        cases o with
        | value r1 v =>
          simp only [Prog.next] at hn
          split_ifs at hn
          simp only [Option.some.injEq] at hn
          rw [← hn]
          exact hp _
        | flag b => simp [Prog.next] at hn
        | did b => simp [Prog.next] at hn
      | act a k =>
        cases o with
        | did b =>
          simp only [Prog.next] at hn
          split_ifs at hn
          simp only [Option.some.injEq] at hn
          rw [← hn]
          exact hp.2
        | flag b => simp [Prog.next] at hn
        | value r1 v => simp [Prog.next] at hn

/-- Where an operation of `Act` stands in `m.bind g`: inside `m`, or inside
`g x` after observations that lead `m` to return `x`. -/
theorem Prog.follow_bind_act {α β : Type} (m : Prog α) (g : α → Prog β) (l : List Obs)
    (a : Act) (k : Prog β) (h : (m.bind g).follow l = some (.act a k)) :
    (∃ k1, m.follow l = some (.act a k1)) ∨
    ∃ l1 l2 x, l = l1 ++ l2 ∧ m.follow l1 = some (.ret x) ∧ (g x).follow l2 = some (.act a k) := by
  induction l generalizing m with
  | nil =>
    cases m with
    | ret x => exact Or.inr ⟨[], [], x, rfl, rfl, h⟩
    | act b k1 =>
      simp only [Prog.bind, Prog.follow, Option.some.injEq, Prog.act.injEq] at h
      rw [h.1]
      exact Or.inl ⟨k1, rfl⟩
    | stopped k1 => simp [Prog.bind, Prog.follow] at h
    | read r k1 => simp [Prog.bind, Prog.follow] at h
    | spin => simp [Prog.bind, Prog.follow] at h
  | cons o l ih =>
    cases m with
    | ret x => exact Or.inr ⟨[], o :: l, x, rfl, rfl, h⟩
    | spin => simp [Prog.bind, Prog.follow, Prog.next] at h
    | stopped k1 =>
      cases o with
      | flag b =>
        simp only [Prog.bind, Prog.follow, Prog.next] at h
        rcases ih (k1 b) h with ⟨k2, h2⟩ | ⟨l1, l2, x, e, h1, h2⟩
        · exact Or.inl ⟨k2, by simpa [Prog.follow, Prog.next] using h2⟩
        · exact Or.inr ⟨.flag b :: l1, l2, x, by rw [e]; rfl,
            by simpa [Prog.follow, Prog.next] using h1, h2⟩
      | value r v => simp [Prog.bind, Prog.follow, Prog.next] at h
      | did b => simp [Prog.bind, Prog.follow, Prog.next] at h
    | read r k1 =>
      cases o with
      | value r1 v =>
        simp only [Prog.bind, Prog.follow, Prog.next] at h
        by_cases e1 : r1 = r
        · simp only [e1, if_true] at h
          rcases ih (k1 v) h with ⟨k2, h2⟩ | ⟨l1, l2, x, e, h1, h2⟩
          · exact Or.inl ⟨k2, by simpa [Prog.follow, Prog.next, e1] using h2⟩
          · exact Or.inr ⟨.value r1 v :: l1, l2, x, by rw [e]; rfl,
              by simpa [Prog.follow, Prog.next, e1] using h1, h2⟩
        · simp [e1] at h
      | flag b => simp [Prog.bind, Prog.follow, Prog.next] at h
      | did b => simp [Prog.bind, Prog.follow, Prog.next] at h
    | act b k1 =>
      cases o with
      | did b1 =>
        simp only [Prog.bind, Prog.follow, Prog.next] at h
        by_cases e1 : b1 = b
        · simp only [e1, if_true] at h
          rcases ih k1 h with ⟨k2, h2⟩ | ⟨l1, l2, x, e, h1, h2⟩
          · exact Or.inl ⟨k2, by simpa [Prog.follow, Prog.next, e1] using h2⟩
          · exact Or.inr ⟨.did b1 :: l1, l2, x, by rw [e]; rfl,
              by simpa [Prog.follow, Prog.next, e1] using h1, h2⟩
        · simp [e1] at h
      | flag b => simp [Prog.bind, Prog.follow, Prog.next] at h
      | value r v => simp [Prog.bind, Prog.follow, Prog.next] at h

/-- Observations that lead `m` to return `x` lead `m.bind g` to `g x`. -/
theorem Prog.follow_bind_ret {α β : Type} (m : Prog α) (g : α → Prog β) (l : List Obs) (x : α)
    (h : m.follow l = some (.ret x)) : (m.bind g).follow l = some (g x) := by
  induction l generalizing m with
  | nil =>
    simp only [Prog.follow, Option.some.injEq] at h
    rw [h]
    rfl
  | cons o l ih =>
    simp only [Prog.follow] at h
    cases hn : m.next o with
    | none => simp [hn] at h
    | some r =>
      rw [hn] at h
      have e : (m.bind g).next o = some (r.bind g) := by
        cases m with
        | ret y => simp [Prog.next] at hn
        | spin => simp [Prog.next] at hn
        | stopped k =>
          cases o with
          | flag b =>
            simp only [Prog.next, Option.some.injEq] at hn
            simp [Prog.bind, Prog.next, hn]
          | value r1 v => simp [Prog.next] at hn
          | did b => simp [Prog.next] at hn
        | read rd k =>
          cases o with
          | value r1 v =>
            simp only [Prog.next] at hn
            split_ifs at hn with e1
            simp only [Option.some.injEq] at hn
            simp [Prog.bind, Prog.next, hn, e1]
          | flag b => simp [Prog.next] at hn
          | did b => simp [Prog.next] at hn
        | act a k =>
          cases o with
          | did b =>
            simp only [Prog.next] at hn
            split_ifs at hn with e1
            simp only [Option.some.injEq] at hn
            simp [Prog.bind, Prog.next, hn, e1]
          | flag b => simp [Prog.next] at hn
          | value r1 v => simp [Prog.next] at hn
      simp only [Prog.follow, e]
      exact ih r h

/-- The end of the quota branch: `setStop` comes first, `printAllMeals` right
after it. -/
theorem quota_tail (l : List Obs) (a : Act) (k : Prog Bool)
    (h : (Prog.act .setStop (.act .printAllMeals (.ret true))).follow l = some (.act a k)) :
    (l = [] ∧ a = .setStop) ∨ (l = [.did .setStop] ∧ a = .printAllMeals) := by
  cases l with
  | nil =>
    simp only [Prog.follow, Option.some.injEq, Prog.act.injEq] at h
    exact Or.inl ⟨rfl, h.1.symm⟩
  | cons o l =>
    cases o with
    | flag b => simp [Prog.follow, Prog.next] at h
    | value r v => simp [Prog.follow, Prog.next] at h
    | did b =>
      simp only [Prog.follow, Prog.next] at h
      split_ifs at h with e
      cases l with
      | nil =>
        simp only [Prog.follow, Option.some.injEq, Prog.act.injEq] at h
        exact Or.inr ⟨by rw [e], h.1.symm⟩
      | cons o2 l =>
        cases o2 with
        | flag b => simp [Prog.follow, Prog.next] at h
        | value r v => simp [Prog.follow, Prog.next] at h
        | did b2 =>
          simp only [Prog.follow, Prog.next] at h
          split_ifs at h
          have := (Prog.follow_ret _ _ _ h).2
          cases this

/-- Where the two operations of the quota branch stand in one round of the
monitor loop: after observations in which the sweep returned false, the stop
check read false and the quota check returned true, with a quota configured. -/
theorem monitor_round_emits (t : Table) (l : List Obs) (a : Act) (k : Prog Bool)
    (ha : ¬ a.isReport) (h : (monitor.round t).follow l = some (.act a k)) :
    t.min_dining ≠ -1 ∧ ∃ l1 l2 l3, l = l1 ++ Obs.flag false :: l2 ++ l3 ∧
      (hasAnyoneDied t).follow l1 = some (.ret false) ∧
      (areMealsCompleted t).follow l2 = some (.ret true) ∧
      ((l3 = [] ∧ a = .setStop) ∨ (l3 = [.did .setStop] ∧ a = .printAllMeals)) := by
  unfold monitor.round at h
  rcases Prog.follow_bind_act _ _ _ _ _ h with ⟨k1, h1⟩ | ⟨l1, l2, died, e, h1, h2⟩
  · exact absurd (Prog.acts_follow _ _ _ _ (hasAnyoneDied_report t) h1).1 ha
  · cases died with
    | true =>
      simp only [if_true] at h2
      have := (Prog.follow_ret _ _ _ h2).2
      cases this
    | false =>
      simp only [Bool.false_eq_true, if_false] at h2
      cases l2 with
      | nil => simp [hasSimStopped, Prog.bind, Prog.follow] at h2
      | cons o l2 =>
        cases o with
        | value r v => simp [hasSimStopped, Prog.bind, Prog.follow, Prog.next] at h2
        | did b => simp [hasSimStopped, Prog.bind, Prog.follow, Prog.next] at h2
        | flag s =>
          simp only [hasSimStopped, Prog.bind, Prog.follow, Prog.next] at h2
          cases s with
          | true =>
            simp only [if_true] at h2
            have := (Prog.follow_ret _ _ _ h2).2
            cases this
          | false =>
            simp only [Bool.false_eq_true, if_false] at h2
            rcases Prog.follow_bind_act _ _ _ _ _ h2 with ⟨k1, h3⟩ | ⟨l3, l4, c, e2, h3, h4⟩
            · split_ifs at h3
              · exact (Prog.acts_follow _ _ _ _ (areMealsCompleted_reads t) h3).1.elim
              · have := (Prog.follow_ret _ _ _ h3).2
                cases this
            · cases c with
              | false =>
                simp only [Bool.false_eq_true, if_false] at h4
                have := (Prog.follow_ret _ _ _ h4).2
                cases this
              | true =>
                simp only [if_true] at h4
                split_ifs at h3 with hmin
                · refine ⟨hmin, l1, l3, l4, ?_, h1, h3, quota_tail _ _ _ h4⟩
                  rw [e, e2]
                  simp
                · have := (Prog.follow_ret _ _ _ h3).2
                  cases this

theorem monitor_loop_emits (t : Table) (n : Nat) (l : List Obs) (a : Act) (k : Prog Unit)
    (h : (monitor.loop t n).follow l = some (.act a k)) :
    ∃ l0 lr k1, l = l0 ++ lr ∧ (monitor.round t).follow lr = some (.act a k1) := by
  induction n generalizing l with
  | zero =>
    cases l with
    | nil => simp [monitor.loop, Prog.follow] at h
    | cons o l => simp [monitor.loop, Prog.follow, Prog.next] at h
  | succ n ih =>
    rw [monitor.loop] at h
    rcases Prog.follow_bind_act _ _ _ _ _ h with ⟨k1, h1⟩ | ⟨l1, l2, done, e, h1, h2⟩
    · exact ⟨[], l, k1, rfl, h1⟩
    · cases done with
      | true =>
        simp only [if_true] at h2
        have := (Prog.follow_ret _ _ _ h2).2
        cases this
      | false =>
        simp only [Bool.false_eq_true, if_false] at h2
        obtain ⟨l0, lr, k1, e2, h3⟩ := ih l2 h2
        exact ⟨l1 ++ l0, lr, k1, by rw [e, e2, List.append_assoc], h3⟩

theorem monitor_emits (t : Table) (fuel : Nat) (l : List Obs) (a : Act) (k : Prog Unit)
    (h : (monitor t fuel).follow l = some (.act a k)) :
    ∃ l0 lr k1, l = l0 ++ lr ∧ (monitor.round t).follow lr = some (.act a k1) := by
  unfold monitor at h
  rcases Prog.follow_bind_act _ _ _ _ _ h with ⟨k1, h1⟩ | ⟨l1, l2, x, e, h1, h2⟩
  · exact (Prog.acts_follow _ _ _ _ (simStartDelay_reads _ _) h1).1.elim
  · split_ifs at h2
    · have := (Prog.follow_ret _ _ _ h2).2
      cases this
    · obtain ⟨l0, lr, k1, e2, h3⟩ := monitor_loop_emits t fuel l2 a k h2
      exact ⟨l1 ++ l0, lr, k1, by rw [e, e2, List.append_assoc], h3⟩

/-- The observations of a quota check that returns true: one read of
`times_ate` per philosopher, in table order, each at least `min_dining`. -/
theorem meals_loop_follow (t : Table) (n k : Nat) (l : List Obs)
    (h : (areMealsCompleted.loop t n k).follow l = some (.ret true)) :
    l.length = n ∧ ∀ j, j < n →
      ∃ v, l[j]? = some (Obs.value (.timesAte (k + j)) v) ∧ v ≥ t.min_dining := by
  induction n generalizing k l with
  | zero =>
    have := (Prog.follow_ret _ _ _ h).1
    subst this
    exact ⟨rfl, fun j hj => absurd hj (Nat.not_lt_zero j)⟩
  | succ n ih =>
    rw [areMealsCompleted.loop] at h
    cases l with
    | nil => simp [Prog.follow] at h
    | cons o l =>
      cases o with
      | flag b => simp [Prog.follow, Prog.next] at h
      | did b => simp [Prog.follow, Prog.next] at h
      | value r v =>
        simp only [Prog.follow, Prog.next] at h
        split_ifs at h with e hlt
        · have := (Prog.follow_ret _ _ _ h).2
          cases this
        · obtain ⟨hlen, hall⟩ := ih (k + 1) l h
          refine ⟨by simp [hlen], fun j hj => ?_⟩
          cases j with
          | zero => exact ⟨v, by simp [e], by omega⟩
          | succ j =>
            obtain ⟨v1, h1, h2⟩ := hall j (by omega)
            refine ⟨v1, ?_, h2⟩
            have e3 : k + 1 + j = k + (j + 1) := by omega
            rw [← e3]
            simpa using h1

theorem Sys.path_none (s : Sys) (i : Nat) (sched : List Nat) (h : s.threads[i]? = none) :
    s.path i sched = [] := by
  induction sched generalizing s with
  | nil => rfl
  | cons j sched ih =>
    have e : (s.step j).threads[i]? = none := by
      cases hq : s.threads[j]? with
      | none => simpa [Sys.step, hq] using h
      | some q =>
        cases hs : q.step s.world with
        | none => simpa [Sys.step, hq, hs] using h
        | some r =>
          simp only [Sys.step, hq, hs]
          rw [List.getElem?_eq_none_iff] at h ⊢
          simpa using h
    simp only [Sys.path, h, ih _ e]
    split_ifs <;> rfl

/-- In every interleaving of the threads that `startSimulator` starts, a thread
that performs `setStop` or `printAllMeals` is the monitor, a quota is configured,
and the observations of that thread up to the operation end with a sweep that
returned false, a stop check that read false and a quota check that returned
true (every `times_ate` it read was at least `min_dining`), followed by `setStop`
when the operation is `printAllMeals`. -/
theorem quota_branch_on_path (t : Table) (time : Nat → Int) (fuel : Nat) (sched : List Nat)
    (i : Nat) (l : List Obs) (a : Act) (ha : a = .setStop ∨ a = .printAllMeals)
    (h : (startSimulator t time fuel).path i sched = l ++ [Obs.did a]) :
    t.min_dining ≠ -1 ∧
    (startSimulator t time fuel).threads[i]? = some (monitor (startTable t (time 0)) fuel) ∧
    ∃ l0 l1 l2 l3, l = l0 ++ l1 ++ Obs.flag false :: l2 ++ l3 ∧
      (hasAnyoneDied (startTable t (time 0))).follow l1 = some (.ret false) ∧
      (areMealsCompleted (startTable t (time 0))).follow l2 = some (.ret true) ∧
      (∀ j : Nat, (j : Int) < t.num_philos →
        ∃ v, l2[j]? = some (Obs.value (.timesAte j) v) ∧ v ≥ t.min_dining) ∧
      ((l3 = [] ∧ a = .setStop) ∨ (l3 = [Obs.did .setStop] ∧ a = .printAllMeals)) := by
  have hrep : ¬ a.isReport := by
    rcases ha with e | e <;> rw [e] <;> exact fun x => x
  have hphilo : ¬ a.ofPhilo := by
    rcases ha with e | e <;> rw [e] <;> exact fun x => x
  cases hth : (startSimulator t time fuel).threads[i]? with
  | none =>
    rw [Sys.path_none _ _ _ hth] at h
    simp at h
  | some p =>
    obtain ⟨q, hq, -⟩ := Sys.follow_path _ i sched p hth
    rw [h, Prog.follow_append] at hq
    cases hq0 : p.follow l with
    | none => simp [hq0] at hq
    | some q0 =>
      rw [hq0] at hq
      simp only [Option.some_bind, Prog.follow] at hq
      cases hn : q0.next (.did a) with
      | none => simp [hn] at hq
      | some q1 =>
        have e0 := Prog.next_did _ _ _ hn
        subst e0
        rcases startSimulator_threads t time fuel p (List.getElem?_mem hth) with ⟨j, hp⟩ | hp
        · rw [hp] at hq0
          exact absurd (Prog.acts_follow _ _ _ _ (philosopherRoutine_ofPhilo _ _ _) hq0).1 hphilo
        · rw [hp] at hq0
          obtain ⟨l0, lr, k1, e1, h1⟩ := monitor_emits _ fuel l a q1 hq0
          obtain ⟨hmin, l1, l2, l3, e2, h2, h3, h4⟩ := monitor_round_emits _ lr a k1 hrep h1
          refine ⟨hmin, by rw [hp], l0, l1, l2, l3, by rw [e1, e2]; simp, h2, h3, ?_, h4⟩
          intro j hj
          have hm := (meals_loop_follow _ _ 0 l2 h3).2 j
            (by
              have : (startTable t (time 0)).num_philos = t.num_philos := rfl
              omega)
          simpa using hm

/-- A round of the monitor loop whose sweep returned false and whose stop check
then reads true ends there. -/
theorem stop_check_ends_round (t : Table) (l1 : List Obs)
    (h : (hasAnyoneDied t).follow l1 = some (.ret false)) :
    (monitor.round t).follow (l1 ++ [Obs.flag true]) = some (.ret true) := by
  rw [Prog.follow_append, monitor.round, Prog.follow_bind_ret _ _ _ _ h]
  rfl

/-- C9. The quota check returns true exactly when every philosopher has
`times_ate >= min_dining`, and changes nothing.  One round of the monitor loop,
run alone after its sweep has brought the world to `w1`, appends
`ALL MEALS COMPLETE.` and sets the stop flag when a quota is configured, the sweep
and the stop check returned false and the quota check returned true; in every
other case the round does nothing after the sweep, and the sweep prints no
`ALL MEALS COMPLETE.` line.  With `min_dining = -1` no run of the monitor, from
any world, prints that line, and no interleaving of the threads started by
`startSimulator` does.  In every interleaving of those threads, with or without
a quota, a thread that sets the stop flag by `setStop` or prints
`ALL MEALS COMPLETE.` is the monitor, a quota is configured, and the observations
the monitor made up to that operation end with those of one loop iteration: a
sweep that returned false, a stop check that read the flag as false, a quota
check that returned true, having read from every philosopher a `times_ate` of at
least `min_dining`, and then `setStop` before `printAllMeals`.  A round whose
stop check reads the flag as true after a sweep that returned false ends without
either operation. -/
theorem monitor_quota (w : World) :
    (∃ b, (areMealsCompleted w.table).run w = some (b, w) ∧
      (b = true ↔ ∀ i : Nat, (i : Int) < w.table.num_philos →
        (w.table.philo i).times_ate ≥ w.table.min_dining)) ∧
    (∃ died w1 leave w2,
      (hasAnyoneDied w.table).run w = some (died, w1) ∧
      (monitor.round w.table).run w = some (leave, w2) ∧
      allMealsCount w1.out = allMealsCount w.out ∧
      ((w.table.min_dining ≠ -1 ∧ died = false ∧
          hasSimStopped.run w1 = some (false, w1) ∧
          (areMealsCompleted w.table).run w1 = some (true, w1)) →
        w2.out = w1.out ++ [Line.allMeals] ∧
        w2.table = { w1.table with sim_stop := true } ∧ leave = true) ∧
      (¬ (w.table.min_dining ≠ -1 ∧ died = false ∧
          hasSimStopped.run w1 = some (false, w1) ∧
          (areMealsCompleted w.table).run w1 = some (true, w1)) →
        w2 = w1)) ∧
    (w.table.min_dining = -1 → ∀ fuel r, (monitor w.table fuel).run w = some r →
      allMealsCount r.2.out = allMealsCount w.out) ∧
    (∀ (t : Table) (time : Nat → Int) (fuel : Nat) (sched : List Nat), t.min_dining = -1 →
      allMealsCount ((startSimulator t time fuel).run sched).world.out = 0) ∧
    (∀ (t : Table) (time : Nat → Int) (fuel : Nat) (sched : List Nat) (i : Nat)
        (l : List Obs) (a : Act), a = .setStop ∨ a = .printAllMeals →
      (startSimulator t time fuel).path i sched = l ++ [Obs.did a] →
      t.min_dining ≠ -1 ∧
      (startSimulator t time fuel).threads[i]? = some (monitor (startTable t (time 0)) fuel) ∧
      ∃ l0 l1 l2 l3, l = l0 ++ l1 ++ Obs.flag false :: l2 ++ l3 ∧
        (hasAnyoneDied (startTable t (time 0))).follow l1 = some (.ret false) ∧
        (areMealsCompleted (startTable t (time 0))).follow l2 = some (.ret true) ∧
        (∀ j : Nat, (j : Int) < t.num_philos →
          ∃ v, l2[j]? = some (Obs.value (.timesAte j) v) ∧ v ≥ t.min_dining) ∧
        ((l3 = [] ∧ a = .setStop) ∨ (l3 = [Obs.did .setStop] ∧ a = .printAllMeals))) ∧
    (∀ (t : Table) (l1 : List Obs), (hasAnyoneDied t).follow l1 = some (.ret false) →
      (monitor.round t).follow (l1 ++ [Obs.flag true]) = some (.ret true)) := by
  refine ⟨areMealsCompleted_run w.table w, ?_, ?_, ?_, quota_branch_on_path, stop_check_ends_round⟩
  rotate_left 2
  · intro t time fuel sched hmin
    refine (Sys.sched_keeps Act.ofPhilo (fun x => allMealsCount x.out = 0)
      (fun r x hx => by simpa [read_keeps_out] using hx)
      (fun a x x1 ha he hx => ofPhilo_keeps_allMeals _ a x x1 ha he hx)
      (startSimulator t time fuel) (fun p hp => ?_) rfl sched).2
    rcases startSimulator_threads t time fuel p hp with ⟨i, h⟩ | h
    · rw [h]
      exact philosopherRoutine_ofPhilo _ _ _
    · rw [h]
      exact Prog.acts_mono _ _ _ quiet_ofPhilo (monitor_quiet _ fuel hmin)
  · obtain ⟨⟨died, w1⟩, h1⟩ := Prog.run_total (hasAnyoneDied w.table)
      (Prog.acts_mono _ _ _ quiet_forkFree (hasAnyoneDied_quiet _)) (hasAnyoneDied_noSpin _) w
    have hcount : allMealsCount w1.out = allMealsCount w.out :=
      Prog.run_keeps Act.quiet (fun x => allMealsCount x.out = allMealsCount w.out)
        (fun r x hx => by simpa [read_keeps_out] using hx)
        (fun a x x1 ha he hx => quiet_keeps_allMeals _ a x x1 ha he hx)
        _ (hasAnyoneDied_quiet _) w _ h1 rfl
    obtain ⟨c, hc, -⟩ := areMealsCompleted_run w.table w1
    have hstop : hasSimStopped.run w1 = some (w1.table.sim_stop, w1) := rfl
    cases died
    · cases hs : w1.table.sim_stop
      · by_cases hmin : w.table.min_dining = -1
        · refine ⟨false, w1, false, w1, h1, ?_, hcount, ?_, fun _ => rfl⟩
          · simp only [monitor.round, Prog.run_bind, h1, hstop, hs, hmin, Option.some_bind,
              Bool.false_eq_true, if_false, ne_eq, not_true_eq_false, Prog.run_ret]
          · intro hq
            exact absurd hmin hq.1
        · cases c
          · refine ⟨false, w1, false, w1, h1, ?_, hcount, ?_, fun _ => rfl⟩
            · simp only [monitor.round, Prog.run_bind, h1, hstop, hs, hmin, hc, Option.some_bind,
                Bool.false_eq_true, if_false, ne_eq, not_false_eq_true, if_true, Prog.run_ret]
            · intro hq
              rw [hc] at hq
              simp at hq
          · refine ⟨false, w1, true,
              { w1 with table := { w1.table with sim_stop := true }
                        out := w1.out ++ [Line.allMeals] },
              h1, ?_, hcount, fun _ => ⟨rfl, rfl, rfl⟩, ?_⟩
            · simp only [monitor.round, Prog.run_bind, h1, hstop, hs, hmin, hc, Option.some_bind,
                Bool.false_eq_true, if_false, ne_eq, not_false_eq_true, if_true]
              rfl
            · intro hq
              exact absurd ⟨hmin, rfl, by rw [hstop, hs], hc⟩ hq
      · refine ⟨false, w1, true, w1, h1, ?_, hcount, ?_, fun _ => rfl⟩
        · simp only [monitor.round, Prog.run_bind, h1, hstop, hs, Option.some_bind,
            Bool.false_eq_true, if_false, if_true, Prog.run_ret]
        · intro hq
          rw [hstop, hs] at hq
          simp at hq
    · refine ⟨true, w1, true, w1, h1, ?_, hcount, ?_, fun _ => rfl⟩
      · simp only [monitor.round, Prog.run_bind, h1, Option.some_bind, if_true, Prog.run_ret]
      · intro hq
        simp at hq
  · intro hmin fuel r hr
    exact Prog.run_keeps Act.quiet (fun x => allMealsCount x.out = allMealsCount w.out)
      (fun r x hx => by simpa [read_keeps_out] using hx)
      (fun a x x1 ha he hx => quiet_keeps_allMeals _ a x x1 ha he hx)
      _ (monitor_quiet _ fuel hmin) w _ hr rfl

set_option maxRecDepth 100000 in
/-- C9, at concrete inputs.  In `worldQuota` both philosophers have met the
quota and nobody has starved, so the round run alone prints
`ALL MEALS COMPLETE.` and sets the stop flag.  In the run `sysQuota` under
`schedQuota` the monitor (thread 2) makes ten observations, the last being
`printAllMeals`; the nine before it are its start delay, a sweep that returned
false, a stop check that read false, a quota check that read 1 and 1, and
`setStop`.  Under `schedStopped` philosopher 2 reports a death between the
monitor's sweep and its stop check: the stop check reads true, the round ends,
and no `ALL MEALS COMPLETE.` line is printed. -/
theorem monitor_quota_witness :
    (∃ leave w2, (monitor.round worldQuota.table).run worldQuota = some (leave, w2) ∧
      leave = true ∧ w2.out = [Line.allMeals] ∧ w2.table.sim_stop = true) ∧
    (sysQuota.path 2 schedQuota =
      [Obs.value .getTime 105, .flag false, .value (.elapsed 0) 0, .value (.elapsed 1) 5,
        .flag false, .flag false, .value (.timesAte 0) 1, .value (.timesAte 1) 1,
        .did .setStop] ++ [Obs.did .printAllMeals] ∧
      ∃ l0 l1 l2 l3,
        [Obs.value .getTime 105, .flag false, .value (.elapsed 0) 0, .value (.elapsed 1) 5,
          .flag false, .flag false, .value (.timesAte 0) 1, .value (.timesAte 1) 1,
          .did .setStop] = l0 ++ l1 ++ Obs.flag false :: l2 ++ l3 ∧
        (hasAnyoneDied sysQuota.world.table).follow l1 = some (.ret false) ∧
        (areMealsCompleted sysQuota.world.table).follow l2 = some (.ret true) ∧
        l3 = [Obs.did .setStop]) ∧
    (sysQuota.path 2 schedStopped =
      [Obs.value .getTime 105] ++
        ([Obs.flag false, .value (.elapsed 0) 0, .value (.elapsed 1) 5, .flag false] ++
          [Obs.flag true]) ∧
      (monitor.round sysQuota.world.table).follow
        ([Obs.flag false, .value (.elapsed 0) 0, .value (.elapsed 1) 5, .flag false] ++
          [Obs.flag true]) = some (.ret true) ∧
      allMealsCount (sysQuota.run schedStopped).world.out = 0 ∧
      diedCount (sysQuota.run schedStopped).world.out = 1) := by
  refine ⟨?_, ⟨by decide, ?_⟩, ⟨by decide, ?_, by decide, by decide⟩⟩
  · obtain ⟨-, ⟨died, w1, leave, w2, h1, h2, -, hq, -⟩, -, -⟩ := monitor_quota worldQuota
    have e : (hasAnyoneDied worldQuota.table).run worldQuota =
        some (false, { worldQuota with ticks := 2 }) := rfl
    rw [e] at h1
    simp only [Option.some.injEq, Prod.mk.injEq] at h1
    obtain ⟨hd, hw⟩ := h1
    subst hd
    subst hw
    obtain ⟨ho, ht, hl⟩ := hq ⟨by decide, rfl, rfl, rfl⟩
    exact ⟨leave, w2, h2, hl, by rw [ho]; rfl, by rw [ht]⟩
  · obtain ⟨-, -, l0, l1, l2, l3, e, h1, h2, -, h3⟩ :=
      (monitor_quota worldQuota).2.2.2.2.1 (initTable 6 [0, 2, 10, 0, 0, 1])
        (clockOf (60 :: (List.replicate 27 100 ++ List.replicate 19 105)) 110) 3 schedQuota 2
        [Obs.value .getTime 105, .flag false, .value (.elapsed 0) 0, .value (.elapsed 1) 5,
          .flag false, .flag false, .value (.timesAte 0) 1, .value (.timesAte 1) 1,
          .did .setStop] .printAllMeals (Or.inr rfl) (by decide)
    refine ⟨l0, l1, l2, l3, e, h1, h2, ?_⟩
    rcases h3 with ⟨-, h4⟩ | ⟨h4, -⟩
    · cases h4
    · exact h4
  · exact (monitor_quota worldQuota).2.2.2.2.2 _ _ rfl

end Philosophers
